import Mathlib

/-!
# RWKV tokenizer (`src/tokenizer.js`): a shallow embedding

The module builds its lookup tables when it is loaded and exports `encode` and
`decode`.  The embedding follows the source statement by statement.

Modelling conventions.

* A JavaScript string is modelled by the list of its code points (`Text`); the
  source only searches, slices and iterates strings, which on well-formed
  UTF-16 agrees with the same operations on code points.
* A JavaScript object is the list of its own properties in enumeration order
  (`for ... in`): array-index keys (canonical decimal numerals below `2^32 - 1`)
  ascending first, then the other keys in insertion order.  Properties
  inherited from `Object.prototype` are not modelled.
* Token IDs are natural numbers (exactly representable, printed in plain
  decimal).  A token slot can hold a number, the decimal string of a number
  (the keys produced by `for ... in`) or `undefined`; see `Tok`.
* A function that may loop forever or throw returns an `Option`; every such
  definition says what `none` stands for.
-/

set_option autoImplicit false

namespace RWKV

/-- Text: a JavaScript string, as the list of its code points. -/
abbrev Text := List Char

/-! ## JavaScript values held in token slots -/

/-- Values that occur as tokens and as vocabulary values: `num n` is the
number `n`, `key n` is the string holding the decimal numeral of `n` (what
`for (const id in obj)` yields for the property `n`), `undef` is `undefined`
(a failed property lookup or an out-of-range array read). -/
inductive Tok where
  | num (n : Nat)
  | key (n : Nat)
  | undef
  deriving DecidableEq, Repr

namespace Tok

/-- Property key named by a token (`obj[t]`, `t in obj`) and value of
`parseInt(t)`: the number itself for both a number and its decimal string;
`undefined` names no numeric property. -/
def prop : Tok → Option Nat
  | num n => some n
  | key n => some n
  | undef => none

/-- Truthiness (`if (t)`): the number `0` and `undefined` are falsy, a
non-empty string (also `"0"`) is truthy. -/
def truthy : Tok → Bool
  | num n => n != 0
  | key _ => true
  | undef => false

/-- Loose equality with a number (`t == n`): a numeric string is converted
to its number first. -/
def looseEq (t : Tok) (n : Nat) : Bool :=
  match t with
  | num m => m == n
  | key m => m == n
  | undef => false

end Tok

/-! ## JavaScript objects -/

/-- Look up an own property. -/
def objGet {K V : Type} [DecidableEq K] : List (K × V) → K → Option V
  | [], _ => none
  | (k', v) :: o, k => if k' = k then some v else objGet o k

/-- Insert a new array-index key `k` (numeric value `n`) at its place:
after the array-index keys smaller than `n`, before everything else. -/
def objInsertIdx {K V : Type} (idx : K → Option Nat) (n : Nat) (k : K) (v : V) :
    List (K × V) → List (K × V)
  | [] => [(k, v)]
  | (k', v') :: o =>
    match idx k' with
    | some m => if m < n then (k', v') :: objInsertIdx idx n k v o else (k, v) :: (k', v') :: o
    | none => (k, v) :: (k', v') :: o

/-- Assignment `o[k] = v`: an existing property keeps its place and takes the
new value; a new array-index key is placed in ascending numeric order among
the array-index keys; any other new key goes last.  `idx` tells which keys
are array indices. -/
def objSet {K V : Type} [DecidableEq K] (idx : K → Option Nat) (o : List (K × V)) (k : K) (v : V) :
    List (K × V) :=
  if (objGet o k).isSome then o.map (fun p => if p.1 = k then (k, v) else p)
  else
    match idx k with
    | some n => objInsertIdx idx n k v o
    | none => o ++ [(k, v)]

/-- Array-index test for a numeric key. -/
def natIdx (n : Nat) : Option Nat := if n < 2 ^ 32 - 1 then some n else none

/-- Value of a decimal digit character. -/
def digitVal (c : Char) : Option Nat :=
  if 48 ≤ c.toNat ∧ c.toNat ≤ 57 then some (c.toNat - 48) else none

/-- Value of a string of decimal digits (`none` if some character is not a digit). -/
def digitsVal : Nat → Text → Option Nat
  | acc, [] => some acc
  | acc, c :: cs =>
    match digitVal c with
    | some d => digitsVal (acc * 10 + d) cs
    | none => none

/-- Array-index test for a string key: a canonical decimal numeral (no
leading zero except `"0"` itself) with value below `2^32 - 1`. -/
def textIdx (s : Text) : Option Nat :=
  match s with
  | [] => none
  | c :: cs =>
    if c.toNat = 48 ∧ cs ≠ [] then none
    else
      match digitsVal 0 (c :: cs) with
      | some n => if n < 2 ^ 32 - 1 then some n else none
      | none => none

/-! ## Strings and bytes -/

/-- The call `haystack.indexOf(needle)`: offset of the first occurrence, `none` for `-1`. -/
def indexOf (needle : Text) : Text → Option Nat
  | [] => if needle = [] then some 0 else none
  | c :: cs =>
    if needle.isPrefixOf (c :: cs) then some 0
    else (indexOf needle cs).map (· + 1)

/-- UTF-8 bytes of one code point. -/
def utf8Char (c : Char) : List Nat :=
  let n := c.toNat
  if n < 0x80 then [n]
  else if n < 0x800 then [0xC0 + n / 64, 0x80 + n % 64]
  else if n < 0x10000 then [0xE0 + n / 4096, 0x80 + n / 64 % 64, 0x80 + n % 64]
  else [0xF0 + n / 262144, 0x80 + n / 4096 % 64, 0x80 + n / 64 % 64, 0x80 + n % 64]

/-- The call `Buffer.from(s, utf8)`, as a list of bytes. -/
def utf8Encode (s : Text) : List Nat := s.flatMap utf8Char

/-- State of the UTF-8 decoder between two bytes: `none` when no sequence is
open, otherwise the bits collected so far, the number of continuation bytes
still expected and the range allowed for the next byte. -/
structure Utf8State where
  cp : Nat
  need : Nat
  lo : Nat
  hi : Nat

/-- Start a sequence at byte `b`: a finished character, an opened sequence,
or an invalid byte (replaced by U+FFFD). -/
def utf8Lead (b : Nat) : Text × Option Utf8State :=
  if b < 0x80 then ([Char.ofNat b], none)
  else if 0xC2 ≤ b ∧ b ≤ 0xDF then ([], some ⟨b % 32, 1, 0x80, 0xBF⟩)
  else if 0xE0 ≤ b ∧ b ≤ 0xEF then
    ([], some ⟨b % 16, 2, if b = 0xE0 then 0xA0 else 0x80, if b = 0xED then 0x9F else 0xBF⟩)
  else if 0xF0 ≤ b ∧ b ≤ 0xF4 then
    ([], some ⟨b % 8, 3, if b = 0xF0 then 0x90 else 0x80, if b = 0xF4 then 0x8F else 0xBF⟩)
  else ([Char.ofNat 0xFFFD], none)

/-- The decoder loop: an ill-formed sequence is replaced by one U+FFFD and
the offending byte is decoded again as the start of a new sequence. -/
def utf8Go : Option Utf8State → List Nat → Text
  | none, [] => []
  | some _, [] => [Char.ofNat 0xFFFD]
  | none, b :: bs => (utf8Lead b).1 ++ utf8Go (utf8Lead b).2 bs
  | some st, b :: bs =>
    if st.lo ≤ b ∧ b ≤ st.hi then
      if st.need = 1 then Char.ofNat (st.cp * 64 + b % 64) :: utf8Go none bs
      else utf8Go (some ⟨st.cp * 64 + b % 64, st.need - 1, 0x80, 0xBF⟩) bs
    else Char.ofNat 0xFFFD :: ((utf8Lead b).1 ++ utf8Go (utf8Lead b).2 bs)

/-- The call `Buffer.from(bytes).toString(utf8)`. -/
def utf8Decode (bytes : List Nat) : Text := utf8Go none bytes

/-- The call `c.charCodeAt(0)` for a one-code-point string `c`: the code point itself
in the basic plane, else the leading surrogate of its UTF-16 pair. -/
def charCodeAt0 (c : Char) : Nat :=
  if c.toNat < 0x10000 then c.toNat else 0xD800 + (c.toNat - 0x10000) / 1024

/-- The method `Array.prototype.toString` on an array of one-character strings: the
elements joined by commas. -/
def commaJoin : List Char → Text
  | [] => []
  | [c] => [c]
  | c :: d :: cs => c :: ',' :: commaJoin (d :: cs)

/-! ## The word pattern -/

/-- Class `\s` of the pattern: the white space and line terminator code points. -/
def isSpace (c : Char) : Bool :=
  let n := c.toNat
  (9 ≤ n && n ≤ 13) || n == 0x20 || n == 0xA0 || n == 0x1680 || (0x2000 ≤ n && n ≤ 0x200A)
    || n == 0x2028 || n == 0x2029 || n == 0x202F || n == 0x205F || n == 0x3000 || n == 0xFEFF

/-- Unicode data of the platform that the source relies on and does not
define: the general categories `\p{L}` and `\p{N}` of the pattern, and
`String.prototype.normalize` for the normalization form named by the
configuration.  Every standard form leaves ASCII text unchanged. -/
structure Unicode where
  isLetter : Char → Bool
  isNumber : Char → Bool
  normalize : Text → Text
  normalize_ascii : ∀ s : Text, (∀ c ∈ s, c.toNat < 128) → normalize s = s

/-- The apostrophe. -/
def apos : Char := Char.ofNat 39

/-- The first seven alternatives of the pattern, in order. -/
def contractions : List Text :=
  [[apos, 's'], [apos, 't'], [apos, 'r', 'e'], [apos, 'v', 'e'], [apos, 'm'], [apos, 'l', 'l'],
    [apos, 'd']]

/-- Length of the first contraction alternative matching at the head of `s`. -/
def matchContraction (s : Text) : Option Nat :=
  (contractions.find? (fun p => p.isPrefixOf s)).map List.length

/-- Length of the longest run of characters of class `p` at the head of `s`. -/
def run (p : Char → Bool) (s : Text) : Nat := (s.takeWhile p).length

/-- Match ` ?C+` at the head of `s` for a class `C`: the optional space is
tried first, and given up when no character of the class follows it. -/
def optSpaceRun (p : Char → Bool) (s : Text) : Option Nat :=
  match s with
  | [] => none
  | c :: cs =>
    if c = ' ' ∧ 0 < run p cs then some (1 + run p cs)
    else if 0 < run p (c :: cs) then some (run p (c :: cs))
    else none

/-- Match `\s+(?!\S)` at the head of `s`: the whole white-space run when the
text ends after it, otherwise the run without its last character (so that a
white-space character follows), if anything is left. -/
def spaceLookahead (s : Text) : Option Nat :=
  let n := run isSpace s
  if n = 0 then none
  else if s.drop n = [] then some n
  else if 2 ≤ n then some (n - 1)
  else none

/-- Match `\s+` at the head of `s`. -/
def spaceRun (s : Text) : Option Nat :=
  if 0 < run isSpace s then some (run isSpace s) else none

/-- One match attempt of `splitwords_pattern` at the head of `s`: the
alternatives in their order, the first that matches wins. -/
def matchAt (u : Unicode) (s : Text) : Option Nat :=
  (matchContraction s).orElse fun _ =>
  (optSpaceRun u.isLetter s).orElse fun _ =>
  (optSpaceRun u.isNumber s).orElse fun _ =>
  (optSpaceRun (fun c => !isSpace c && !u.isLetter c && !u.isNumber c) s).orElse fun _ =>
  (spaceLookahead s).orElse fun _ =>
  spaceRun s

/-- The `matchAll` loop: at each position take the match found there and
resume after it, or move on by one character when nothing matches.  Each
round consumes at least one character, so `fuel = s.length` rounds suffice. -/
def splitWordsGo (u : Unicode) : Nat → Text → List Text
  | 0, _ => []
  | _, [] => []
  | fuel + 1, c :: cs =>
    match matchAt u (c :: cs) with
    | some n => (c :: cs).take n :: splitWordsGo u fuel ((c :: cs).drop n)
    | none => splitWordsGo u fuel cs

/-- The function `splitWords(s)`. -/
def splitWords (u : Unicode) (s : Text) : List Text := splitWordsGo u s.length s

/-! ## Configuration and tables built at load time -/

/-- Modelled from the spec: the two static codec tables (`byteToUnicode.js` and
`unicodeToByte.js` are required by the source and are not part of it).  The
spec (sections 3 and 4.1) fixes them as a total bijection between the bytes
0..255 and 256 surface code points, one table the inverse of the other. -/
structure Codec where
  byteToUnicode : Nat → Char
  unicodeToBytes : Char → Option Nat
  left_inv : ∀ b, b < 256 → unicodeToBytes (byteToUnicode b) = some b

/-- One entry of `added_tokens`. -/
structure AddedToken where
  id : Nat
  content : Text

/-- All that the module reads when it is loaded: the codec tables, the
platform's Unicode data, and from the tokenizer JSON the entries of
`model.vocab`, the list `model.merges` and the list `added_tokens`. -/
structure Config where
  codec : Codec
  unicode : Unicode
  vocab : List (Text × Nat)
  merges : List Text
  added_tokens : List AddedToken

/-- The object `addedTokens`: `addedTokens[parseInt(token.id)] = token.content`
for each entry in turn. -/
def addedTokens (cfg : Config) : List (Nat × Text) :=
  cfg.added_tokens.foldl (fun o t => objSet natIdx o t.id t.content) []

/-- The object `vocab` as parsed from the JSON, before the module extends it. -/
def vocabRaw (cfg : Config) : List (Text × Tok) :=
  cfg.vocab.foldl (fun o e => objSet textIdx o e.1 (Tok.num e.2)) []

/-- The array `byteToUnicodeVocab`, filled from the vocabulary as it is
before the added tokens are registered; slots without entry read `undefined`. -/
def byteToUnicodeVocab (cfg : Config) (b : Nat) : Tok :=
  if b < 256 then (objGet (vocabRaw cfg) [cfg.codec.byteToUnicode b]).getD Tok.undef
  else Tok.undef

/-- The object `addedTokensTokensMap`: same keys as `addedTokens`, in the same
order; each value is the literal's bytes mapped through `byteToUnicodeVocab`. -/
def addedTokensTokensMap (cfg : Config) : List (Nat × List Tok) :=
  (addedTokens cfg).map fun e => (e.1, (utf8Encode e.2).map (byteToUnicodeVocab cfg))

/-- The key `encodedAddedToken` under which an added token is registered: the
array of surface characters of its bytes, converted by `Array.prototype.toString`
(which ignores its argument and joins the elements with commas). -/
def encodedAddedToken (cfg : Config) (content : Text) : Text :=
  commaJoin ((utf8Encode content).map cfg.codec.byteToUnicode)

/-- The object `vocab` after `vocab[encodedAddedToken] = addedTokenId` has run
for each added token; the value stored is the `for ... in` key, a string. -/
def vocab (cfg : Config) : List (Text × Tok) :=
  (addedTokens cfg).foldl (fun v e => objSet textIdx v (encodedAddedToken cfg e.2) (Tok.key e.1))
    (vocabRaw cfg)

/-- The body of the loop that fills `vocabReversed`, for the property
`content = e.1` with value `vocab[content] = e.2`. -/
def reverseStep (o : List (Nat × Text)) (e : Text × Tok) : List (Nat × Text) :=
  match e.2.prop with
  | some n => objSet natIdx o n e.1
  | none => o

/-- The object `vocabReversed`: `vocabReversed[parseInt(vocab[content])] = content`
for each key of `vocab` in enumeration order. -/
def vocabReversed (cfg : Config) : List (Nat × Text) :=
  (vocab cfg).foldl reverseStep []

/-- One processed merge rule. -/
structure MergeObj where
  tokenA : Tok
  tokenB : Tok
  tokenMerged : Tok
  deriving DecidableEq, Repr

/-- Property read `v[k]`, `undefined` when absent. -/
def lookupTok (v : List (Text × Tok)) (k : Text) : Tok := (objGet v k).getD Tok.undef

/-- The callback of `merges.map`: `none` when it throws (no space in the rule). -/
def processMerge (v : List (Text × Tok)) (merge : Text) : Option MergeObj :=
  match indexOf [' '] merge with
  | none => none
  | some space =>
    some ⟨lookupTok v (merge.take space), lookupTok v (merge.drop (space + 1)),
      lookupTok v (merge.take space ++ merge.drop (space + 1))⟩

/-- The expression `merges.map(...)`: `none` when the callback throws for some rule. -/
def processedMergesOf (v : List (Text × Tok)) : List Text → Option (List MergeObj)
  | [] => some []
  | m :: ms =>
    match processMerge v m with
    | none => none
    | some x =>
      match processedMergesOf v ms with
      | none => none
      | some xs => some (x :: xs)

/-- The constant `processedMerges`, computed from the extended vocabulary. -/
def processedMerges (cfg : Config) : Option (List MergeObj) :=
  processedMergesOf (vocab cfg) cfg.merges

/-- The body of the loop that fills `u0120Merges`, for the property
`content = e.1` of the vocabulary `v` with value `v[content] = e.2`: skipped
unless the key starts with U+0120 and its non-empty remainder is a key of `v`. -/
def u0120Step (v : List (Text × Tok)) (o : List (Nat × Tok)) (e : Text × Tok) : List (Nat × Tok) :=
  match e.1 with
  | [] => o
  | c :: rest =>
    if charCodeAt0 c ≠ 0x120 then o
    else if rest.length = 0 then o
    else
      match objGet v rest with
      | none => o
      | some restTokenID =>
        match restTokenID.prop with
        | some n => objSet natIdx o n e.2
        | none => o

/-- The object `u0120Merges`: for each key of `vocab` that starts with U+0120
and whose non-empty remainder is a key too, `u0120Merges[vocab[rest]] = vocab[content]`. -/
def u0120Merges (cfg : Config) : List (Nat × Tok) :=
  (vocab cfg).foldl (u0120Step (vocab cfg)) []

/-- The loaded module: its configuration and the merge table.  It exists only
if building `processedMerges` did not throw. -/
structure Tokenizer where
  cfg : Config
  processedMerges : List MergeObj

/-- Loading the module: `none` when it throws. -/
def load (cfg : Config) : Option Tokenizer :=
  (processedMerges cfg).map fun pm => ⟨cfg, pm⟩

/-! ## Utilities of the encoder -/

/-- The test `matchFound` of `replaceSubsequence`: every `a[j]` equals
`lst[i + j]`, where reads past the end of `lst` give `undefined`.  The first
argument is `lst` from index `i` on. -/
def matchFound : List Tok → List Tok → Bool
  | _, [] => true
  | [], y :: a => decide (Tok.undef = y) && matchFound [] a
  | x :: l, y :: a => decide (x = y) && matchFound l a

/-- The loop of `replaceSubsequence(lst, a, b)`, on the part of `lst` from the
loop index on; the result is that part as the loop leaves it.  After a splice
the index moves on by one, past the first element now at the index.  `none`
when the loop has not ended within `fuel` rounds. -/
def replaceSubsequenceGo (a b : List Tok) : Nat → List Tok → Option (List Tok)
  | _, [] => some []
  | 0, _ :: _ => none
  | fuel + 1, x :: rest =>
    if x ≠ a.headD Tok.undef then (replaceSubsequenceGo a b fuel rest).map (x :: ·)
    else if matchFound (x :: rest) a then
      match b ++ (x :: rest).drop a.length with
      | [] => some []
      | y :: rest' => (replaceSubsequenceGo a b fuel rest').map (y :: ·)
    else (replaceSubsequenceGo a b fuel rest).map (x :: ·)

/-- The call `replaceSubsequence(lst, a, b)`: the list `lst` as the call leaves it. -/
def replaceSubsequence (fuel : Nat) (lst a b : List Tok) : Option (List Tok) :=
  replaceSubsequenceGo a b fuel lst

/-- An element of the list returned by `encodeAddedTokens`: a number (an
added-token ID) or a string. -/
inductive Part where
  | id (n : Nat)
  | text (s : Text)
  deriving DecidableEq, Repr

/-- The body of the `for ... in` loop of `encodeAddedTokens` for the added
token `e`, on the pair `(nearestPos, nearestToken)`; `none` stands for `-1`. -/
def nearestStep (remainder : Text) (st : Nat × Option Nat) (e : Nat × Text) : Nat × Option Nat :=
  match indexOf e.2 remainder with
  | some pos => if pos < st.1 then (pos, some e.1) else st
  | none => st

/-- The `for ... in` loop of `encodeAddedTokens`: the pair
`(nearestPos, nearestToken)` it leaves. -/
def nearest (toks : List (Nat × Text)) (remainder : Text) : Nat × Option Nat :=
  toks.foldl (nearestStep remainder) (remainder.length, none)

/-- The `while` loop of `encodeAddedTokens` from a given `remainder` on: the
elements pushed from then on.  `none` when the loop has not ended within
`fuel` rounds (a round whose nearest literal is empty leaves `remainder` as it
is, so the loop never ends) or when it reads a missing property. -/
def encodeAddedTokensLoop (toks : List (Nat × Text)) : Nat → Text → Option (List Part)
  | _, [] => some []
  | 0, _ :: _ => none
  | fuel + 1, c :: cs =>
    let remainder := c :: cs
    let st := nearest toks remainder
    if st.1 = remainder.length then some [Part.text remainder]
    else
      match st.2 with
      | none => none
      | some nearestToken =>
        match objGet toks nearestToken with
        | none => none
        | some literal =>
          (encodeAddedTokensLoop toks fuel (remainder.drop (st.1 + literal.length))).map fun rest =>
            (if st.1 ≠ 0 then [Part.text (remainder.take st.1)] else [])
              ++ Part.id nearestToken :: rest

/-- The function `encodeAddedTokens(s)`; every round that ends removes at least one
character, so `s.length` rounds are enough whenever the loop ends at all. -/
def encodeAddedTokens (cfg : Config) (s : Text) : Option (List Part) :=
  encodeAddedTokensLoop (addedTokens cfg) s.length s

/-- One merge rule applied to `tokens` from index `i` on (`cur = tokens[i]`,
the list is `tokens` after `i`): on a match the pair is replaced by
`tokenMerged` and index `i` is examined again, else the index moves on. -/
def mergeGo (m : MergeObj) (cur : Tok) : List Tok → List Tok
  | [] => [cur]
  | y :: rest =>
    if cur = m.tokenA ∧ y = m.tokenB then mergeGo m m.tokenMerged rest
    else cur :: mergeGo m y rest

/-- The inner `for` loop of the merge step for one rule. -/
def mergePass (m : MergeObj) : List Tok → List Tok
  | [] => []
  | x :: xs => mergeGo m x xs

/-- Lookup `u0120Merges[nextToken]`. -/
def u0120Lookup (cfg : Config) (t : Tok) : Tok :=
  match t.prop with
  | some n => (objGet (u0120Merges cfg) n).getD Tok.undef
  | none => Tok.undef

/-- The U+0120 loop from index `i` on (`cur = result[i]`, the list is `result`
after `i`). -/
def u0120Go (cfg : Config) (cur : Tok) : List Tok → List Tok
  | [] => [cur]
  | y :: rest =>
    if cur.looseEq 209 ∧ (u0120Lookup cfg y).truthy then u0120Go cfg (u0120Lookup cfg y) rest
    else cur :: u0120Go cfg y rest

/-- The U+0120 special merging loop over the whole `result`. -/
def u0120Pass (cfg : Config) : List Tok → List Tok
  | [] => []
  | x :: xs => u0120Go cfg x xs

/-- Concatenate results, `none` as soon as one is missing. -/
def collect {α : Type} : List (Option (List α)) → Option (List α)
  | [] => some []
  | none :: _ => none
  | some x :: rest => (collect rest).map (x ++ ·)

/-! ## Encode and decode -/

/-- The body of the loop over the words of a part: byte tokens, then the
replacement of each added token's byte-token sequence, then the merge rules
in table order. -/
def wordTokens (tk : Tokenizer) (word : Text) : Option (List Tok) :=
  let tokens := (utf8Encode word).map (byteToUnicodeVocab tk.cfg)
  let replaced := (addedTokensTokensMap tk.cfg).foldl
    (fun acc e => acc.bind fun t => replaceSubsequence (t.length + 1) t e.2 [Tok.key e.1])
    (some tokens)
  replaced.map fun t => tk.processedMerges.foldl (fun t m => mergePass m t) t

/-- The tokens pushed for one element of `encodedParts`. -/
def partTokens (tk : Tokenizer) : Part → Option (List Tok)
  | Part.id n => some [Tok.num n]
  | Part.text s => collect ((splitWords tk.cfg.unicode s).map (wordTokens tk))

/-- The list `result` of `encode` before the U+0120 loop. -/
def encodeParts (tk : Tokenizer) (parts : List Part) : Option (List Tok) :=
  collect (parts.map (partTokens tk))

/-- The function `encode(s)`; `none` when the call does not return a value. -/
def encode (tk : Tokenizer) (s : Text) : Option (List Tok) :=
  (encodeAddedTokens tk.cfg (tk.cfg.unicode.normalize s)).bind fun parts =>
    (encodeParts tk parts).map (u0120Pass tk.cfg)

/-- Conversion of an array element to a byte by `Buffer.from(array)`. -/
def toByte : Option Nat → Nat
  | some n => n % 256
  | none => 0

/-- The bytes appended for one token by the loop of `decode`; `none` when the
loop throws at this token. -/
def decodeToken (cfg : Config) (t : Tok) : Option (List Nat) :=
  match t.prop with
  | none => none
  | some n =>
    match objGet (addedTokens cfg) n with
    | some tokenString => some (tokenString.map fun c => toByte (some (charCodeAt0 c)))
    | none =>
      match objGet (vocabReversed cfg) n with
      | some tokenString => some (tokenString.map fun c => toByte (cfg.codec.unicodeToBytes c))
      | none => none

/-- The function `decode(tokens)`; `none` when it throws. -/
def decode (tk : Tokenizer) (tokens : List Tok) : Option Text :=
  (collect (tokens.map (decodeToken tk.cfg))).map utf8Decode

/-! ## Predicates used in the statements -/

/-- The triple the callback of `merges.map` returns for a rule that has a
space: the three lookups, `undefined` where the vocabulary has no entry. -/
def mergeTriple (v : List (Text × Tok)) (merge : Text) : MergeObj :=
  let left := merge.takeWhile (· ≠ ' ')
  let right := (merge.dropWhile (· ≠ ' ')).drop 1
  ⟨lookupTok v left, lookupTok v right, lookupTok v (left ++ right)⟩

/-- Bound on a match length: at least one character, at most the whole text. -/
def Fits (s : Text) (r : Option Nat) : Prop := ∀ n, r = some n → 1 ≤ n ∧ n ≤ s.length

/-- What the splitter guarantees about one element of its result. -/
def PartOk (toks : List (Nat × Text)) : Part → Prop
  | Part.id n => (objGet toks n).isSome
  | Part.text t => t ≠ [] ∧ ∀ e ∈ toks, e.2 ≠ [] → ¬ e.2 <:+: t

/-- Keys all array indices, in ascending order. -/
def AscKeys {V : Type} (o : List (Nat × V)) : Prop :=
  (o.map Prod.fst).Pairwise (· < ·) ∧ ∀ k ∈ o.map Prod.fst, k < 2 ^ 32 - 1

/-- The token names an added token or a key of `vocabReversed`. -/
def Resolvable (cfg : Config) (t : Tok) : Prop :=
  ∃ n, t.prop = some n ∧
    ((objGet (addedTokens cfg) n).isSome ∨ (objGet (vocabReversed cfg) n).isSome)

/-- The vocabulary of the configuration has the surface string of every byte. -/
def AllBytes (cfg : Config) : Prop :=
  ∀ b, b < 256 → [cfg.codec.byteToUnicode b] ∈ cfg.vocab.map Prod.fst

/-- Every merge rule has a space, and its left part, its right part and their
concatenation are keys of the configuration's vocabulary. -/
def MergesResolve (cfg : Config) : Prop :=
  ∀ m ∈ cfg.merges, ' ' ∈ m ∧
    m.takeWhile (· ≠ ' ') ∈ cfg.vocab.map Prod.fst ∧
    (m.dropWhile (· ≠ ' ')).drop 1 ∈ cfg.vocab.map Prod.fst ∧
    m.takeWhile (· ≠ ' ') ++ (m.dropWhile (· ≠ ' ')).drop 1 ∈ cfg.vocab.map Prod.fst

/-- The entry `e` of the vocabulary `v` passes the tests of the loop that fills
`u0120Merges` and is stored under the key `n`. -/
def U0120Entry (v : List (Text × Tok)) (e : Text × Tok) (n : Nat) : Prop :=
  ∃ c rest r, e.1 = c :: rest ∧ charCodeAt0 c = 0x120 ∧ rest ≠ [] ∧ objGet v rest = some r ∧
    r.prop = some n

/-! ## Concrete configurations used as inputs below -/

/-- The byte-to-surface table of GPT-2 style byte-level vocabularies: printable
bytes stand for themselves, the others are moved to U+0100 and up, so that the
space byte becomes U+0120. -/
def gpt2ByteToUnicode (b : Nat) : Char :=
  if b ≤ 32 then Char.ofNat (b + 256)
  else if 127 ≤ b ∧ b ≤ 160 then Char.ofNat (b + 162)
  else if b = 173 then Char.ofNat 323
  else Char.ofNat b

/-- The inverse table. -/
def gpt2UnicodeToBytes (c : Char) : Option Nat :=
  let n := c.toNat
  if (33 ≤ n ∧ n ≤ 126) ∨ (161 ≤ n ∧ n ≤ 172) ∨ (174 ≤ n ∧ n ≤ 255) then some n
  else if 256 ≤ n ∧ n ≤ 288 then some (n - 256)
  else if 289 ≤ n ∧ n ≤ 322 then some (n - 162)
  else if n = 323 then some 173
  else none

/-- The GPT-2 codec. -/
def gpt2Codec : Codec :=
  ⟨gpt2ByteToUnicode, gpt2UnicodeToBytes, by decide!⟩

/-- Unicode data restricted to what the inputs below need: ASCII letters and
digits, and a normalizer that leaves its input as it is (as NFC does on ASCII
text and on the precomposed letter U+00E9). -/
def asciiUnicode : Unicode where
  isLetter c := (65 ≤ c.toNat && c.toNat ≤ 90) || (97 ≤ c.toNat && c.toNat ≤ 122)
  isNumber c := 48 ≤ c.toNat && c.toNat ≤ 57
  normalize s := s
  normalize_ascii _ _ := rfl

/-- The 256 single-byte entries of a vocabulary, the space byte's surface
string U+0120 having ID 209. -/
def byteVocab : List (Text × Nat) :=
  (List.range 256).map fun b => ([gpt2ByteToUnicode b], (b + 177) % 256)

/-- A configuration with one added token `<>` (ID 300, also a vocabulary
entry) whose vocabulary has the key U+0120 `<,>`. -/
def cfgComma : Config where
  codec := gpt2Codec
  unicode := asciiUnicode
  vocab := byteVocab ++ [("<>".toList, 300), ("Ġ<,>".toList, 900)]
  merges := []
  added_tokens := [⟨300, "<>".toList⟩]

/-- A configuration whose added token has the non-ASCII literal U+00E9. -/
def cfgAccent : Config where
  codec := gpt2Codec
  unicode := asciiUnicode
  vocab := byteVocab
  merges := []
  added_tokens := [⟨300, "é".toList⟩]

/-- A small vocabulary: the surface strings of the space byte (ID 209) and of
four printable bytes. -/
def smallVocab : List (Text × Nat) :=
  [("Ġ".toList, 209), ("a".toList, 64), ("b".toList, 65), ("<".toList, 27), (">".toList, 29)]

/-- Two added tokens registered with descending IDs, one literal a beginning
of the other. -/
def cfgTie : Config where
  codec := gpt2Codec
  unicode := asciiUnicode
  vocab := smallVocab
  merges := []
  added_tokens := [⟨7, "ab".toList⟩, ⟨3, "a".toList⟩]

/-- An added token `<>` (ID 300) whose vocabulary also has the entry
U+0120 `<>` (ID 301). -/
def cfgAbsorb : Config where
  codec := gpt2Codec
  unicode := asciiUnicode
  vocab := smallVocab ++ [("<>".toList, 300), ("Ġ<>".toList, 301)]
  merges := []
  added_tokens := [⟨300, "<>".toList⟩]

/-- A vocabulary with two merged entries and the rules that produce them. -/
def cfgMerge : Config where
  codec := gpt2Codec
  unicode := asciiUnicode
  vocab := byteVocab ++ [("he".toList, 256), ("Ġw".toList, 257)]
  merges := ["h e".toList, "Ġ w".toList]
  added_tokens := [⟨300, "<|endoftext|>".toList⟩]

/-- A merge rule whose right part and concatenation are not in the vocabulary. -/
def cfgLoose : Config where
  codec := gpt2Codec
  unicode := asciiUnicode
  vocab := [("a".toList, 1)]
  merges := ["a b".toList]
  added_tokens := []

/-- Two surface strings sharing one ID. -/
def cfgShared : Config where
  codec := gpt2Codec
  unicode := asciiUnicode
  vocab := [("a".toList, 5), ("b".toList, 5)]
  merges := []
  added_tokens := []

/-- The hypotheses of the ASCII round trip on a configuration: injective
vocabulary holding every single-byte surface string, merge rules that resolve,
209 the ID of the space byte's surface string, added-token literals non-empty
ASCII and entered in the vocabulary under their own ID. -/
def WellFormed (cfg : Config) : Prop :=
  (cfg.vocab.map Prod.fst).Nodup ∧ (cfg.vocab.map Prod.snd).Nodup ∧
  AllBytes cfg ∧ MergesResolve cfg ∧
  ([cfg.codec.byteToUnicode 32], 209) ∈ cfg.vocab ∧
  ∀ t ∈ cfg.added_tokens, t.content ≠ [] ∧ (∀ c ∈ t.content, c.toNat < 128) ∧
    ((utf8Encode t.content).map cfg.codec.byteToUnicode, t.id) ∈ cfg.vocab

/-! ## The merge engine, and a count of the replacements of one pass -/

/-- The loop over `processedMerges` in `encode`: one pass per rule, in table order. -/
def mergeEngine (ms : List MergeObj) (tokens : List Tok) : List Tok :=
  ms.foldl (fun t m => mergePass m t) tokens

/-- Number of times the body of the `if` of the merge loop runs for one rule,
from index `i` on (same arguments and same tests as `mergeGo`). -/
def mergeGoCount (m : MergeObj) (cur : Tok) : List Tok → Nat
  | [] => 0
  | y :: rest =>
    if cur = m.tokenA ∧ y = m.tokenB then mergeGoCount m m.tokenMerged rest + 1
    else mergeGoCount m y rest

/-- Number of replacements the inner `for` loop makes for one rule. -/
def mergePassCount (m : MergeObj) : List Tok → Nat
  | [] => 0
  | x :: xs => mergeGoCount m x xs

/-! ## The strategy the specification contrasts the merge engine with -/

/-- Specification side: replace the leftmost adjacent pair `(tokenA, tokenB)` of
the sequence by `tokenMerged`; `none` when the pair is not present. -/
def mergeLeftmost (m : MergeObj) : List Tok → Option (List Tok)
  | [] => none
  | [_] => none
  | x :: y :: rest =>
    if x = m.tokenA ∧ y = m.tokenB then some (m.tokenMerged :: rest)
    else (mergeLeftmost m (y :: rest)).map (x :: ·)

/-- Specification side: one step of the standard strategy, which finds the
highest-priority rule (the first of the table) that has an adjacent pair
anywhere in the sequence and merges that pair; `none` when no rule applies. -/
def bestPairStep (ms : List MergeObj) (l : List Tok) : Option (List Tok) :=
  ms.findSome? fun m => mergeLeftmost m l

/-- Specification side: the standard strategy, repeating `bestPairStep` until no
rule applies (at most `fuel` times; every step removes one token). -/
def standardBestPairMerge (ms : List MergeObj) : Nat → List Tok → List Tok
  | 0, l => l
  | fuel + 1, l =>
    match bestPairStep ms l with
    | none => l
    | some l' => standardBestPairMerge ms fuel l'

/-- A vocabulary with the entries `bc` and `abc`, and the rule that builds
`abc` listed before the rule that builds `bc`. -/
def cfgOrder : Config where
  codec := gpt2Codec
  unicode := asciiUnicode
  vocab := [("a".toList, 1), ("b".toList, 2), ("c".toList, 3), ("bc".toList, 4),
    ("abc".toList, 5)]
  merges := ["a bc".toList, "b c".toList]
  added_tokens := []

/-- The merge table of `cfgOrder`. -/
def orderTable : List MergeObj :=
  [⟨Tok.num 1, Tok.num 4, Tok.num 5⟩, ⟨Tok.num 2, Tok.num 3, Tok.num 4⟩]

/-! ## Configurations for the U+0120 loop -/

/-- A vocabulary in which U+0120 `a` has ID 0. -/
def cfgZero : Config where
  codec := gpt2Codec
  unicode := asciiUnicode
  vocab := [("Ġ".toList, 209), ("a".toList, 64), ("Ġa".toList, 0)]
  merges := []
  added_tokens := []

/-- A vocabulary in which U+0120 `a` has ID 209. -/
def cfgChain : Config where
  codec := gpt2Codec
  unicode := asciiUnicode
  vocab := [("a".toList, 64), ("b".toList, 65), ("Ġa".toList, 209), ("Ġb".toList, 300)]
  merges := []
  added_tokens := []

/-! ## Greedy replacement, as the specification words it -/

/-- Specification side: scan the list from the left; where the pattern `a` is
a prefix of what remains, emit `x` and go on after that occurrence, else keep
the element and go on after it (at most `fuel` steps). -/
def greedyReplaceGo (a : List Tok) (x : Tok) : Nat → List Tok → List Tok
  | _, [] => []
  | 0, l => l
  | fuel + 1, y :: l =>
    if a.isPrefixOf (y :: l) then x :: greedyReplaceGo a x fuel (l.drop (a.length - 1))
    else y :: greedyReplaceGo a x fuel l

/-- Specification side: the greedy left-to-right replacement of every
non-overlapping contiguous occurrence of `a` in `l` by `x`. -/
def greedyReplace (a : List Tok) (x : Tok) (l : List Tok) : List Tok :=
  greedyReplaceGo a x l.length l

/-- A vocabulary without the byte `?`, and an added token whose literal has it. -/
def cfgGap : Config where
  codec := gpt2Codec
  unicode := asciiUnicode
  vocab := smallVocab
  merges := []
  added_tokens := [⟨300, "a?".toList⟩]

/-! ## Reading the splitter's result back -/

/-- The string an element of the splitter's result stands for: the literal
`addedTokens[id]` for a number (the empty string if there is none), the string
itself for a string. -/
def renderPart (toks : List (Nat × Text)) : Part → Text
  | Part.id n => (objGet toks n).getD []
  | Part.text t => t

/-- Bound on the number of tokens `encode` produces for an element of the
splitter's result: one for an ID, the number of UTF-8 bytes for a string. -/
def partBound : Part → Nat
  | Part.id _ => 1
  | Part.text t => (utf8Encode t).length

/-! ## Configurations for the registration of added tokens -/

/-- An added token whose ID is the ID of the vocabulary entry `a` and whose
literal `b` is a vocabulary key with another ID. -/
def cfgCollide : Config where
  codec := gpt2Codec
  unicode := asciiUnicode
  vocab := [("a".toList, 5), ("b".toList, 7)]
  merges := []
  added_tokens := [⟨5, "b".toList⟩]

/-! ## Configurations for the U+0120 loop and `decode` -/

/-- The ID 209 of the vocabulary entry U+0120 is also the ID of an added
token; a second added token takes over the key the first was registered under,
so that no two keys of the extended vocabulary share an ID. -/
def cfgSentinel : Config where
  codec := gpt2Codec
  unicode := asciiUnicode
  vocab := [("Ġ".toList, 209), ("a".toList, 64), ("Ġa".toList, 300)]
  merges := []
  added_tokens := [⟨209, "x".toList⟩, ⟨500, "x".toList⟩]

/-- The small vocabulary with the entry U+0120 `a` and an added token that
takes no part in the U+0120 table. -/
def cfgSpace : Config where
  codec := gpt2Codec
  unicode := asciiUnicode
  vocab := smallVocab ++ [("Ġa".toList, 400)]
  merges := []
  added_tokens := [⟨300, "<>".toList⟩]

/-! ## Objects: lookup after assignment -/

theorem objGet_cons {K V : Type} [DecidableEq K] (p : K × V) (o : List (K × V)) (k : K) :
    objGet (p :: o) k = if p.1 = k then some p.2 else objGet o k := by
  obtain ⟨a, b⟩ := p
  rfl

theorem objGet_mem {K V : Type} [DecidableEq K]
    {o : List (K × V)} {k : K} {v : V} (h : objGet o k = some v) : (k, v) ∈ o := by
  induction o with
  | nil => simp [objGet] at h
  | cons p o ih =>
    obtain ⟨k', v'⟩ := p
    simp only [objGet] at h
    split at h
    · next hk => cases h; subst hk; simp
    · exact List.mem_cons_of_mem _ (ih h)

theorem objGet_isSome_iff {K V : Type} [DecidableEq K]
    {o : List (K × V)} {k : K} : (objGet o k).isSome ↔ k ∈ o.map Prod.fst := by
  induction o with
  | nil => simp [objGet]
  | cons p o ih =>
    obtain ⟨k', v'⟩ := p
    simp only [objGet, List.map_cons, List.mem_cons]
    split
    · next hk => simp [hk]
    · next hk =>
      rw [ih]
      constructor
      · intro h; exact Or.inr h
      · rintro (h | h)
        · exact absurd h.symm hk
        · exact h

theorem objGet_of_mem_nodup {K V : Type} [DecidableEq K]
    {o : List (K × V)} {k : K} {v : V} (hnd : (o.map Prod.fst).Nodup)
    (h : (k, v) ∈ o) : objGet o k = some v := by
  induction o with
  | nil => simp at h
  | cons p o ih =>
    obtain ⟨k', v'⟩ := p
    simp only [List.map_cons, List.nodup_cons] at hnd
    simp only [objGet]
    rcases List.mem_cons.mp h with h | h
    · cases h; simp
    · have hk : k ∈ o.map Prod.fst := List.mem_map.mpr ⟨(k, v), h, rfl⟩
      have : k' ≠ k := fun e => hnd.1 (e ▸ hk)
      simp [this, ih hnd.2 h]

theorem objGet_map_update {K V : Type} [DecidableEq K] (o : List (K × V)) (k k' : K) (v : V) :
    objGet (o.map (fun p => if p.1 = k then (k, v) else p)) k'
      = if k = k' then (objGet o k).map (fun _ => v) else objGet o k' := by
  induction o with
  | nil => simp [objGet]
  | cons p o ih =>
    rw [List.map_cons, objGet_cons, ih, objGet_cons, objGet_cons]
    by_cases ha : p.1 = k
    · by_cases hk : k = k'
      · simp [ha, hk]
      · have : p.1 ≠ k' := fun e => hk (ha.symm.trans e)
        simp [ha, hk, this]
    · by_cases hk : k = k'
      · subst hk; simp [ha]
      · simp [ha, hk]

theorem objGet_insertIdx {K V : Type} [DecidableEq K]
    (idx : K → Option Nat) (n : Nat) (o : List (K × V)) (k k' : K) (v : V)
    (hk : objGet o k = none) :
    objGet (objInsertIdx idx n k v o) k' = if k = k' then some v else objGet o k' := by
  induction o with
  | nil => simp [objInsertIdx, objGet]
  | cons p o ih =>
    obtain ⟨a, b⟩ := p
    simp only [objGet] at hk
    split at hk
    · cases hk
    · next ha =>
      simp only [objInsertIdx]
      split
      · split
        · simp only [objGet, ih hk]
          by_cases h1 : a = k'
          · have : k ≠ k' := fun e => ha (h1.trans e.symm)
            simp [h1, this]
          · simp [h1]
        · simp [objGet]
      · simp [objGet]

theorem objGet_append {K V : Type} [DecidableEq K] (o o' : List (K × V)) (k : K) :
    objGet (o ++ o') k = (objGet o k).orElse (fun _ => objGet o' k) := by
  induction o with
  | nil => simp [objGet]
  | cons p o ih =>
    obtain ⟨a, b⟩ := p
    simp only [List.cons_append, objGet]
    split <;> simp [ih]

theorem objGet_objSet {K V : Type} [DecidableEq K]
    (idx : K → Option Nat) (o : List (K × V)) (k k' : K) (v : V) :
    objGet (objSet idx o k v) k' = if k = k' then some v else objGet o k' := by
  unfold objSet
  split
  · next h =>
    rw [objGet_map_update]
    obtain ⟨w, hw⟩ := Option.isSome_iff_exists.mp h
    simp [hw]
  · next h =>
    have hnone : objGet o k = none := by simpa using h
    split
    · exact objGet_insertIdx idx _ o k k' v hnone
    · rw [objGet_append]
      by_cases hk : k = k'
      · subst hk; simp [hnone, objGet]
      · simp [objGet, hk]

theorem objGet_objSet_self {K V : Type} [DecidableEq K]
    (idx : K → Option Nat) (o : List (K × V)) (k : K) (v : V) :
    objGet (objSet idx o k v) k = some v := by
  simp [objGet_objSet]

theorem objGet_objSet_ne {K V : Type} [DecidableEq K]
    (idx : K → Option Nat) (o : List (K × V)) {k k' : K} (v : V) (h : k ≠ k') :
    objGet (objSet idx o k v) k' = objGet o k' := by
  simp [objGet_objSet, h]

theorem keys_insertIdx {K V : Type} (idx : K → Option Nat) (n : Nat) (o : List (K × V)) (k : K) (v : V) :
    ((objInsertIdx idx n k v o).map Prod.fst).Perm (k :: o.map Prod.fst) := by
  induction o with
  | nil => simp [objInsertIdx]
  | cons p o ih =>
    obtain ⟨a, b⟩ := p
    simp only [objInsertIdx]
    split
    · split
      · simp only [List.map_cons]
        exact (List.Perm.cons a ih).trans (List.Perm.swap k a _)
      · simp
    · simp

theorem keys_map_update {K V : Type} [DecidableEq K] (o : List (K × V)) (k : K) (v : V) :
    (o.map (fun p => if p.1 = k then (k, v) else p)).map Prod.fst = o.map Prod.fst := by
  induction o with
  | nil => rfl
  | cons p o ih =>
    simp only [List.map_cons, ih]
    by_cases h : p.1 = k <;> simp [h]

theorem keys_objSet_nodup {K V : Type} [DecidableEq K]
    (idx : K → Option Nat) (o : List (K × V)) (k : K) (v : V)
    (h : (o.map Prod.fst).Nodup) : ((objSet idx o k v).map Prod.fst).Nodup := by
  unfold objSet
  split
  · rw [keys_map_update]; exact h
  · next hk =>
    have hnot : k ∉ o.map Prod.fst := fun hm => hk (objGet_isSome_iff.mpr hm)
    split
    · exact (keys_insertIdx idx _ o k v).nodup_iff.mpr (List.nodup_cons.mpr ⟨hnot, h⟩)
    · rw [List.map_append]
      simpa [List.nodup_append, hnot] using h

theorem keys_foldl_objSet_nodup {α K V : Type} [DecidableEq K]
    (idx : K → Option Nat) (f : α → K) (g : α → V)
    (l : List α) (o : List (K × V)) (h : (o.map Prod.fst).Nodup) :
    ((l.foldl (fun o t => objSet idx o (f t) (g t)) o).map Prod.fst).Nodup := by
  induction l generalizing o with
  | nil => exact h
  | cons t l ih => exact ih _ (keys_objSet_nodup idx o _ _ h)

/-! ## The tables -/

theorem addedTokens_nodup (cfg : Config) : ((addedTokens cfg).map Prod.fst).Nodup :=
  keys_foldl_objSet_nodup natIdx _ _ cfg.added_tokens [] List.nodup_nil

theorem vocabRaw_nodup (cfg : Config) : ((vocabRaw cfg).map Prod.fst).Nodup :=
  keys_foldl_objSet_nodup textIdx (fun e : Text × Nat => e.1) (fun e => Tok.num e.2) cfg.vocab []
    List.nodup_nil

theorem vocab_nodup (cfg : Config) : ((vocab cfg).map Prod.fst).Nodup :=
  keys_foldl_objSet_nodup textIdx (fun e : Nat × Text => encodedAddedToken cfg e.2)
    (fun e => Tok.key e.1) (addedTokens cfg) (vocabRaw cfg) (vocabRaw_nodup cfg)

theorem vocabReversed_eq (cfg : Config) : vocabReversed cfg = (vocab cfg).foldl reverseStep [] := rfl

theorem reverse_foldl_some (l : List (Text × Tok)) (o : List (Nat × Text)) (id : Nat)
    (content : Text) (h : objGet (l.foldl reverseStep o) id = some content) :
    objGet o id = some content ∨ ∃ v, (content, v) ∈ l ∧ v.prop = some id := by
  induction l generalizing o with
  | nil => exact Or.inl h
  | cons e l ih =>
    rcases ih _ h with h1 | ⟨v, hv, hp⟩
    · unfold reverseStep at h1
      split at h1
      · next n hn =>
        rw [objGet_objSet] at h1
        split at h1
        · next hid =>
          cases h1
          exact Or.inr ⟨e.2, by simp, hid ▸ hn⟩
        · exact Or.inl h1
      · exact Or.inl h1
    · exact Or.inr ⟨v, List.mem_cons_of_mem _ hv, hp⟩

theorem reverse_foldl_isSome (l : List (Text × Tok)) (o : List (Nat × Text)) (id : Nat) :
    ((objGet o id).isSome → (objGet (l.foldl reverseStep o) id).isSome) ∧
    (∀ e ∈ l, e.2.prop = some id → (objGet (l.foldl reverseStep o) id).isSome) := by
  induction l generalizing o with
  | nil => simp
  | cons e l ih =>
    have step : (objGet o id).isSome → (objGet (reverseStep o e) id).isSome := by
      intro h
      unfold reverseStep
      split
      · rw [objGet_objSet]; split <;> simp [h]
      · exact h
    refine ⟨fun h => (ih _).1 (step h), ?_⟩
    intro e' he' hp
    rcases List.mem_cons.mp he' with h | h
    · subst h
      apply (ih _).1
      unfold reverseStep
      simp [hp, objGet_objSet]
    · exact (ih _).2 e' h hp

/-- Every value of the extended vocabulary names a key of `vocabReversed`. -/
theorem vocabReversed_isSome (cfg : Config) {k : Text} {v : Tok} {n : Nat}
    (h : objGet (vocab cfg) k = some v) (hn : v.prop = some n) :
    (objGet (vocabReversed cfg) n).isSome :=
  (reverse_foldl_isSome (vocab cfg) [] n).2 (k, v) (objGet_mem h) hn

/-! ## Decode -/

theorem collect_eq_none_iff {α : Type} (l : List (Option (List α))) :
    collect l = none ↔ none ∈ l := by
  induction l with
  | nil => simp [collect]
  | cons x l ih =>
    cases x with
    | none => simp [collect]
    | some a => simp [collect, ih]

theorem collect_append {α : Type} (l l' : List (Option (List α))) :
    collect (l ++ l') = (collect l).bind fun x => (collect l').map (x ++ ·) := by
  induction l with
  | nil => simp [collect]
  | cons x l ih =>
    cases x with
    | none => simp [collect]
    | some a =>
      rw [List.cons_append]
      simp only [collect]
      rw [ih]
      cases collect l <;> cases collect l' <;> simp [List.append_assoc]

theorem decodeToken_eq_none_iff (cfg : Config) (t : Tok) :
    decodeToken cfg t = none ↔
      ∀ n, t.prop = some n →
        objGet (addedTokens cfg) n = none ∧ objGet (vocabReversed cfg) n = none := by
  unfold decodeToken
  cases hp : t.prop with
  | none => simp
  | some n =>
    simp only [Option.some.injEq, forall_eq']
    cases h1 : objGet (addedTokens cfg) n with
    | some s => simp
    | none =>
      cases h2 : objGet (vocabReversed cfg) n with
      | some s => simp
      | none => simp

/-! ## Merge table -/

theorem indexOf_space_none (m : Text) : indexOf [' '] m = none ↔ ' ' ∉ m := by
  induction m with
  | nil => simp [indexOf]
  | cons c cs ih =>
    simp only [indexOf, List.mem_cons, not_or]
    by_cases hc : c = ' '
    · subst hc; simp [List.isPrefixOf]
    · have h1 : ¬ ' ' = c := fun e => hc e.symm
      simp [List.isPrefixOf, h1, ih]

theorem indexOf_space_some (m : Text) (space : Nat) (h : indexOf [' '] m = some space) :
    m.take space = m.takeWhile (· ≠ ' ') ∧ m.drop (space + 1) = (m.dropWhile (· ≠ ' ')).drop 1 := by
  induction m generalizing space with
  | nil => simp [indexOf] at h
  | cons c cs ih =>
    simp only [indexOf] at h
    by_cases hc : c = ' '
    · subst hc
      simp [List.isPrefixOf] at h
      subst h
      simp [List.takeWhile, List.dropWhile]
    · have h1 : ¬ ' ' = c := fun e => hc e.symm
      simp [List.isPrefixOf, h1] at h
      obtain ⟨a, ha, rfl⟩ := h
      obtain ⟨i1, i2⟩ := ih a ha
      simp [List.takeWhile, List.dropWhile, hc, i1, i2]

theorem processMerge_eq (v : List (Text × Tok)) (m : Text) :
    processMerge v m = if ' ' ∈ m then some (mergeTriple v m) else none := by
  unfold processMerge
  cases h : indexOf [' '] m with
  | none => simp [(indexOf_space_none m).mp h]
  | some space =>
    have hm : ' ' ∈ m := by
      by_contra hc
      rw [(indexOf_space_none m).mpr hc] at h
      cases h
    obtain ⟨h1, h2⟩ := indexOf_space_some m space h
    simp [hm, mergeTriple, h1, h2]

theorem processedMergesOf_eq (v : List (Text × Tok)) (ms : List Text) :
    processedMergesOf v ms = if ∀ m ∈ ms, ' ' ∈ m then some (ms.map (mergeTriple v)) else none := by
  induction ms with
  | nil => simp [processedMergesOf]
  | cons m ms ih =>
    simp only [processedMergesOf, processMerge_eq, ih, List.mem_cons, forall_eq_or_imp, List.map_cons]
    by_cases h1 : ' ' ∈ m
    · by_cases h2 : ∀ m ∈ ms, ' ' ∈ m
      · rw [if_pos h1, if_pos h2, if_pos ⟨h1, h2⟩]
      · rw [if_pos h1, if_neg h2, if_neg (fun h => h2 h.2)]
    · simp [h1]

/-! ## The word pattern: every attempt on non-empty text matches -/

theorem run_le (p : Char → Bool) (s : Text) : run p s ≤ s.length := by
  unfold run
  exact (List.takeWhile_sublist p).length_le

theorem run_cons_pos (p : Char → Bool) (c : Char) (cs : Text) (h : p c = true) :
    0 < run p (c :: cs) := by
  simp [run, List.takeWhile, h]

theorem Fits.orElse {s : Text} {r : Option Nat} {f : Unit → Option Nat} (h1 : Fits s r)
    (h2 : Fits s (f ())) : Fits s (r.orElse f) := by
  cases r with
  | none => simpa [Option.orElse] using h2
  | some a => simpa [Option.orElse] using h1

theorem fits_matchContraction (s : Text) : Fits s (matchContraction s) := by
  intro n hn
  unfold matchContraction at hn
  cases hf : contractions.find? (fun p => p.isPrefixOf s) with
  | none => simp [hf] at hn
  | some p =>
    simp only [hf, Option.map_some', Option.some.injEq] at hn
    have hmem : p ∈ contractions := List.mem_of_find?_eq_some hf
    have hpre : p.isPrefixOf s = true := by
      have := List.find?_some hf
      simpa using this
    have hle : p.length ≤ s.length := (List.isPrefixOf_iff_prefix.mp hpre).length_le
    subst hn
    refine ⟨?_, hle⟩
    simp only [contractions, List.mem_cons, List.mem_singleton, List.not_mem_nil, or_false] at hmem
    rcases hmem with h | h | h | h | h | h | h <;> simp [h]

theorem fits_optSpaceRun (p : Char → Bool) (s : Text) : Fits s (optSpaceRun p s) := by
  intro n hn
  unfold optSpaceRun at hn
  cases s with
  | nil => simp at hn
  | cons c cs =>
    simp only at hn
    split at hn
    · cases hn
      have := run_le p cs
      simp only [List.length_cons]
      omega
    · split at hn
      · next h =>
        cases hn
        exact ⟨h, run_le p _⟩
      · cases hn

theorem fits_spaceLookahead (s : Text) : Fits s (spaceLookahead s) := by
  intro n hn
  unfold spaceLookahead at hn
  have := run_le isSpace s
  simp only at hn
  split at hn
  · cases hn
  · split at hn
    · cases hn; omega
    · split at hn
      · cases hn; omega
      · cases hn

theorem fits_spaceRun (s : Text) : Fits s (spaceRun s) := by
  intro n hn
  unfold spaceRun at hn
  split at hn
  · next h => cases hn; exact ⟨h, run_le _ _⟩
  · cases hn

theorem fits_matchAt (u : Unicode) (s : Text) : Fits s (matchAt u s) := by
  unfold matchAt
  exact (fits_matchContraction s).orElse <| (fits_optSpaceRun _ s).orElse <|
    (fits_optSpaceRun _ s).orElse <| (fits_optSpaceRun _ s).orElse <|
    (fits_spaceLookahead s).orElse (fits_spaceRun s)

theorem optSpaceRun_isSome (p : Char → Bool) (c : Char) (cs : Text) (h : p c = true) :
    (optSpaceRun p (c :: cs)).isSome := by
  unfold optSpaceRun
  simp only
  split
  · rfl
  · simp [run_cons_pos p c cs h]

theorem orElse_isSome_left {r : Option Nat} {f : Unit → Option Nat} (h : r.isSome) :
    (r.orElse f).isSome := by
  cases r with
  | none => simp at h
  | some a => simp [Option.orElse]

theorem orElse_isSome_right {r : Option Nat} {f : Unit → Option Nat} (h : (f ()).isSome) :
    (r.orElse f).isSome := by
  cases r with
  | none => simpa [Option.orElse] using h
  | some a => simp [Option.orElse]

theorem matchAt_isSome (u : Unicode) (c : Char) (cs : Text) : (matchAt u (c :: cs)).isSome := by
  unfold matchAt
  apply orElse_isSome_right
  by_cases hl : u.isLetter c = true
  · exact orElse_isSome_left (optSpaceRun_isSome _ c cs hl)
  apply orElse_isSome_right
  by_cases hn : u.isNumber c = true
  · exact orElse_isSome_left (optSpaceRun_isSome _ c cs hn)
  apply orElse_isSome_right
  by_cases hs : isSpace c = true
  · apply orElse_isSome_right
    apply orElse_isSome_right
    unfold spaceRun
    simp [run_cons_pos isSpace c cs hs]
  · exact orElse_isSome_left (optSpaceRun_isSome _ c cs (by simp [hl, hn, hs]))

theorem splitWordsGo_spec (u : Unicode) (fuel : Nat) (s : Text) (h : s.length ≤ fuel) :
    (splitWordsGo u fuel s).flatten = s ∧ ∀ w ∈ splitWordsGo u fuel s, w ≠ [] := by
  induction fuel generalizing s with
  | zero =>
    have : s = [] := List.length_eq_zero.mp (Nat.le_zero.mp h)
    subst this
    simp [splitWordsGo]
  | succ fuel ih =>
    cases s with
    | nil => simp [splitWordsGo]
    | cons c cs =>
      obtain ⟨n, hn⟩ := Option.isSome_iff_exists.mp (matchAt_isSome u c cs)
      obtain ⟨h1, h2⟩ := fits_matchAt u (c :: cs) n hn
      have hlen : ((c :: cs).drop n).length ≤ fuel := by
        simp only [List.length_drop, List.length_cons] at h h2 ⊢
        omega
      obtain ⟨i1, i2⟩ := ih _ hlen
      simp only [splitWordsGo, hn, List.flatten_cons, i1, List.take_append_drop, true_and,
        List.mem_cons, forall_eq_or_imp]
      refine ⟨?_, i2⟩
      intro hnil
      have : ((c :: cs).take n).length = 0 := by rw [hnil]; rfl
      rw [List.length_take] at this
      simp only [List.length_cons] at this h2
      omega

theorem splitWords_flatten (u : Unicode) (s : Text) : (splitWords u s).flatten = s :=
  (splitWordsGo_spec u s.length s (Nat.le_refl _)).1

theorem splitWords_mem_subset (u : Unicode) (s : Text) {w : Text} (hw : w ∈ splitWords u s)
    {c : Char} (hc : c ∈ w) : c ∈ s := by
  rw [← splitWords_flatten u s]
  exact List.mem_flatten.mpr ⟨w, hw, hc⟩

/-! ## `indexOf` -/

theorem isPrefixOf_iff (l s : Text) : l.isPrefixOf s = true ↔ l <+: s :=
  List.isPrefixOf_iff_prefix

theorem indexOf_some_le (l : Text) (s : Text) (p : Nat) (h : indexOf l s = some p) :
    p + l.length ≤ s.length := by
  induction s generalizing p with
  | nil =>
    simp only [indexOf] at h
    split at h
    · next hl => cases h; simp [hl]
    · cases h
  | cons c cs ih =>
    simp only [indexOf] at h
    split at h
    · next hp =>
      cases h
      have := ((isPrefixOf_iff l (c :: cs)).mp hp).length_le
      omega
    · cases hq : indexOf l cs with
      | none => simp [hq] at h
      | some q =>
        simp only [hq, Option.map_some', Option.some.injEq] at h
        have := ih q hq
        simp only [List.length_cons]
        omega

theorem indexOf_some_occ (l : Text) (s : Text) (p : Nat) (h : indexOf l s = some p) :
    l <+: s.drop p := by
  induction s generalizing p with
  | nil =>
    simp only [indexOf] at h
    split at h
    · next hl => cases h; simp [hl]
    · cases h
  | cons c cs ih =>
    simp only [indexOf] at h
    split at h
    · next hp =>
      cases h
      exact (isPrefixOf_iff l (c :: cs)).mp hp
    · cases hq : indexOf l cs with
      | none => simp [hq] at h
      | some q =>
        simp only [hq, Option.map_some', Option.some.injEq] at h
        subst h
        simpa using ih q hq

theorem indexOf_some_first (l : Text) (s : Text) (p : Nat) (h : indexOf l s = some p) :
    ∀ q, q < p → ¬ l <+: s.drop q := by
  induction s generalizing p with
  | nil =>
    simp only [indexOf] at h
    split at h
    · cases h; intro q hq; omega
    · cases h
  | cons c cs ih =>
    simp only [indexOf] at h
    split at h
    · cases h; intro q hq; omega
    · next hp =>
      cases hq : indexOf l cs with
      | none => simp [hq] at h
      | some r =>
        simp only [hq, Option.map_some', Option.some.injEq] at h
        subst h
        intro q hlt
        cases q with
        | zero =>
          intro hpre
          exact hp ((isPrefixOf_iff l (c :: cs)).mpr (by simpa using hpre))
        | succ q =>
          simpa using ih r hq q (by omega)

theorem indexOf_none_occ (l : Text) (s : Text) (h : indexOf l s = none) :
    ∀ q, ¬ l <+: s.drop q := by
  induction s with
  | nil =>
    simp only [indexOf] at h
    split at h
    · cases h
    · next hl =>
      intro q hpre
      simp at hpre
      exact hl hpre
  | cons c cs ih =>
    simp only [indexOf] at h
    split at h
    · cases h
    · next hp =>
      have hq : indexOf l cs = none := by
        cases hx : indexOf l cs with
        | none => rfl
        | some r => simp [hx] at h
      intro q
      cases q with
      | zero =>
        intro hpre
        exact hp ((isPrefixOf_iff l (c :: cs)).mpr (by simpa using hpre))
      | succ q => simpa using ih hq q

/-- An occurrence at offset `q` is found by `indexOf`, at `q` or before. -/
theorem indexOf_of_occ (l : Text) (s : Text) (q : Nat) (h : l <+: s.drop q) :
    ∃ p, indexOf l s = some p ∧ p ≤ q := by
  cases hp : indexOf l s with
  | none => exact absurd h (indexOf_none_occ l s hp q)
  | some p =>
    refine ⟨p, rfl, ?_⟩
    by_contra hlt
    exact indexOf_some_first l s p hp q (by omega) h

theorem infix_iff_occ (l s : Text) : l <:+: s ↔ ∃ q, l <+: s.drop q := by
  constructor
  · rintro ⟨a, b, rfl⟩
    exact ⟨a.length, by simp⟩
  · rintro ⟨q, b, hb⟩
    refine ⟨s.take q, b, ?_⟩
    rw [List.append_assoc, hb, List.take_append_drop]

/-! ## The scan for the nearest added token -/

theorem nearest_eq (toks : List (Nat × Text)) (r : Text) :
    nearest toks r = toks.foldl (nearestStep r) (r.length, none) := rfl

theorem nearest_spec (toks : List (Nat × Text)) (r : Text) :
    (nearest toks r).1 ≤ r.length ∧
    (∀ e ∈ toks, ∀ q, indexOf e.2 r = some q → (nearest toks r).1 ≤ q) ∧
    ((nearest toks r).1 = r.length → (nearest toks r).2 = none) ∧
    ((nearest toks r).1 < r.length → ∃ pre e post, toks = pre ++ e :: post ∧
      (nearest toks r).2 = some e.1 ∧ indexOf e.2 r = some (nearest toks r).1 ∧
      ∀ e' ∈ pre, indexOf e'.2 r ≠ some (nearest toks r).1) := by
  rw [nearest_eq]
  induction toks using List.reverseRecOn with
  | nil => simp
  | append_singleton l e ih =>
    obtain ⟨h1, h2, h3, h4⟩ := ih
    rw [List.foldl_append]
    simp only [List.foldl_cons, List.foldl_nil]
    generalize List.foldl (nearestStep r) (r.length, none) l = st at h1 h2 h3 h4
    unfold nearestStep
    cases hi : indexOf e.2 r with
    | none =>
      simp only
      refine ⟨h1, ?_, h3, ?_⟩
      · intro e' he' q hq
        rcases List.mem_append.mp he' with h | h
        · exact h2 e' h q hq
        · simp only [List.mem_singleton] at h
          subst h
          rw [hi] at hq
          cases hq
      · intro hlt
        obtain ⟨pre, e0, post, rfl, i1, i2, i3⟩ := h4 hlt
        exact ⟨pre, e0, post ++ [e], by simp, i1, i2, i3⟩
    | some pos =>
      simp only
      by_cases hlt : pos < st.1
      · simp only [hlt, if_true]
        refine ⟨by omega, ?_, ?_, ?_⟩
        · intro e' he' q hq
          rcases List.mem_append.mp he' with h | h
          · have := h2 e' h q hq
            omega
          · simp only [List.mem_singleton] at h
            subst h
            rw [hi] at hq
            cases hq
            exact Nat.le_refl _
        · intro heq
          omega
        · intro _
          refine ⟨l, e, [], rfl, rfl, hi, ?_⟩
          intro e' he' hc
          have := h2 e' he' pos hc
          omega
      · simp only [hlt, if_false]
        refine ⟨h1, ?_, h3, ?_⟩
        · intro e' he' q hq
          rcases List.mem_append.mp he' with h | h
          · exact h2 e' h q hq
          · simp only [List.mem_singleton] at h
            subst h
            rw [hi] at hq
            cases hq
            omega
        · intro hl
          obtain ⟨pre, e0, post, rfl, i1, i2, i3⟩ := h4 hl
          exact ⟨pre, e0, post ++ [e], by simp, i1, i2, i3⟩

/-! ## The added-token splitter -/

theorem no_occ_of_nearest_end (toks : List (Nat × Text)) (r : Text)
    (h : (nearest toks r).1 = r.length) :
    ∀ e ∈ toks, e.2 ≠ [] → ¬ e.2 <:+: r := by
  intro e he hne hin
  obtain ⟨q, hq⟩ := (infix_iff_occ e.2 r).mp hin
  obtain ⟨p, hp, _⟩ := indexOf_of_occ e.2 r q hq
  have h1 := (nearest_spec toks r).2.1 e he p hp
  have h2 := indexOf_some_le e.2 r p hp
  have h3 : 0 < e.2.length := List.length_pos.mpr hne
  omega

theorem no_occ_before_nearest (toks : List (Nat × Text)) (r : Text) :
    ∀ e ∈ toks, e.2 ≠ [] → ¬ e.2 <:+: r.take (nearest toks r).1 := by
  intro e he hne hin
  obtain ⟨q, hq⟩ := (infix_iff_occ e.2 _).mp hin
  have hlen := hq.length_le
  rw [List.drop_take] at hq
  have hocc : e.2 <+: r.drop q := hq.trans (List.take_prefix _ _)
  obtain ⟨p, hp, hpq⟩ := indexOf_of_occ e.2 r q hocc
  have h1 := (nearest_spec toks r).2.1 e he p hp
  have h3 : 0 < e.2.length := List.length_pos.mpr hne
  simp only [List.length_drop, List.length_take] at hlen
  omega

theorem loop_parts_ok (toks : List (Nat × Text)) (fuel : Nat) (r : Text) (parts : List Part)
    (h : encodeAddedTokensLoop toks fuel r = some parts) : ∀ part ∈ parts, PartOk toks part := by
  induction fuel generalizing r parts with
  | zero =>
    cases r with
    | nil => simp [encodeAddedTokensLoop] at h; subst h; simp
    | cons c cs => simp [encodeAddedTokensLoop] at h
  | succ fuel ih =>
    cases r with
    | nil => simp [encodeAddedTokensLoop] at h; subst h; simp
    | cons c cs =>
      simp only [encodeAddedTokensLoop] at h
      split at h
      · next hend =>
        cases h
        intro part hp
        simp only [List.mem_singleton] at hp
        subst hp
        exact ⟨by simp, no_occ_of_nearest_end toks (c :: cs) hend⟩
      · next hend =>
        split at h
        · cases h
        · next tokId _ =>
          split at h
          · cases h
          · next lit hlit =>
            cases hrec : encodeAddedTokensLoop toks fuel
                (List.drop ((nearest toks (c :: cs)).1 + lit.length) (c :: cs)) with
            | none => simp [hrec] at h
            | some rest =>
              simp only [hrec, Option.map_some', Option.some.injEq] at h
              subst h
              intro part hp
              rcases List.mem_append.mp hp with hp | hp
              · split at hp
                · next hne =>
                  simp only [List.mem_singleton] at hp
                  subst hp
                  refine ⟨?_, no_occ_before_nearest toks (c :: cs)⟩
                  intro hnil
                  have : ((c :: cs).take (nearest toks (c :: cs)).1).length = 0 := by
                    rw [hnil]; rfl
                  rw [List.length_take] at this
                  have := (nearest_spec toks (c :: cs)).1
                  simp only [List.length_cons] at *
                  omega
                · simp at hp
              · rcases List.mem_cons.mp hp with hp | hp
                · subst hp
                  simp [PartOk, hlit]
                · exact ih _ _ hrec part hp

theorem loop_isSome (toks : List (Nat × Text)) (hnd : (toks.map Prod.fst).Nodup)
    (hne : ∀ e ∈ toks, e.2 ≠ []) (fuel : Nat) (r : Text) (h : r.length ≤ fuel) :
    (encodeAddedTokensLoop toks fuel r).isSome := by
  induction fuel generalizing r with
  | zero =>
    have : r = [] := List.length_eq_zero.mp (Nat.le_zero.mp h)
    subst this
    simp [encodeAddedTokensLoop]
  | succ fuel ih =>
    cases r with
    | nil => simp [encodeAddedTokensLoop]
    | cons c cs =>
      simp only [encodeAddedTokensLoop]
      split
      · rfl
      · next hend =>
        obtain ⟨h1, _, _, h4⟩ := nearest_spec toks (c :: cs)
        obtain ⟨pre, e, post, htoks, i1, i2, _⟩ := h4 (lt_of_le_of_ne h1 hend)
        have hmem : e ∈ toks := by rw [htoks]; simp
        have hget : objGet toks e.1 = some e.2 := objGet_of_mem_nodup hnd hmem
        simp only [i1, hget]
        have hpos : 0 < e.2.length := List.length_pos.mpr (hne e hmem)
        have : (List.drop ((nearest toks (c :: cs)).1 + e.2.length) (c :: cs)).length ≤ fuel := by
          simp only [List.length_drop, List.length_cons] at h ⊢
          omega
        obtain ⟨rest, hrest⟩ := Option.isSome_iff_exists.mp (ih _ this)
        simp [hrest]

/-! ## Enumeration order of `addedTokens` -/

theorem ascKeys_insertIdx {V : Type} (o : List (Nat × V)) (k : Nat) (v : V) (h : AscKeys o)
    (hnot : k ∉ o.map Prod.fst) :
    ((objInsertIdx natIdx k k v o).map Prod.fst).Pairwise (· < ·) := by
  induction o with
  | nil => simp [objInsertIdx]
  | cons p o ih =>
    obtain ⟨a, b⟩ := p
    obtain ⟨hs, hb⟩ := h
    simp only [List.map_cons, List.pairwise_cons, List.mem_cons, forall_eq_or_imp] at hs hb hnot
    have ha : natIdx a = some a := by unfold natIdx; rw [if_pos hb.1]
    simp only [objInsertIdx, ha]
    split
    · next hlt =>
      simp only [List.map_cons, List.pairwise_cons]
      refine ⟨?_, ih ⟨hs.2, hb.2⟩ (fun hm => hnot (Or.inr hm))⟩
      intro x hx
      have := (keys_insertIdx natIdx k o k v).mem_iff.mp hx
      rcases List.mem_cons.mp this with h | h
      · omega
      · exact hs.1 x h
    · next hge =>
      have hne : k ≠ a := fun e => hnot (Or.inl e)
      have hka : k < a := by omega
      simp only [List.map_cons, List.pairwise_cons, List.mem_cons, forall_eq_or_imp]
      refine ⟨⟨hka, ?_⟩, hs.1, hs.2⟩
      intro x hx
      exact lt_trans hka (hs.1 x hx)

theorem ascKeys_objSet {V : Type} (o : List (Nat × V)) (k : Nat) (v : V) (h : AscKeys o)
    (hk : k < 2 ^ 32 - 1) : AscKeys (objSet natIdx o k v) := by
  unfold objSet
  split
  · exact ⟨by rw [keys_map_update]; exact h.1, by rw [keys_map_update]; exact h.2⟩
  · next hget =>
    have hnot : k ∉ o.map Prod.fst := fun hm => hget (objGet_isSome_iff.mpr hm)
    have hidx : natIdx k = some k := by unfold natIdx; rw [if_pos hk]
    simp only [hidx]
    refine ⟨ascKeys_insertIdx o k v h hnot, ?_⟩
    intro x hx
    rcases List.mem_cons.mp ((keys_insertIdx natIdx k o k v).mem_iff.mp hx) with h' | h'
    · omega
    · exact h.2 x h'

theorem addedTokens_ascKeys (cfg : Config) (hidx : ∀ t ∈ cfg.added_tokens, t.id < 2 ^ 32 - 1) :
    AscKeys (addedTokens cfg) := by
  unfold addedTokens
  suffices H : ∀ (l : List AddedToken) (o : List (Nat × Text)), (∀ t ∈ l, t.id < 2 ^ 32 - 1) →
      AscKeys o → AscKeys (l.foldl (fun o t => objSet natIdx o t.id t.content) o) from
    H _ _ hidx ⟨by simp, by simp⟩
  intro l
  induction l with
  | nil => intro o _ h; exact h
  | cons t l ih =>
    intro o hl h
    exact ih _ (fun t' ht' => hl t' (List.mem_cons_of_mem _ ht'))
      (ascKeys_objSet o t.id t.content h (hl t (by simp)))

/-! ## The passes keep tokens inside a class closed under their replacements -/

theorem mergeGo_all (P : Tok → Prop) (m : MergeObj) (hm : P m.tokenMerged) (cur : Tok)
    (l : List Tok) (hc : P cur) (hl : ∀ t ∈ l, P t) : ∀ t ∈ mergeGo m cur l, P t := by
  induction l generalizing cur with
  | nil => simpa [mergeGo] using hc
  | cons y rest ih =>
    simp only [List.mem_cons, forall_eq_or_imp] at hl
    simp only [mergeGo]
    split
    · exact ih _ hm hl.2
    · intro t ht
      rcases List.mem_cons.mp ht with h | h
      · exact h ▸ hc
      · exact ih _ hl.1 hl.2 t h

theorem mergePass_all (P : Tok → Prop) (m : MergeObj) (hm : P m.tokenMerged) (l : List Tok)
    (hl : ∀ t ∈ l, P t) : ∀ t ∈ mergePass m l, P t := by
  cases l with
  | nil => simp [mergePass]
  | cons x xs =>
    simp only [List.mem_cons, forall_eq_or_imp] at hl
    exact mergeGo_all P m hm x xs hl.1 hl.2

theorem merges_all (P : Tok → Prop) (ms : List MergeObj) (hm : ∀ m ∈ ms, P m.tokenMerged)
    (l : List Tok) (hl : ∀ t ∈ l, P t) :
    ∀ t ∈ ms.foldl (fun t m => mergePass m t) l, P t := by
  induction ms generalizing l with
  | nil => exact hl
  | cons m ms ih =>
    simp only [List.mem_cons, forall_eq_or_imp] at hm
    exact ih hm.2 _ (mergePass_all P m hm.1 l hl)

theorem u0120Go_all (P : Tok → Prop) (cfg : Config)
    (hv : ∀ y, (u0120Lookup cfg y).truthy = true → P (u0120Lookup cfg y)) (cur : Tok)
    (l : List Tok) (hc : P cur) (hl : ∀ t ∈ l, P t) : ∀ t ∈ u0120Go cfg cur l, P t := by
  induction l generalizing cur with
  | nil => simpa [u0120Go] using hc
  | cons y rest ih =>
    simp only [List.mem_cons, forall_eq_or_imp] at hl
    simp only [u0120Go]
    split
    · next h => exact ih _ (hv y h.2) hl.2
    · intro t ht
      rcases List.mem_cons.mp ht with h | h
      · exact h ▸ hc
      · exact ih _ hl.1 hl.2 t h

theorem u0120Pass_all (P : Tok → Prop) (cfg : Config)
    (hv : ∀ y, (u0120Lookup cfg y).truthy = true → P (u0120Lookup cfg y)) (l : List Tok)
    (hl : ∀ t ∈ l, P t) : ∀ t ∈ u0120Pass cfg l, P t := by
  cases l with
  | nil => simp [u0120Pass]
  | cons x xs =>
    simp only [List.mem_cons, forall_eq_or_imp] at hl
    exact u0120Go_all P cfg hv x xs hl.1 hl.2

theorem replaceSubsequenceGo_all (P : Tok → Prop) (a b : List Tok) (hb : ∀ t ∈ b, P t)
    (fuel : Nat) (l out : List Tok) (h : replaceSubsequenceGo a b fuel l = some out)
    (hl : ∀ t ∈ l, P t) : ∀ t ∈ out, P t := by
  induction fuel generalizing l out with
  | zero =>
    cases l with
    | nil => simp [replaceSubsequenceGo] at h; subst h; simp
    | cons x rest => simp [replaceSubsequenceGo] at h
  | succ fuel ih =>
    cases l with
    | nil => simp [replaceSubsequenceGo] at h; subst h; simp
    | cons x rest =>
      have hx : P x := hl x (by simp)
      have hrest : ∀ t ∈ rest, P t := fun t ht => hl t (List.mem_cons_of_mem _ ht)
      have keep : ∀ out, (replaceSubsequenceGo a b fuel rest).map (x :: ·) = some out →
          ∀ t ∈ out, P t := by
        intro out ho
        cases hr : replaceSubsequenceGo a b fuel rest with
        | none => simp [hr] at ho
        | some o =>
          simp only [hr, Option.map_some', Option.some.injEq] at ho
          subst ho
          intro t ht
          rcases List.mem_cons.mp ht with h' | h'
          · exact h' ▸ hx
          · exact ih rest o hr hrest t h'
      simp only [replaceSubsequenceGo] at h
      split at h
      · exact keep out h
      · split at h
        · split at h
          · cases h; simp
          · next y rest' heq =>
            have hall : ∀ t ∈ b ++ (x :: rest).drop a.length, P t := by
              intro t ht
              rcases List.mem_append.mp ht with h' | h'
              · exact hb t h'
              · exact hl t (List.mem_of_mem_drop h')
            rw [heq] at hall
            cases hr : replaceSubsequenceGo a b fuel rest' with
            | none => simp [hr] at h
            | some o =>
              simp only [hr, Option.map_some', Option.some.injEq] at h
              subst h
              intro t ht
              rcases List.mem_cons.mp ht with h' | h'
              · exact h' ▸ hall y (by simp)
              · exact ih rest' o hr (fun t ht => hall t (List.mem_cons_of_mem _ ht)) t h'
        · exact keep out h

theorem replaceSubsequenceGo_isSome (a : List Tok) (x : Tok) (ha : a ≠ []) (fuel : Nat)
    (l : List Tok) (h : l.length ≤ fuel) : (replaceSubsequenceGo a [x] fuel l).isSome := by
  induction fuel generalizing l with
  | zero =>
    have : l = [] := List.length_eq_zero.mp (Nat.le_zero.mp h)
    subst this
    simp [replaceSubsequenceGo]
  | succ fuel ih =>
    cases l with
    | nil => simp [replaceSubsequenceGo]
    | cons y rest =>
      have hrest : rest.length ≤ fuel := by simpa using h
      have keep : ((replaceSubsequenceGo a [x] fuel rest).map (y :: ·)).isSome := by
        simpa using ih rest hrest
      simp only [replaceSubsequenceGo]
      split
      · exact keep
      · split
        · have hpos : 0 < a.length := List.length_pos.mpr ha
          simp only [List.singleton_append]
          have : ((y :: rest).drop a.length).length ≤ fuel := by
            simp only [List.length_drop, List.length_cons]
            omega
          simpa using ih _ this
        · exact keep

/-! ## An inert token stops the U+0120 loop on both sides -/

theorem u0120Go_inert (cfg : Config) (t : Tok) (h1 : t.looseEq 209 = false)
    (h2 : (u0120Lookup cfg t).truthy = false) (cur : Tok) (xs ys : List Tok) :
    u0120Go cfg cur (xs ++ t :: ys) = u0120Go cfg cur xs ++ t :: u0120Pass cfg ys := by
  induction xs generalizing cur with
  | nil =>
    simp only [List.nil_append, u0120Go, h2, Bool.false_eq_true, and_false, if_false,
      List.singleton_append, List.cons.injEq, true_and]
    cases ys with
    | nil => simp [u0120Go, u0120Pass]
    | cons y ys => simp [u0120Go, u0120Pass, h1]
  | cons x xs ih =>
    simp only [List.cons_append, u0120Go]
    split
    · exact ih _
    · simp [ih]

theorem u0120Pass_inert (cfg : Config) (t : Tok) (h1 : t.looseEq 209 = false)
    (h2 : (u0120Lookup cfg t).truthy = false) (xs ys : List Tok) :
    u0120Pass cfg (xs ++ t :: ys) = u0120Pass cfg xs ++ t :: u0120Pass cfg ys := by
  cases xs with
  | nil =>
    cases ys with
    | nil => simp [u0120Go, u0120Pass]
    | cons y ys => simp [u0120Go, u0120Pass, h1]
  | cons x xs => exact u0120Go_inert cfg t h1 h2 x xs ys

/-! ## Objects filled by a loop of assignments -/

theorem foldl_objSet_get {α K V : Type} [DecidableEq K] (idx : K → Option Nat) (f : α → K)
    (g : α → V) (l : List α) (o : List (K × V)) (k : K) (v : V)
    (h : objGet (l.foldl (fun o t => objSet idx o (f t) (g t)) o) k = some v) :
    objGet o k = some v ∨ ∃ t ∈ l, f t = k ∧ g t = v := by
  induction l generalizing o with
  | nil => exact Or.inl h
  | cons t l ih =>
    rcases ih _ h with h1 | ⟨t', ht', h2⟩
    · rw [objGet_objSet] at h1
      split at h1
      · next hk =>
        cases h1
        exact Or.inr ⟨t, by simp, hk, rfl⟩
      · exact Or.inl h1
    · exact Or.inr ⟨t', List.mem_cons_of_mem _ ht', h2⟩

theorem foldl_objSet_keep {α K V : Type} [DecidableEq K] (idx : K → Option Nat) (f : α → K)
    (g : α → V) (l : List α) (o : List (K × V)) (k : K) (hk : ∀ t ∈ l, f t ≠ k) :
    objGet (l.foldl (fun o t => objSet idx o (f t) (g t)) o) k = objGet o k := by
  induction l generalizing o with
  | nil => rfl
  | cons t l ih =>
    simp only [List.mem_cons, forall_eq_or_imp] at hk
    rw [List.foldl_cons, ih _ hk.2, objGet_objSet_ne idx o _ hk.1]

theorem foldl_objSet_isSome {α K V : Type} [DecidableEq K] (idx : K → Option Nat) (f : α → K)
    (g : α → V) (l : List α) (o : List (K × V)) (k : K)
    (h : (objGet o k).isSome ∨ ∃ t ∈ l, f t = k) :
    (objGet (l.foldl (fun o t => objSet idx o (f t) (g t)) o) k).isSome := by
  induction l generalizing o with
  | nil =>
    rcases h with h | ⟨t, ht, _⟩
    · exact h
    · simp at ht
  | cons t l ih =>
    apply ih
    by_cases hk : f t = k
    · left; rw [objGet_objSet, if_pos hk]; rfl
    · rcases h with h | ⟨t', ht', h2⟩
      · left; rw [objGet_objSet_ne idx o _ hk]; exact h
      · rcases List.mem_cons.mp ht' with h3 | h3
        · exact absurd (h3 ▸ h2) hk
        · exact Or.inr ⟨t', h3, h2⟩

/-! ## What the tables hold -/

theorem addedTokens_mem (cfg : Config) {e : Nat × Text} (h : e ∈ addedTokens cfg) :
    ∃ t ∈ cfg.added_tokens, t.id = e.1 ∧ t.content = e.2 := by
  have hget : objGet (addedTokens cfg) e.1 = some e.2 :=
    objGet_of_mem_nodup (addedTokens_nodup cfg) h
  rcases foldl_objSet_get natIdx _ _ cfg.added_tokens [] e.1 e.2 hget with h1 | h1
  · simp [objGet] at h1
  · exact h1

theorem vocabRaw_get (cfg : Config) {k : Text} {v : Tok} (h : objGet (vocabRaw cfg) k = some v) :
    ∃ n, v = Tok.num n := by
  rcases foldl_objSet_get textIdx (fun e : Text × Nat => e.1) (fun e => Tok.num e.2) cfg.vocab []
    k v h with h1 | ⟨t, _, _, h2⟩
  · simp [objGet] at h1
  · exact ⟨t.2, h2.symm⟩

theorem vocabRaw_isSome (cfg : Config) {k : Text} (h : k ∈ cfg.vocab.map Prod.fst) :
    (objGet (vocabRaw cfg) k).isSome := by
  obtain ⟨e, he, rfl⟩ := List.mem_map.mp h
  exact foldl_objSet_isSome textIdx (fun e : Text × Nat => e.1) (fun e => Tok.num e.2) cfg.vocab []
    e.1 (Or.inr ⟨e, he, rfl⟩)

theorem vocab_get (cfg : Config) {k : Text} {v : Tok} (h : objGet (vocab cfg) k = some v) :
    objGet (vocabRaw cfg) k = some v ∨
      ∃ e ∈ addedTokens cfg, encodedAddedToken cfg e.2 = k ∧ Tok.key e.1 = v :=
  foldl_objSet_get textIdx (fun e : Nat × Text => encodedAddedToken cfg e.2)
    (fun e => Tok.key e.1) (addedTokens cfg) (vocabRaw cfg) k v h

theorem vocab_keep (cfg : Config) {k : Text}
    (h : ∀ e ∈ addedTokens cfg, encodedAddedToken cfg e.2 ≠ k) :
    objGet (vocab cfg) k = objGet (vocabRaw cfg) k :=
  foldl_objSet_keep textIdx (fun e : Nat × Text => encodedAddedToken cfg e.2)
    (fun e => Tok.key e.1) (addedTokens cfg) (vocabRaw cfg) k h

theorem vocab_isSome (cfg : Config) {k : Text} (h : (objGet (vocabRaw cfg) k).isSome) :
    (objGet (vocab cfg) k).isSome :=
  foldl_objSet_isSome textIdx (fun e : Nat × Text => encodedAddedToken cfg e.2)
    (fun e => Tok.key e.1) (addedTokens cfg) (vocabRaw cfg) k (Or.inl h)

theorem vocab_prop (cfg : Config) {k : Text} {v : Tok} (h : objGet (vocab cfg) k = some v) :
    ∃ n, v.prop = some n := by
  rcases vocab_get cfg h with h1 | ⟨e, _, _, h2⟩
  · obtain ⟨n, rfl⟩ := vocabRaw_get cfg h1
    exact ⟨n, rfl⟩
  · exact ⟨e.1, by rw [← h2]; rfl⟩

theorem u0120_foldl_get (v : List (Text × Tok)) (l : List (Text × Tok)) (o : List (Nat × Tok))
    (n : Nat) (x : Tok) (h : objGet (l.foldl (u0120Step v) o) n = some x) :
    objGet o n = some x ∨ ∃ e ∈ l, e.2 = x := by
  induction l generalizing o with
  | nil => exact Or.inl h
  | cons e l ih =>
    rcases ih _ h with h1 | ⟨e', he', h2⟩
    · unfold u0120Step at h1
      split at h1
      · exact Or.inl h1
      · split at h1
        · exact Or.inl h1
        · split at h1
          · exact Or.inl h1
          · split at h1
            · exact Or.inl h1
            · split at h1
              · rw [objGet_objSet] at h1
                split at h1
                · cases h1; exact Or.inr ⟨e, by simp, rfl⟩
                · exact Or.inl h1
              · exact Or.inl h1
    · exact Or.inr ⟨e', List.mem_cons_of_mem _ he', h2⟩

/-- Every entry of the correction table is a value of the extended vocabulary. -/
theorem u0120Merges_get (cfg : Config) {n : Nat} {x : Tok}
    (h : objGet (u0120Merges cfg) n = some x) : ∃ k, objGet (vocab cfg) k = some x := by
  rcases u0120_foldl_get (vocab cfg) (vocab cfg) [] n x h with h1 | ⟨e, he, h2⟩
  · simp [objGet] at h1
  · exact ⟨e.1, h2 ▸ objGet_of_mem_nodup (vocab_nodup cfg) he⟩

/-! ## UTF-8 bytes -/

theorem char_toNat_lt (c : Char) : c.toNat < 0x110000 := by
  have h := c.valid
  simp only [Char.toNat]
  rcases h with h | ⟨_, h⟩
  · exact lt_trans h (by decide)
  · exact h

theorem utf8Char_ne_nil (c : Char) : utf8Char c ≠ [] := by
  unfold utf8Char
  simp only
  split_ifs <;> simp

theorem utf8Char_lt (c : Char) : ∀ b ∈ utf8Char c, b < 256 := by
  have hc := char_toNat_lt c
  unfold utf8Char
  simp only
  intro b hb
  split_ifs at hb <;> simp only [List.mem_cons, List.mem_singleton, List.not_mem_nil, or_false] at hb
  all_goals omega

theorem utf8Char_low (c : Char) : ∀ b ∈ utf8Char c, b < 128 → utf8Char c = [b] ∧ c.toNat = b := by
  unfold utf8Char
  simp only
  intro b hb hlt
  split_ifs at hb ⊢ <;> simp only [List.mem_cons, List.mem_singleton, List.not_mem_nil, or_false] at hb
  · subst hb; exact ⟨rfl, rfl⟩
  all_goals omega

theorem utf8Encode_lt (s : Text) : ∀ b ∈ utf8Encode s, b < 256 := by
  intro b hb
  obtain ⟨c, _, hc⟩ := List.mem_flatMap.mp hb
  exact utf8Char_lt c b hc

theorem utf8Encode_ne_nil (s : Text) (h : s ≠ []) : utf8Encode s ≠ [] := by
  cases s with
  | nil => exact absurd rfl h
  | cons c cs =>
    unfold utf8Encode
    simp only [List.flatMap_cons]
    intro hnil
    exact utf8Char_ne_nil c (List.append_eq_nil.mp hnil).1

/-- A literal whose UTF-8 form is the single byte `b` is the one character
with code `b`, and `b` is an ASCII code. -/
theorem utf8Encode_singleton (s : Text) (b : Nat) (h : utf8Encode s = [b]) :
    ∃ c, s = [c] ∧ c.toNat = b ∧ b < 128 := by
  cases s with
  | nil => simp [utf8Encode] at h
  | cons c cs =>
    unfold utf8Encode at h
    simp only [List.flatMap_cons] at h
    have hlen := congrArg List.length h
    simp only [List.length_append, List.length_singleton] at hlen
    have h1 : 0 < (utf8Char c).length := List.length_pos.mpr (utf8Char_ne_nil c)
    have h2 : (cs.flatMap utf8Char).length = 0 := by omega
    have hcs : cs = [] := by
      cases cs with
      | nil => rfl
      | cons d ds =>
        simp only [List.flatMap_cons, List.length_append] at h2
        have := List.length_pos.mpr (utf8Char_ne_nil d)
        omega
    subst hcs
    simp only [List.flatMap_nil, List.append_nil] at h
    refine ⟨c, rfl, ?_⟩
    unfold utf8Char at h
    simp only at h
    split_ifs at h with h0 <;> simp only [List.cons.injEq, and_true] at h
    · exact ⟨h, h ▸ h0⟩
    all_goals simp at h

/-- An ASCII byte among the UTF-8 bytes of a text is the code of one of its characters. -/
theorem utf8Encode_low (s : Text) (b : Nat) (hb : b ∈ utf8Encode s) (hlt : b < 128) :
    ∃ c ∈ s, c.toNat = b := by
  obtain ⟨c, hc, hbc⟩ := List.mem_flatMap.mp hb
  exact ⟨c, hc, (utf8Char_low c b hbc hlt).2⟩

theorem commaJoin_singleton (l : List Char) (x : Char) (h : commaJoin l = [x]) : l = [x] := by
  match l, h with
  | [c], h => simpa [commaJoin] using h
  | c :: d :: cs, h =>
    simp only [commaJoin, List.cons.injEq] at h
    exact absurd h.2 (by simp)

/-! ## Every token `encode` produces can be decoded -/

theorem char_eq_of_toNat_eq {c d : Char} (h : c.toNat = d.toNat) : c = d := by
  apply Char.eq_of_val_eq
  apply UInt32.ext
  exact h

theorem decodeToken_isSome_of_resolvable (cfg : Config) (t : Tok) (h : Resolvable cfg t) :
    (decodeToken cfg t).isSome := by
  obtain ⟨n, hn, hres⟩ := h
  cases hd : decodeToken cfg t with
  | some x => rfl
  | none =>
    obtain ⟨h1, h2⟩ := (decodeToken_eq_none_iff cfg t).mp hd n hn
    rcases hres with h | h
    · simp [h1] at h
    · simp [h2] at h

theorem vocab_value_resolvable (cfg : Config) {k : Text} {v : Tok}
    (h : objGet (vocab cfg) k = some v) : Resolvable cfg v := by
  obtain ⟨n, hn⟩ := vocab_prop cfg h
  exact ⟨n, hn, Or.inr (vocabReversed_isSome cfg h hn)⟩

theorem byteToken_resolvable (cfg : Config) (hb : AllBytes cfg) (t : Text)
    (hok : PartOk (addedTokens cfg) (Part.text t)) (w : Text) (hw : ∀ c ∈ w, c ∈ t) (b : Nat)
    (hbw : b ∈ utf8Encode w) : Resolvable cfg (byteToUnicodeVocab cfg b) := by
  have hlt : b < 256 := utf8Encode_lt w b hbw
  obtain ⟨v, hv⟩ := Option.isSome_iff_exists.mp (vocabRaw_isSome cfg (hb b hlt))
  have hval : byteToUnicodeVocab cfg b = v := by simp [byteToUnicodeVocab, hlt, hv]
  rw [hval]
  by_cases hreg : ∃ e ∈ addedTokens cfg, encodedAddedToken cfg e.2 = [cfg.codec.byteToUnicode b]
  · exfalso
    obtain ⟨e, he, hkey⟩ := hreg
    have h1 := commaJoin_singleton _ _ hkey
    obtain ⟨b', hb', hbb⟩ : ∃ b', utf8Encode e.2 = [b'] ∧
        cfg.codec.byteToUnicode b' = cfg.codec.byteToUnicode b := by
      cases hu : utf8Encode e.2 with
      | nil => simp [hu] at h1
      | cons x xs =>
        cases xs with
        | nil => exact ⟨x, rfl, by simpa [hu] using h1⟩
        | cons y ys => simp [hu] at h1
    have hlt' : b' < 256 := utf8Encode_lt e.2 b' (by simp [hb'])
    have hEq : b' = b := by
      have e1 := cfg.codec.left_inv b' hlt'
      have e2 := cfg.codec.left_inv b hlt
      rw [hbb, e2] at e1
      exact (Option.some.inj e1).symm
    subst hEq
    obtain ⟨c, hc, hcn, hlow⟩ := utf8Encode_singleton e.2 b' hb'
    obtain ⟨c', hc', hcn'⟩ := utf8Encode_low w b' hbw hlow
    have hcc : c' = c := char_eq_of_toNat_eq (hcn'.trans hcn.symm)
    subst hcc
    obtain ⟨s1, s2, hs⟩ := List.append_of_mem (hw c' hc')
    apply hok.2 e he (by simp [hc])
    rw [hc, hs]
    exact ⟨s1, s2, by simp⟩
  · have hkeep : objGet (vocab cfg) [cfg.codec.byteToUnicode b] = some v := by
      rw [vocab_keep cfg (fun e he hk => hreg ⟨e, he, hk⟩)]
      exact hv
    exact vocab_value_resolvable cfg hkeep

theorem u0120_value_resolvable (cfg : Config) (y : Tok)
    (h : (u0120Lookup cfg y).truthy = true) : Resolvable cfg (u0120Lookup cfg y) := by
  unfold u0120Lookup at h ⊢
  cases hp : y.prop with
  | none => simp [hp, Tok.truthy] at h
  | some n =>
    simp only [hp] at h ⊢
    cases hg : objGet (u0120Merges cfg) n with
    | none => simp [hg, Tok.truthy] at h
    | some x =>
      obtain ⟨k, hk⟩ := u0120Merges_get cfg hg
      simpa using vocab_value_resolvable cfg hk

theorem processedMerges_of_resolve (cfg : Config) (hm : MergesResolve cfg) :
    processedMerges cfg = some (cfg.merges.map (mergeTriple (vocab cfg))) := by
  unfold processedMerges
  rw [processedMergesOf_eq, if_pos (fun m hmem => (hm m hmem).1)]

theorem mergeTriple_resolvable (cfg : Config) (hm : MergesResolve cfg) :
    ∀ m ∈ cfg.merges.map (mergeTriple (vocab cfg)), Resolvable cfg m.tokenMerged := by
  intro m hmem
  obtain ⟨r, hr, rfl⟩ := List.mem_map.mp hmem
  obtain ⟨v, hv⟩ := Option.isSome_iff_exists.mp
    (vocab_isSome cfg (vocabRaw_isSome cfg (hm r hr).2.2.2))
  have : (mergeTriple (vocab cfg) r).tokenMerged = v := by
    unfold mergeTriple lookupTok
    simp only [hv, Option.getD_some]
  rw [this]
  exact vocab_value_resolvable cfg hv

theorem collect_mem {α : Type} (l : List (Option (List α))) (out : List α)
    (h : collect l = some out) : ∀ t ∈ out, ∃ x, some x ∈ l ∧ t ∈ x := by
  induction l generalizing out with
  | nil => simp [collect] at h; subst h; simp
  | cons a l ih =>
    cases a with
    | none => simp [collect] at h
    | some x =>
      cases hc : collect l with
      | none => simp [collect, hc] at h
      | some r =>
        simp only [collect, hc, Option.map_some', Option.some.injEq] at h
        subst h
        intro t ht
        rcases List.mem_append.mp ht with h' | h'
        · exact ⟨x, by simp, h'⟩
        · obtain ⟨y, hy, hty⟩ := ih r hc t h'
          exact ⟨y, List.mem_cons_of_mem _ hy, hty⟩

theorem collect_isSome {α : Type} (l : List (Option (List α))) (h : ∀ x ∈ l, x.isSome) :
    (collect l).isSome := by
  cases hc : collect l with
  | some r => rfl
  | none =>
    have := h none ((collect_eq_none_iff l).mp hc)
    simp at this

theorem replaceAll_all (P : Tok → Prop) (l : List (Nat × List Tok))
    (hl : ∀ e ∈ l, P (Tok.key e.1)) (init : Option (List Tok)) (out : List Tok)
    (hinit : ∀ x, init = some x → ∀ t ∈ x, P t)
    (h : l.foldl (fun acc e => acc.bind fun t =>
      replaceSubsequence (t.length + 1) t e.2 [Tok.key e.1]) init = some out) :
    ∀ t ∈ out, P t := by
  induction l generalizing init with
  | nil => exact hinit out h
  | cons e l ih =>
    simp only [List.mem_cons, forall_eq_or_imp] at hl
    refine ih hl.2 _ ?_ h
    intro x hx
    cases init with
    | none => simp at hx
    | some t0 =>
      simp only [Option.some_bind, replaceSubsequence] at hx
      exact replaceSubsequenceGo_all P e.2 [Tok.key e.1] (by simpa using hl.1) _ t0 x hx
        (hinit t0 rfl)

theorem replaceAll_isSome (l : List (Nat × List Tok)) (hl : ∀ e ∈ l, e.2 ≠ [])
    (init : Option (List Tok)) (hinit : init.isSome) :
    (l.foldl (fun acc e => acc.bind fun t =>
      replaceSubsequence (t.length + 1) t e.2 [Tok.key e.1]) init).isSome := by
  induction l generalizing init with
  | nil => exact hinit
  | cons e l ih =>
    simp only [List.mem_cons, forall_eq_or_imp] at hl
    apply ih hl.2
    obtain ⟨t0, rfl⟩ := Option.isSome_iff_exists.mp hinit
    simp only [Option.some_bind, replaceSubsequence]
    exact replaceSubsequenceGo_isSome e.2 _ hl.1 _ t0 (Nat.le_succ _)

theorem addedTokensTokensMap_key (cfg : Config) :
    ∀ e ∈ addedTokensTokensMap cfg, Resolvable cfg (Tok.key e.1) := by
  intro e he
  obtain ⟨e0, he0, rfl⟩ := List.mem_map.mp he
  refine ⟨e0.1, rfl, Or.inl ?_⟩
  rw [objGet_of_mem_nodup (addedTokens_nodup cfg) he0]
  rfl

theorem addedTokensTokensMap_ne_nil (cfg : Config) (hne : ∀ t ∈ cfg.added_tokens, t.content ≠ []) :
    ∀ e ∈ addedTokensTokensMap cfg, e.2 ≠ [] := by
  intro e he
  obtain ⟨e0, he0, rfl⟩ := List.mem_map.mp he
  obtain ⟨t, ht, _, h2⟩ := addedTokens_mem cfg he0
  have := utf8Encode_ne_nil e0.2 (h2 ▸ hne t ht)
  simpa using this

theorem wordTokens_resolvable (tk : Tokenizer) (hb : AllBytes tk.cfg)
    (hm : ∀ m ∈ tk.processedMerges, Resolvable tk.cfg m.tokenMerged) (t : Text)
    (hok : PartOk (addedTokens tk.cfg) (Part.text t)) (w : Text) (hw : ∀ c ∈ w, c ∈ t)
    (out : List Tok) (h : wordTokens tk w = some out) : ∀ x ∈ out, Resolvable tk.cfg x := by
  unfold wordTokens at h
  simp only at h
  cases hr : (addedTokensTokensMap tk.cfg).foldl (fun acc e => acc.bind fun t =>
      replaceSubsequence (t.length + 1) t e.2 [Tok.key e.1])
      (some ((utf8Encode w).map (byteToUnicodeVocab tk.cfg))) with
  | none => simp [hr] at h
  | some r =>
    simp only [hr, Option.map_some', Option.some.injEq] at h
    subst h
    apply merges_all _ _ hm
    apply replaceAll_all _ _ (addedTokensTokensMap_key tk.cfg) _ _ _ hr
    intro x hx t' ht'
    cases hx
    obtain ⟨b, hbw, rfl⟩ := List.mem_map.mp ht'
    exact byteToken_resolvable tk.cfg hb t hok w hw b hbw

theorem partTokens_resolvable (tk : Tokenizer) (hb : AllBytes tk.cfg)
    (hm : ∀ m ∈ tk.processedMerges, Resolvable tk.cfg m.tokenMerged) (part : Part)
    (hok : PartOk (addedTokens tk.cfg) part) (out : List Tok)
    (h : partTokens tk part = some out) : ∀ x ∈ out, Resolvable tk.cfg x := by
  cases part with
  | id n =>
    simp only [partTokens, Option.some.injEq] at h
    subst h
    intro x hx
    simp only [List.mem_singleton] at hx
    subst hx
    exact ⟨n, rfl, Or.inl hok⟩
  | text t =>
    simp only [partTokens] at h
    intro x hx
    obtain ⟨y, hy, hxy⟩ := collect_mem _ out h x hx
    obtain ⟨w, hw, hwy⟩ := List.mem_map.mp hy
    exact wordTokens_resolvable tk hb hm t hok w
      (fun c hc => splitWords_mem_subset tk.cfg.unicode t hw hc) y hwy x hxy

theorem encode_resolvable (tk : Tokenizer) (hb : AllBytes tk.cfg)
    (hm : ∀ m ∈ tk.processedMerges, Resolvable tk.cfg m.tokenMerged) (s : Text) (out : List Tok)
    (h : encode tk s = some out) : ∀ x ∈ out, Resolvable tk.cfg x := by
  unfold encode at h
  cases hp : encodeAddedTokens tk.cfg (tk.cfg.unicode.normalize s) with
  | none => simp [hp] at h
  | some parts =>
    simp only [hp, Option.some_bind] at h
    cases he : encodeParts tk parts with
    | none => simp [he] at h
    | some r =>
      simp only [he, Option.map_some', Option.some.injEq] at h
      subst h
      apply u0120Pass_all _ _ (u0120_value_resolvable tk.cfg)
      intro x hx
      obtain ⟨y, hy, hxy⟩ := collect_mem _ r he x hx
      obtain ⟨part, hpart, hpy⟩ := List.mem_map.mp hy
      exact partTokens_resolvable tk hb hm part (loop_parts_ok _ _ _ _ hp part hpart) y hpy x hxy

theorem decode_isSome_of_resolvable (tk : Tokenizer) (out : List Tok)
    (h : ∀ x ∈ out, Resolvable tk.cfg x) : (decode tk out).isSome := by
  unfold decode
  have : (collect (out.map (decodeToken tk.cfg))).isSome := by
    apply collect_isSome
    intro x hx
    obtain ⟨t, ht, rfl⟩ := List.mem_map.mp hx
    exact decodeToken_isSome_of_resolvable tk.cfg t (h t ht)
  obtain ⟨r, hr⟩ := Option.isSome_iff_exists.mp this
  simp [hr]

theorem encode_isSome (tk : Tokenizer) (hne : ∀ t ∈ tk.cfg.added_tokens, t.content ≠ [])
    (s : Text) : (encode tk s).isSome := by
  unfold encode
  have hlit : ∀ e ∈ addedTokens tk.cfg, e.2 ≠ [] := by
    intro e he
    obtain ⟨t, ht, _, h2⟩ := addedTokens_mem tk.cfg he
    exact h2 ▸ hne t ht
  obtain ⟨parts, hp⟩ := Option.isSome_iff_exists.mp
    (loop_isSome (addedTokens tk.cfg) (addedTokens_nodup tk.cfg) hlit _
      (tk.cfg.unicode.normalize s) (Nat.le_refl _))
  have hp' : encodeAddedTokens tk.cfg (tk.cfg.unicode.normalize s) = some parts := hp
  simp only [hp', Option.some_bind]
  have : (encodeParts tk parts).isSome := by
    apply collect_isSome
    intro x hx
    obtain ⟨part, _, rfl⟩ := List.mem_map.mp hx
    cases part with
    | id n => rfl
    | text t =>
      simp only [partTokens]
      apply collect_isSome
      intro y hy
      obtain ⟨w, _, rfl⟩ := List.mem_map.mp hy
      unfold wordTokens
      simp only [Option.isSome_map']
      exact replaceAll_isSome _ (addedTokensTokensMap_ne_nil tk.cfg hne) _ rfl
  obtain ⟨r, hr⟩ := Option.isSome_iff_exists.mp this
  simp [hr]

/-! ## The example vocabulary -/

theorem gpt2ByteToUnicode_inj {a b : Nat} (ha : a < 256) (hb : b < 256)
    (h : gpt2ByteToUnicode a = gpt2ByteToUnicode b) : a = b := by
  have e1 := gpt2Codec.left_inv a ha
  have e2 := gpt2Codec.left_inv b hb
  have h' : gpt2Codec.byteToUnicode a = gpt2Codec.byteToUnicode b := h
  rw [h', e2] at e1
  exact (Option.some.inj e1).symm

theorem byteVocab_keys_nodup : (byteVocab.map Prod.fst).Nodup := by
  unfold byteVocab
  rw [List.map_map]
  apply List.Nodup.map_on _ (List.nodup_range 256)
  intro a ha b hb h
  simp only [Function.comp, List.cons.injEq, and_true] at h
  exact gpt2ByteToUnicode_inj (List.mem_range.mp ha) (List.mem_range.mp hb) h

theorem byteVocab_ids_nodup : (byteVocab.map Prod.snd).Nodup := by
  unfold byteVocab
  rw [List.map_map]
  apply List.Nodup.map_on _ (List.nodup_range 256)
  intro a ha b hb h
  simp only [Function.comp] at h
  have := List.mem_range.mp ha
  have := List.mem_range.mp hb
  omega

theorem allBytes_of_byteVocab (cfg : Config) (extra : List (Text × Nat))
    (hc : cfg.codec = gpt2Codec) (hv : cfg.vocab = byteVocab ++ extra) : AllBytes cfg := by
  intro b hb
  rw [hv, hc, List.map_append]
  exact List.mem_append_left _
    (List.mem_map.mpr ⟨_, List.mem_map.mpr ⟨b, List.mem_range.mpr hb, rfl⟩, rfl⟩)

theorem cfgComma_keys : (cfgComma.vocab.map Prod.fst).Nodup := by
  show ((byteVocab ++ [("<>".toList, 300), ("Ġ<,>".toList, 900)]).map Prod.fst).Nodup
  rw [List.map_append, List.nodup_append]
  refine ⟨byteVocab_keys_nodup, by decide, ?_⟩
  intro k hk hk'
  obtain ⟨e, he, rfl⟩ := List.mem_map.mp hk
  obtain ⟨b, _, rfl⟩ := List.mem_map.mp he
  have e1 : "<>".toList = ['<', '>'] := rfl
  have e2 : "Ġ<,>".toList = ['Ġ', '<', ',', '>'] := rfl
  simp [e1, e2] at hk'

theorem cfgComma_ids : (cfgComma.vocab.map Prod.snd).Nodup := by
  show ((byteVocab ++ [("<>".toList, 300), ("Ġ<,>".toList, 900)]).map Prod.snd).Nodup
  rw [List.map_append, List.nodup_append]
  refine ⟨byteVocab_ids_nodup, by decide, ?_⟩
  intro k hk hk'
  obtain ⟨e, he, rfl⟩ := List.mem_map.mp hk
  obtain ⟨b, _, rfl⟩ := List.mem_map.mp he
  simp only [List.map_cons, List.map_nil, List.mem_cons, List.mem_singleton,
    List.not_mem_nil, or_false] at hk'
  omega

theorem cfgComma_added : ∀ t ∈ cfgComma.added_tokens, t.content ≠ [] ∧
    (∀ c ∈ t.content, c.toNat < 128) ∧
    ((utf8Encode t.content).map cfgComma.codec.byteToUnicode, t.id) ∈ cfgComma.vocab := by
  intro t ht
  have ht' : t = ⟨300, "<>".toList⟩ := by simpa [cfgComma] using ht
  subst ht'
  refine ⟨by decide, by decide, ?_⟩
  exact List.mem_append_right _ (List.mem_cons_self _ _)

theorem cfgComma_wellFormed : WellFormed cfgComma :=
  ⟨cfgComma_keys, cfgComma_ids, allBytes_of_byteVocab cfgComma _ rfl rfl,
    fun m hm => absurd hm (List.not_mem_nil m),
    List.mem_append_left _ (List.mem_map.mpr ⟨32, List.mem_range.mpr (by decide), rfl⟩),
    cfgComma_added⟩

/-! ## Looking up the built tables -/

theorem snd_eq_of_nodup_keys {K V : Type} [DecidableEq K] {l : List (K × V)}
    (hnd : (l.map Prod.fst).Nodup) {k : K} {a b : V} (ha : (k, a) ∈ l) (hb : (k, b) ∈ l) :
    a = b := by
  have h1 := objGet_of_mem_nodup hnd ha
  have h2 := objGet_of_mem_nodup hnd hb
  rw [h1] at h2
  exact Option.some.inj h2

theorem vocabRaw_mem (cfg : Config) {k : Text} {v : Tok} (h : objGet (vocabRaw cfg) k = some v) :
    ∃ n, (k, n) ∈ cfg.vocab ∧ v = Tok.num n := by
  rcases foldl_objSet_get textIdx (fun e : Text × Nat => e.1) (fun e => Tok.num e.2) cfg.vocab []
    k v h with h1 | ⟨t, ht, h2, h3⟩
  · simp [objGet] at h1
  · exact ⟨t.2, by rw [← h2]; exact ht, h3.symm⟩

theorem vocabRaw_get_of_mem (cfg : Config) (hnd : (cfg.vocab.map Prod.fst).Nodup) {k : Text}
    {n : Nat} (h : (k, n) ∈ cfg.vocab) : objGet (vocabRaw cfg) k = some (Tok.num n) := by
  obtain ⟨v, hv⟩ := Option.isSome_iff_exists.mp
    (vocabRaw_isSome cfg (List.mem_map.mpr ⟨(k, n), h, rfl⟩))
  obtain ⟨m, hm, rfl⟩ := vocabRaw_mem cfg hv
  rw [hv, snd_eq_of_nodup_keys hnd hm h]

/-- Where an entry of the extended vocabulary comes from. -/
theorem vocab_mem (cfg : Config) {k : Text} {v : Tok} (h : (k, v) ∈ vocab cfg) :
    (∃ n, (k, n) ∈ cfg.vocab ∧ v = Tok.num n) ∨
      ∃ e ∈ addedTokens cfg, encodedAddedToken cfg e.2 = k ∧ Tok.key e.1 = v := by
  rcases vocab_get cfg (objGet_of_mem_nodup (vocab_nodup cfg) h) with h1 | h1
  · exact Or.inl (vocabRaw_mem cfg h1)
  · exact Or.inr h1

/-- A key of `vocabReversed` whose ID belongs to one vocabulary key only holds that key. -/
theorem vocabReversed_get_unique (cfg : Config) {k : Text} {v : Tok} {n : Nat}
    (h : (k, v) ∈ vocab cfg) (hn : v.prop = some n)
    (huniq : ∀ k' v', (k', v') ∈ vocab cfg → v'.prop = some n → k' = k) :
    objGet (vocabReversed cfg) n = some k := by
  obtain ⟨c, hc⟩ := Option.isSome_iff_exists.mp
    ((reverse_foldl_isSome (vocab cfg) [] n).2 (k, v) h hn)
  rcases reverse_foldl_some (vocab cfg) [] n c hc with h1 | ⟨v', hv', hp⟩
  · simp [objGet] at h1
  · have := huniq c v' hv' hp
    rw [← this]
    exact hc

theorem u0120Step_cases (v : List (Text × Tok)) (o : List (Nat × Tok)) (e : Text × Tok) :
    (u0120Step v o e = o ∧ ∀ n, ¬ U0120Entry v e n) ∨
      ∃ n, U0120Entry v e n ∧ u0120Step v o e = objSet natIdx o n e.2 := by
  unfold u0120Step
  cases he : e.1 with
  | nil =>
    left
    refine ⟨rfl, ?_⟩
    rintro n ⟨c, rest, r, h1, _⟩
    rw [he] at h1
    cases h1
  | cons c rest =>
    simp only
    by_cases hc : charCodeAt0 c = 0x120
    · by_cases hr : rest.length = 0
      · left
        refine ⟨by simp [hc, hr], ?_⟩
        rintro n ⟨c', rest', r, h1, _, h3, _⟩
        rw [he] at h1
        cases h1
        exact h3 (List.length_eq_zero.mp hr)
      · cases hg : objGet v rest with
        | none =>
          left
          refine ⟨by simp [hc, hr], ?_⟩
          rintro n ⟨c', rest', r, h1, _, _, h4, _⟩
          rw [he] at h1
          cases h1
          rw [hg] at h4
          cases h4
        | some r =>
          cases hp : r.prop with
          | none =>
            left
            refine ⟨by simp [hc, hr, hp], ?_⟩
            rintro n ⟨c', rest', r', h1, _, _, h4, h5⟩
            rw [he] at h1
            cases h1
            rw [hg] at h4
            cases h4
            rw [hp] at h5
            cases h5
          | some n =>
            right
            refine ⟨n, ⟨c, rest, r, he, hc, fun h => hr (by rw [h]; rfl), hg, hp⟩, ?_⟩
            simp [hc, hr, hp]
    · left
      refine ⟨by simp [hc], ?_⟩
      rintro n ⟨c', rest', r, h1, h2, _⟩
      rw [he] at h1
      cases h1
      exact hc h2

theorem U0120Entry.key_unique {v : List (Text × Tok)} {e : Text × Tok} {n m : Nat}
    (h1 : U0120Entry v e n) (h2 : U0120Entry v e m) : n = m := by
  obtain ⟨c, rest, r, a1, _, _, a4, a5⟩ := h1
  obtain ⟨c', rest', r', b1, _, _, b4, b5⟩ := h2
  rw [a1] at b1
  cases b1
  rw [a4] at b4
  cases b4
  rw [a5] at b5
  exact Option.some.inj b5

theorem u0120_foldl_entry (v : List (Text × Tok)) (l : List (Text × Tok)) (o : List (Nat × Tok))
    (n : Nat) (x : Tok) (h : objGet (l.foldl (u0120Step v) o) n = some x) :
    objGet o n = some x ∨ ∃ e ∈ l, U0120Entry v e n ∧ e.2 = x := by
  induction l generalizing o with
  | nil => exact Or.inl h
  | cons e l ih =>
    rcases ih _ h with h1 | ⟨e', he', h2⟩
    · rcases u0120Step_cases v o e with ⟨hs, _⟩ | ⟨m, hm, hs⟩
      · rw [hs] at h1
        exact Or.inl h1
      · rw [hs, objGet_objSet] at h1
        split at h1
        · next hmn =>
          cases h1
          exact Or.inr ⟨e, by simp, hmn ▸ hm, rfl⟩
        · exact Or.inl h1
    · exact Or.inr ⟨e', List.mem_cons_of_mem _ he', h2⟩

theorem u0120_foldl_isSome (v : List (Text × Tok)) (l : List (Text × Tok)) (o : List (Nat × Tok))
    (n : Nat) :
    ((objGet o n).isSome → (objGet (l.foldl (u0120Step v) o) n).isSome) ∧
    (∀ e ∈ l, U0120Entry v e n → (objGet (l.foldl (u0120Step v) o) n).isSome) := by
  induction l generalizing o with
  | nil => simp
  | cons e l ih =>
    have step : (objGet o n).isSome → (objGet (u0120Step v o e) n).isSome := by
      intro h
      rcases u0120Step_cases v o e with ⟨hs, _⟩ | ⟨m, _, hs⟩
      · rw [hs]; exact h
      · rw [hs, objGet_objSet]; split <;> simp [h]
    refine ⟨fun h => (ih _).1 (step h), ?_⟩
    intro e' he' hent
    rcases List.mem_cons.mp he' with h | h
    · subst h
      apply (ih _).1
      rcases u0120Step_cases v o e' with ⟨_, hs⟩ | ⟨m, hm, hs⟩
      · exact absurd hent (hs n)
      · rw [hs, hm.key_unique hent, objGet_objSet_self]
        rfl
    · exact (ih _).2 e' h hent

/-- A key of `u0120Merges` which all the vocabulary entries stored under it
agree on holds their common value. -/
theorem u0120Merges_get_unique (cfg : Config) {e : Text × Tok} {n : Nat} (he : e ∈ vocab cfg)
    (hent : U0120Entry (vocab cfg) e n)
    (huniq : ∀ e' ∈ vocab cfg, U0120Entry (vocab cfg) e' n → e'.2 = e.2) :
    objGet (u0120Merges cfg) n = some e.2 := by
  obtain ⟨x, hx⟩ := Option.isSome_iff_exists.mp
    ((u0120_foldl_isSome (vocab cfg) (vocab cfg) [] n).2 e he hent)
  rcases u0120_foldl_entry (vocab cfg) (vocab cfg) [] n x hx with h1 | ⟨e', he', h2, h3⟩
  · simp [objGet] at h1
  · have hx' : objGet (u0120Merges cfg) n = some x := hx
    rw [hx', ← h3, huniq e' he' h2]

/-- The call `decode([t])` for a token that is a key of `vocabReversed` and
not an added token. -/
theorem decode_singleton_vocab (tk : Tokenizer) (t : Tok) (n : Nat) (str : Text)
    (hp : t.prop = some n) (h1 : objGet (addedTokens tk.cfg) n = none)
    (h2 : objGet (vocabReversed tk.cfg) n = some str) :
    decode tk [t] = some (utf8Decode (str.map fun c => toByte (tk.cfg.codec.unicodeToBytes c))) := by
  unfold decode
  simp only [List.map_cons, List.map_nil, decodeToken, hp, h1, h2, collect, Option.map_some',
    List.append_nil]

/-! ## The configuration `cfgComma`, table by table -/

theorem cfgComma_addedTokens : addedTokens cfgComma = [(300, "<>".toList)] := by decide!

theorem cfgComma_key : encodedAddedToken cfgComma "<>".toList = "<,>".toList := by decide!

theorem cfgComma_byte (b : Nat) (hb : b < 256) :
    byteToUnicodeVocab cfgComma b = Tok.num ((b + 177) % 256) := by
  have h : objGet (vocabRaw cfgComma) [gpt2ByteToUnicode b] = some (Tok.num ((b + 177) % 256)) :=
    vocabRaw_get_of_mem cfgComma cfgComma_keys
      (List.mem_append_left _ (List.mem_map.mpr ⟨b, List.mem_range.mpr hb, rfl⟩))
  unfold byteToUnicodeVocab
  rw [if_pos hb]
  show (objGet (vocabRaw cfgComma) [gpt2ByteToUnicode b]).getD Tok.undef = _
  rw [h]
  rfl

theorem cfgComma_tokensMap :
    addedTokensTokensMap cfgComma = [(300, [Tok.num 237, Tok.num 239])] := by
  unfold addedTokensTokensMap
  rw [cfgComma_addedTokens]
  have hu : utf8Encode "<>".toList = [60, 62] := by decide
  simp only [List.map_cons, List.map_nil, hu]
  rw [cfgComma_byte 60 (by decide), cfgComma_byte 62 (by decide)]

theorem cfgComma_vocab_mem {k : Text} {v : Tok} (h : (k, v) ∈ vocab cfgComma) :
    (∃ b, b < 256 ∧ k = [gpt2ByteToUnicode b] ∧ v = Tok.num ((b + 177) % 256)) ∨
    (k = "<>".toList ∧ v = Tok.num 300) ∨ (k = "Ġ<,>".toList ∧ v = Tok.num 900) ∨
    (k = "<,>".toList ∧ v = Tok.key 300) := by
  rcases vocab_mem cfgComma h with ⟨n, hn, rfl⟩ | ⟨e, he, h1, h2⟩
  · have hn' : (k, n) ∈ byteVocab ++ [("<>".toList, 300), ("Ġ<,>".toList, 900)] := hn
    rcases List.mem_append.mp hn' with hb | hx
    · obtain ⟨b, hb, heq⟩ := List.mem_map.mp hb
      exact Or.inl ⟨b, List.mem_range.mp hb, (Prod.mk.inj heq).1.symm,
        congrArg Tok.num (Prod.mk.inj heq).2.symm⟩
    · rcases List.mem_cons.mp hx with hx | hx
      · exact Or.inr (Or.inl ⟨(Prod.mk.inj hx).1, congrArg Tok.num (Prod.mk.inj hx).2⟩)
      · rcases List.mem_cons.mp hx with hx | hx
        · exact Or.inr (Or.inr (Or.inl
            ⟨(Prod.mk.inj hx).1, congrArg Tok.num (Prod.mk.inj hx).2⟩))
        · exact absurd hx (List.not_mem_nil _)
  · rw [cfgComma_addedTokens] at he
    simp only [List.mem_singleton] at he
    subst he
    rw [cfgComma_key] at h1
    exact Or.inr (Or.inr (Or.inr ⟨h1.symm, h2.symm⟩))

theorem cfgComma_get_comma : objGet (vocab cfgComma) "<,>".toList = some (Tok.key 300) := by
  have hmem : ((300 : Nat), "<>".toList) ∈ addedTokens cfgComma := by
    rw [cfgComma_addedTokens]
    exact List.mem_cons_self _ _
  obtain ⟨v, hv⟩ := Option.isSome_iff_exists.mp
    (foldl_objSet_isSome textIdx (fun e : Nat × Text => encodedAddedToken cfgComma e.2)
      (fun e => Tok.key e.1) (addedTokens cfgComma) (vocabRaw cfgComma) "<,>".toList
      (Or.inr ⟨(300, "<>".toList), hmem, cfgComma_key⟩))
  have hv' : objGet (vocab cfgComma) "<,>".toList = some v := hv
  rcases cfgComma_vocab_mem (objGet_mem hv') with ⟨b, _, hk, _⟩ | ⟨hk, _⟩ | ⟨hk, _⟩ | ⟨_, h⟩
  · exact absurd hk (by simp)
  · exact absurd hk (by decide)
  · exact absurd hk (by decide)
  · rw [hv', h]

theorem cfgComma_get_space_comma :
    objGet (vocab cfgComma) "Ġ<,>".toList = some (Tok.num 900) := by
  rw [vocab_keep cfgComma]
  · exact vocabRaw_get_of_mem cfgComma cfgComma_keys
      (List.mem_append_right _ (List.mem_cons_of_mem _ (List.mem_cons_self _ _)))
  · intro e he
    rw [cfgComma_addedTokens] at he
    rw [List.mem_singleton.mp he, cfgComma_key]
    decide

theorem cfgComma_u0120 : u0120Lookup cfgComma (Tok.num 300) = Tok.num 900 := by
  have hent : U0120Entry (vocab cfgComma) ("Ġ<,>".toList, Tok.num 900) 300 :=
    ⟨'Ġ', "<,>".toList, Tok.key 300, rfl, by decide, by decide, cfgComma_get_comma, rfl⟩
  have hget := u0120Merges_get_unique cfgComma (objGet_mem cfgComma_get_space_comma) hent (by
    rintro ⟨k, v⟩ he' ⟨c, rest, r, h1, h2, h3, _, _⟩
    simp only at h1
    rcases cfgComma_vocab_mem he' with ⟨b, _, hk, _⟩ | ⟨hk, _⟩ | ⟨_, hv⟩ | ⟨hk, _⟩
    · rw [hk] at h1
      cases h1
      exact absurd rfl h3
    · rw [hk] at h1
      cases h1
      exact absurd h2 (by decide)
    · exact hv
    · rw [hk] at h1
      cases h1
      exact absurd h2 (by decide))
  unfold u0120Lookup
  simp only [Tok.prop, hget, Option.getD_some]

theorem cfgComma_reversed : objGet (vocabReversed cfgComma) 900 = some "Ġ<,>".toList := by
  apply vocabReversed_get_unique cfgComma (objGet_mem cfgComma_get_space_comma) rfl
  intro k' v' h' hp
  rcases cfgComma_vocab_mem h' with ⟨b, hb, _, hv⟩ | ⟨_, hv⟩ | ⟨hk, _⟩ | ⟨_, hv⟩
  · rw [hv] at hp
    simp only [Tok.prop, Option.some.injEq] at hp
    omega
  · rw [hv] at hp
    simp [Tok.prop] at hp
  · exact hk
  · rw [hv] at hp
    simp [Tok.prop] at hp

theorem cfgComma_merges : processedMerges cfgComma = some [] := rfl

theorem cfgComma_load : load cfgComma = some ⟨cfgComma, []⟩ := rfl

theorem cfgComma_word : wordTokens ⟨cfgComma, []⟩ " ".toList = some [Tok.num 209] := by
  unfold wordTokens
  have hu : utf8Encode " ".toList = [32] := by decide
  simp only [cfgComma_tokensMap, hu, List.map_cons, List.map_nil, List.foldl_cons, List.foldl_nil,
    cfgComma_byte 32 (by decide), Option.some_bind]
  decide

theorem cfgComma_pass :
    u0120Pass cfgComma [Tok.num 209, Tok.num 300] = [Tok.num 900] := by
  show u0120Go cfgComma (Tok.num 209) [Tok.num 300] = [Tok.num 900]
  rw [u0120Go, cfgComma_u0120]
  rfl

theorem cfgComma_parts :
    encodeParts ⟨cfgComma, []⟩ [Part.text " ".toList, Part.id 300]
      = some [Tok.num 209, Tok.num 300] := by
  have hwords : splitWords cfgComma.unicode " ".toList = [" ".toList] := by decide
  unfold encodeParts
  rw [List.map_cons, List.map_cons, List.map_nil, partTokens, partTokens, hwords, List.map_cons,
    List.map_nil, cfgComma_word]
  rfl

theorem cfgComma_encode : encode ⟨cfgComma, []⟩ " <>".toList = some [Tok.num 900] := by
  have hsplit : encodeAddedTokens cfgComma (cfgComma.unicode.normalize " <>".toList)
      = some [Part.text " ".toList, Part.id 300] := by
    unfold encodeAddedTokens
    rw [cfgComma_addedTokens]
    decide
  unfold encode
  rw [hsplit, Option.some_bind, cfgComma_parts, Option.map_some', cfgComma_pass]

theorem cfgComma_decode : decode ⟨cfgComma, []⟩ [Tok.num 900] = some " <,>".toList := by
  have hadded : objGet (addedTokens cfgComma) 900 = none := by
    rw [cfgComma_addedTokens]
    decide
  rw [decode_singleton_vocab ⟨cfgComma, []⟩ (Tok.num 900) 900 "Ġ<,>".toList rfl hadded
    cfgComma_reversed]
  decide

theorem cfgComma_ascii : ∀ c ∈ " <>".toList, c.toNat < 128 := by decide

/-! ## The claims -/

/-- C1 (evaluation at the failing input): `cfgComma` satisfies every
hypothesis of the ASCII round trip, the module loads, and on the ASCII text
space `<>` the call `encode` returns `[900]`, which `decode` turns into
space `<,>`: the round trip does not give the input back. -/
theorem ascii_round_trip_fails_on_comma_key :
    WellFormed cfgComma ∧ (∀ c ∈ " <>".toList, c.toNat < 128) ∧
    ∃ tk, load cfgComma = some tk ∧ encode tk " <>".toList = some [Tok.num 900] ∧
      decode tk [Tok.num 900] = some " <,>".toList :=
  ⟨cfgComma_wellFormed, cfgComma_ascii, ⟨cfgComma, []⟩, cfgComma_load, cfgComma_encode,
    cfgComma_decode⟩

/-- C2 (evaluation at the failing input): for the added token with literal
U+00E9, `encode` of the literal is the token's ID and `decode` of that ID is
the one character U+FFFD, not the literal. -/
theorem added_token_accent_not_restored :
    ∃ tk, load cfgAccent = some tk ∧ encode tk "é".toList = some [Tok.num 300] ∧
      decode tk [Tok.num 300] = some [Char.ofNat 0xFFFD] := by
  have hload : load cfgAccent = some ⟨cfgAccent, []⟩ := by
    unfold load
    rw [show processedMerges cfgAccent = some [] from by decide!]
    rfl
  exact ⟨⟨cfgAccent, []⟩, hload, by decide!, by decide!⟩

/-- C3: when the vocabulary has all 256 single-byte surface strings and every
merge rule resolves, the module loads, every token of every result of
`encode` names an added token or a key of `vocabReversed`, and `decode`
succeeds on that result; and `encode` does return a result for every text when
no added-token literal is empty. -/
theorem decode_succeeds_on_encode (cfg : Config) (hb : AllBytes cfg) (hm : MergesResolve cfg) :
    ∃ tk, load cfg = some tk ∧
      (∀ s out, encode tk s = some out →
        (∀ x ∈ out, Resolvable cfg x) ∧ (decode tk out).isSome) ∧
      ((∀ t ∈ cfg.added_tokens, t.content ≠ []) → ∀ s, (encode tk s).isSome) := by
  refine ⟨⟨cfg, cfg.merges.map (mergeTriple (vocab cfg))⟩, ?_, ?_, ?_⟩
  · simp [load, processedMerges_of_resolve cfg hm]
  · intro s out h
    have hres := encode_resolvable ⟨cfg, cfg.merges.map (mergeTriple (vocab cfg))⟩ hb
      (mergeTriple_resolvable cfg hm) s out h
    exact ⟨hres, decode_isSome_of_resolvable _ out hres⟩
  · intro hne s
    exact encode_isSome ⟨cfg, _⟩ hne s

/-- C3 at a concrete configuration with two merge rules and one added token. -/
theorem decode_succeeds_on_encode_witness :
    AllBytes cfgMerge ∧ MergesResolve cfgMerge ∧
    ∃ tk, load cfgMerge = some tk ∧
      (∀ s out, encode tk s = some out →
        (∀ x ∈ out, Resolvable cfgMerge x) ∧ (decode tk out).isSome) ∧
      ((∀ t ∈ cfgMerge.added_tokens, t.content ≠ []) → ∀ s, (encode tk s).isSome) :=
  ⟨allBytes_of_byteVocab cfgMerge _ rfl rfl, by unfold MergesResolve; decide!,
    decode_succeeds_on_encode cfgMerge (allBytes_of_byteVocab cfgMerge _ rfl rfl)
      (by unfold MergesResolve; decide!)⟩

/-- C4: `decode` throws exactly when some token of its argument names neither
an added token nor a key of `vocabReversed`. -/
theorem decode_throws_iff (tk : Tokenizer) (tokens : List Tok) :
    decode tk tokens = none ↔ ∃ t ∈ tokens, ¬ Resolvable tk.cfg t := by
  unfold decode
  rw [Option.map_eq_none', collect_eq_none_iff]
  constructor
  · intro h
    obtain ⟨t, ht, hd⟩ := List.mem_map.mp h
    refine ⟨t, ht, ?_⟩
    rintro ⟨n, hn, hres⟩
    obtain ⟨h1, h2⟩ := (decodeToken_eq_none_iff tk.cfg t).mp hd n hn
    rcases hres with h | h
    · simp [h1] at h
    · simp [h2] at h
  · rintro ⟨t, ht, hnot⟩
    refine List.mem_map.mpr ⟨t, ht, ?_⟩
    cases hd : decodeToken tk.cfg t with
    | none => rfl
    | some x =>
      exfalso
      apply hnot
      cases hp : t.prop with
      | none => simp [decodeToken, hp] at hd
      | some n =>
        refine ⟨n, hp, ?_⟩
        by_contra hc
        rw [not_or] at hc
        have h1 : objGet (addedTokens tk.cfg) n = none := by simpa using hc.1
        have h2 : objGet (vocabReversed tk.cfg) n = none := by simpa using hc.2
        simp [decodeToken, hp, h1, h2] at hd

/-- C5 (as stated, at a concrete input): `ab` (ID 7) is registered before `a`
(ID 3), both literals occur at offset 0 of the text `ab`, and the splitter
emits ID 3, the token registered second. -/
theorem first_registered_does_not_win :
    cfgTie.added_tokens.map (fun t => t.id) = [7, 3] ∧
    indexOf "ab".toList "ab".toList = some 0 ∧ indexOf "a".toList "ab".toList = some 0 ∧
    encodeAddedTokens cfgTie "ab".toList = some [Part.id 3, Part.text "b".toList] := by
  decide!

/-- C5 (amended): with added-token IDs below `2^32 - 1`, when the literals of
the added tokens `i` and `j` both occur at the smallest offset `p` at which any
added-token literal occurs in the remaining text, the round of the splitter
emits the ID `m` of an added token whose literal occurs at `p` and which is at
most `i` and at most `j`: the smallest ID among the tied tokens wins. -/
theorem smallest_id_wins_tie (cfg : Config) (hidx : ∀ t ∈ cfg.added_tokens, t.id < 2 ^ 32 - 1)
    (c : Char) (cs : Text) (i j p : Nat) (li lj : Text)
    (hi : objGet (addedTokens cfg) i = some li) (hj : objGet (addedTokens cfg) j = some lj)
    (hpi : indexOf li (c :: cs) = some p) (hpj : indexOf lj (c :: cs) = some p)
    (hmin : ∀ k l q, objGet (addedTokens cfg) k = some l → indexOf l (c :: cs) = some q → p ≤ q) :
    ∃ m lm, objGet (addedTokens cfg) m = some lm ∧ indexOf lm (c :: cs) = some p ∧
      m ≤ i ∧ m ≤ j ∧ nearest (addedTokens cfg) (c :: cs) = (p, some m) ∧
      ∀ fuel, encodeAddedTokensLoop (addedTokens cfg) (fuel + 1) (c :: cs) =
        (encodeAddedTokensLoop (addedTokens cfg) fuel ((c :: cs).drop (p + lm.length))).map
          fun rest => (if p ≠ 0 then [Part.text ((c :: cs).take p)] else []) ++ Part.id m :: rest := by
  obtain ⟨h1, h2, _, h4⟩ := nearest_spec (addedTokens cfg) (c :: cs)
  have hnd := addedTokens_nodup cfg
  have hle : (nearest (addedTokens cfg) (c :: cs)).1 ≤ p := h2 (i, li) (objGet_mem hi) p hpi
  have hplt : p < (c :: cs).length := by
    have := indexOf_some_le li (c :: cs) p hpi
    by_cases hli : li = []
    · subst hli
      simp [indexOf] at hpi
      subst hpi
      simp
    · have := List.length_pos.mpr hli
      omega
  obtain ⟨pre, e, post, htoks, i1, i2, i3⟩ := h4 (lt_of_le_of_lt hle hplt)
  have hmem : e ∈ addedTokens cfg := by rw [htoks]; simp
  have hget : objGet (addedTokens cfg) e.1 = some e.2 := objGet_of_mem_nodup hnd hmem
  have hpe : (nearest (addedTokens cfg) (c :: cs)).1 = p :=
    le_antisymm hle (hmin e.1 e.2 _ hget i2)
  have hsorted := (addedTokens_ascKeys cfg hidx).1
  rw [htoks] at hsorted
  simp only [List.map_append, List.map_cons, List.pairwise_append, List.pairwise_cons,
    List.mem_cons, forall_eq_or_imp] at hsorted
  have hbelow : ∀ k l, objGet (addedTokens cfg) k = some l → indexOf l (c :: cs) = some p →
      e.1 ≤ k := by
    intro k l hk hl
    have hkm : (k, l) ∈ addedTokens cfg := objGet_mem hk
    rw [htoks] at hkm
    rcases List.mem_append.mp hkm with h | h
    · exact absurd (hpe ▸ hl) (i3 (k, l) h)
    · rcases List.mem_cons.mp h with h | h
      · rw [← h]
      · exact le_of_lt (hsorted.2.1.1 k (List.mem_map.mpr ⟨(k, l), h, rfl⟩))
  refine ⟨e.1, e.2, hget, hpe ▸ i2, hbelow i li hi hpi, hbelow j lj hj hpj, ?_, ?_⟩
  · rw [← hpe, ← i1]
  · intro fuel
    have hne : ¬ p = (c :: cs).length := by omega
    simp only [encodeAddedTokensLoop, hpe, hne, if_false, i1, hget]

/-- C5 (amended) at the configuration `cfgTie` and the text `ab`: the literals
of the tokens 7 and 3 both occur at offset 0, and the ID emitted is at most 3. -/
theorem smallest_id_wins_tie_witness :
    (objGet (addedTokens cfgTie) 7 = some "ab".toList ∧
      objGet (addedTokens cfgTie) 3 = some "a".toList ∧
      indexOf "ab".toList "ab".toList = some 0 ∧ indexOf "a".toList "ab".toList = some 0) ∧
    ∃ m lm, objGet (addedTokens cfgTie) m = some lm ∧ indexOf lm "ab".toList = some 0 ∧
      m ≤ 7 ∧ m ≤ 3 ∧ nearest (addedTokens cfgTie) "ab".toList = (0, some m) ∧
      ∀ fuel, encodeAddedTokensLoop (addedTokens cfgTie) (fuel + 1) "ab".toList =
        (encodeAddedTokensLoop (addedTokens cfgTie) fuel ("ab".toList.drop (0 + lm.length))).map
          fun rest => (if 0 ≠ 0 then [Part.text ("ab".toList.take 0)] else []) ++ Part.id m :: rest :=
  ⟨by decide!,
    smallest_id_wins_tie cfgTie (by decide) 'a' ['b'] 7 3 0 "ab".toList "a".toList (by decide!)
      (by decide!) (by decide!) (by decide!) (fun _ _ q _ _ => Nat.zero_le q)⟩

/-- C6 (as stated, at a concrete input): on the text space `<>` the splitter
emits the added-token ID 300, and the result of `encode` is `[301]`: the
U+0120 loop has merged the ID with the space token before it. -/
theorem added_token_absorbed :
    encodeAddedTokens cfgAbsorb " <>".toList = some [Part.text " ".toList, Part.id 300] ∧
    ∃ tk, load cfgAbsorb = some tk ∧ encode tk " <>".toList = some [Tok.num 301] := by
  have hload : load cfgAbsorb = some ⟨cfgAbsorb, []⟩ := by
    unfold load
    rw [show processedMerges cfgAbsorb = some [] from by decide!]
    rfl
  exact ⟨by decide!, ⟨cfgAbsorb, []⟩, hload, by decide!⟩

/-- C6 (amended): an added-token ID `n` emitted by the splitter that is not 209
and has no truthy entry in `u0120Merges` appears in the result of `encode` at
its place: the result is the corrected tokens of the parts before it, then `n`,
then the corrected tokens of the parts after it. -/
theorem added_token_kept (tk : Tokenizer) (s : Text) (before after : List Part) (n : Nat)
    (out : List Tok)
    (hparts : encodeAddedTokens tk.cfg (tk.cfg.unicode.normalize s)
      = some (before ++ Part.id n :: after))
    (h209 : n ≠ 209) (hfree : (u0120Lookup tk.cfg (Tok.num n)).truthy = false)
    (hout : encode tk s = some out) :
    ∃ pre post, encodeParts tk before = some pre ∧ encodeParts tk after = some post ∧
      out = u0120Pass tk.cfg pre ++ Tok.num n :: u0120Pass tk.cfg post := by
  unfold encode at hout
  simp only [hparts, Option.some_bind] at hout
  unfold encodeParts at hout ⊢
  rw [List.map_append, List.map_cons, collect_append] at hout
  cases h1 : collect (before.map (partTokens tk)) with
  | none => simp [h1] at hout
  | some pre =>
    cases h2 : collect (after.map (partTokens tk)) with
    | none => simp [h1, collect, partTokens, h2] at hout
    | some post =>
      simp only [h1, collect, partTokens, h2, Option.some_bind, Option.map_some',
        Option.some.injEq] at hout
      refine ⟨pre, post, rfl, rfl, ?_⟩
      rw [← hout]
      simpa using u0120Pass_inert tk.cfg (Tok.num n) (by simpa [Tok.looseEq] using h209) hfree
        pre post

/-- C6 (amended) at the configuration `cfgTie` and the text `ab`, whose parts
are the added-token ID 3 and the text `b`: the result is 3 followed by the
token of `b`. -/
theorem added_token_kept_witness :
    (encodeAddedTokens cfgTie "ab".toList = some ([] ++ Part.id 3 :: [Part.text "b".toList]) ∧
      (u0120Lookup cfgTie (Tok.num 3)).truthy = false ∧
      encode ⟨cfgTie, []⟩ "ab".toList = some [Tok.num 3, Tok.num 65]) ∧
    ∃ pre post, encodeParts ⟨cfgTie, []⟩ [] = some pre ∧
      encodeParts ⟨cfgTie, []⟩ [Part.text "b".toList] = some post ∧
      [Tok.num 3, Tok.num 65] = u0120Pass cfgTie pre ++ Tok.num 3 :: u0120Pass cfgTie post :=
  ⟨by decide!,
    added_token_kept ⟨cfgTie, []⟩ "ab".toList [] [Part.text "b".toList] 3 [Tok.num 3, Tok.num 65]
      (by decide!) (by decide) (by decide!) (by decide!)⟩

/-- C7: the fragments returned by `splitWords`, concatenated in order, are the
input text, and no fragment is empty. -/
theorem splitWords_covers (u : Unicode) (s : Text) :
    (splitWords u s).flatten = s ∧ ∀ w ∈ splitWords u s, w ≠ [] :=
  splitWordsGo_spec u s.length s (Nat.le_refl _)

/-- C8: `encode("")` returns the empty list and `decode([])` the empty string. -/
theorem encode_empty_decode_empty (tk : Tokenizer) :
    encode tk [] = some [] ∧ decode tk [] = some [] := by
  have hn : tk.cfg.unicode.normalize [] = [] := tk.cfg.unicode.normalize_ascii [] (by simp)
  constructor
  · simp [encode, hn, encodeAddedTokens, encodeAddedTokensLoop, encodeParts, collect, u0120Pass]
  · simp [decode, collect, utf8Decode, utf8Go]

/-- C9: for a key `id` of `vocabReversed`, the string stored there is a key of
`vocab` whose value is loosely equal to `id`. -/
theorem vocab_of_vocabReversed (cfg : Config) (id : Nat) (content : Text)
    (h : objGet (vocabReversed cfg) id = some content) :
    ∃ v, objGet (vocab cfg) content = some v ∧ v.looseEq id = true ∧ v.prop = some id := by
  rcases reverse_foldl_some (vocab cfg) [] id content h with h1 | ⟨v, hv, hp⟩
  · simp [objGet] at h1
  · refine ⟨v, objGet_of_mem_nodup (vocab_nodup cfg) hv, ?_, hp⟩
    cases v with
    | num m => simp only [Tok.prop, Option.some.injEq] at hp; simp [Tok.looseEq, hp]
    | key m => simp only [Tok.prop, Option.some.injEq] at hp; simp [Tok.looseEq, hp]
    | undef => simp [Tok.prop] at hp

/-- C9 at a vocabulary in which the strings `a` and `b` share the ID 5. -/
theorem vocab_of_vocabReversed_witness :
    objGet (vocabReversed cfgShared) 5 = some "b".toList ∧
    ∃ v, objGet (vocab cfgShared) "b".toList = some v ∧ v.looseEq 5 = true ∧ v.prop = some 5 :=
  ⟨by decide!, vocab_of_vocabReversed cfgShared 5 "b".toList (by decide!)⟩

/-- C10 (as stated, at a concrete input): the rule `a b` has a space, the
vocabulary has no entry `b` and no entry `ab`, and building the merge table
does not fail: it yields a triple holding `undefined` twice. -/
theorem merge_table_built_with_missing_entries :
    objGet (vocab cfgLoose) "b".toList = none ∧ objGet (vocab cfgLoose) "ab".toList = none ∧
    processedMerges cfgLoose = some [⟨Tok.num 1, Tok.undef, Tok.undef⟩] ∧
    (load cfgLoose).isSome := by
  decide!

/-- C10 (amended): building the merge table fails exactly when some rule has
no space; otherwise it yields, in input order, one triple per rule holding the
three lookups (part before the first space, part after it, their
concatenation), each `undefined` when the vocabulary has no such entry. -/
theorem merge_table_fails_iff_no_space (cfg : Config) :
    processedMerges cfg =
      (if ∀ m ∈ cfg.merges, ' ' ∈ m then some (cfg.merges.map (mergeTriple (vocab cfg)))
        else none) ∧
    ((load cfg).isSome ↔ ∀ m ∈ cfg.merges, ' ' ∈ m) := by
  have h := processedMergesOf_eq (vocab cfg) cfg.merges
  refine ⟨h, ?_⟩
  unfold load processedMerges
  rw [h]
  by_cases hall : ∀ m ∈ cfg.merges, ' ' ∈ m
  · simp [hall]
  · rw [if_neg hall]
    simp only [Option.map_none', Option.isSome_none, Bool.false_eq_true, false_iff]
    exact hall


/-! ## One rule's pass -/

theorem mergeGo_head (m : MergeObj) (cur : Tok) (l : List Tok) :
    ∃ t, mergeGo m cur l = cur :: t ∨ mergeGo m cur l = m.tokenMerged :: t := by
  induction l generalizing cur with
  | nil => exact ⟨[], Or.inl rfl⟩
  | cons y rest ih =>
    unfold mergeGo
    split
    · obtain ⟨t, ht⟩ := ih m.tokenMerged
      exact ⟨t, Or.inr (ht.elim id id)⟩
    · exact ⟨_, Or.inl rfl⟩

theorem mergeGo_chain_own (m : MergeObj) (hne : m.tokenMerged ≠ m.tokenB) (cur : Tok)
    (l : List Tok) :
    List.Chain' (fun x y => ¬ (x = m.tokenA ∧ y = m.tokenB)) (mergeGo m cur l) := by
  induction l generalizing cur with
  | nil => exact List.chain'_singleton _
  | cons y rest ih =>
    unfold mergeGo
    split
    · exact ih _
    · rename_i hno
      obtain ⟨t, ht | ht⟩ := mergeGo_head m y rest
      · have h := ih y
        rw [ht] at h ⊢
        exact List.Chain'.cons hno h
      · have h := ih y
        rw [ht] at h ⊢
        exact List.Chain'.cons (fun hc => hne hc.2) h

theorem mergeGo_chain_other (a b : Tok) (m : MergeObj) (ha : m.tokenMerged ≠ a)
    (hb : m.tokenMerged ≠ b) (cur : Tok) (l : List Tok)
    (h : List.Chain' (fun x y => ¬ (x = a ∧ y = b)) (cur :: l)) :
    List.Chain' (fun x y => ¬ (x = a ∧ y = b)) (mergeGo m cur l) := by
  induction l generalizing cur with
  | nil => exact List.chain'_singleton _
  | cons y rest ih =>
    rw [List.chain'_cons] at h
    unfold mergeGo
    split
    · apply ih
      cases rest with
      | nil => exact List.chain'_singleton _
      | cons z rest' =>
        rw [List.chain'_cons] at h ⊢
        exact ⟨fun hc => ha hc.1, h.2.2⟩
    · obtain ⟨t, ht | ht⟩ := mergeGo_head m y rest
      · have h' := ih y h.2
        rw [ht] at h' ⊢
        exact List.Chain'.cons h.1 h'
      · have h' := ih y h.2
        rw [ht] at h' ⊢
        exact List.Chain'.cons (fun hc => hb hc.2) h'

theorem mergePass_chain_other (a b : Tok) (m : MergeObj) (ha : m.tokenMerged ≠ a)
    (hb : m.tokenMerged ≠ b) (l : List Tok)
    (h : List.Chain' (fun x y => ¬ (x = a ∧ y = b)) l) :
    List.Chain' (fun x y => ¬ (x = a ∧ y = b)) (mergePass m l) := by
  cases l with
  | nil => exact List.chain'_nil
  | cons x xs => exact mergeGo_chain_other a b m ha hb x xs h

theorem mergePass_chain_own (m : MergeObj) (hne : m.tokenMerged ≠ m.tokenB) (l : List Tok) :
    List.Chain' (fun x y => ¬ (x = m.tokenA ∧ y = m.tokenB)) (mergePass m l) := by
  cases l with
  | nil => exact List.chain'_nil
  | cons x xs => exact mergeGo_chain_own m hne x xs

theorem mergeEngine_chain_other (a b : Tok) (ms : List MergeObj)
    (hms : ∀ m ∈ ms, m.tokenMerged ≠ a ∧ m.tokenMerged ≠ b) (l : List Tok)
    (h : List.Chain' (fun x y => ¬ (x = a ∧ y = b)) l) :
    List.Chain' (fun x y => ¬ (x = a ∧ y = b)) (mergeEngine ms l) := by
  induction ms generalizing l with
  | nil => exact h
  | cons m ms ih =>
    have hm := hms m (List.mem_cons_self _ _)
    exact ih (fun m' hm' => hms m' (List.mem_cons_of_mem _ hm')) _
      (mergePass_chain_other a b m hm.1 hm.2 l h)

theorem no_pair_of_chain (a b : Tok) (l : List Tok)
    (h : List.Chain' (fun x y => ¬ (x = a ∧ y = b)) l) : ¬ [a, b] <:+: l := by
  intro hin
  have h2 := h.infix hin
  rw [List.chain'_cons] at h2
  exact h2.1 ⟨rfl, rfl⟩

theorem mergeGo_length (m : MergeObj) (cur : Tok) (l : List Tok) :
    (mergeGo m cur l).length + mergeGoCount m cur l = l.length + 1 := by
  induction l generalizing cur with
  | nil => rfl
  | cons y rest ih =>
    unfold mergeGo mergeGoCount
    split
    · have := ih m.tokenMerged
      simp only [List.length_cons]
      omega
    · have := ih y
      simp only [List.length_cons]
      omega

theorem mergeEngine_append (ms₁ ms₂ : List MergeObj) (l : List Tok) :
    mergeEngine (ms₁ ++ ms₂) l = mergeEngine ms₂ (mergeEngine ms₁ l) := by
  unfold mergeEngine
  rw [List.foldl_append]

theorem wordTokens_engine (tk : Tokenizer) (word : Text) :
    wordTokens tk word =
      ((addedTokensTokensMap tk.cfg).foldl
        (fun acc e => acc.bind fun t => replaceSubsequence (t.length + 1) t e.2 [Tok.key e.1])
        (some ((utf8Encode word).map (byteToUnicodeVocab tk.cfg)))).map
        (mergeEngine tk.processedMerges) := rfl

/-! ## The claims on the merge engine -/

/-- C20: for every token sequence and every rule whose `tokenMerged` differs
from `tokenB`, the sequence left by the rule's pass has no two adjacent tokens
equal to `(tokenA, tokenB)`, and its length is the original length minus the
number of replacements the pass made. -/
theorem mergePass_no_pair_and_length (m : MergeObj) (l : List Tok)
    (hne : m.tokenMerged ≠ m.tokenB) :
    ¬ [m.tokenA, m.tokenB] <:+: mergePass m l ∧
    (mergePass m l).length + mergePassCount m l = l.length := by
  refine ⟨no_pair_of_chain _ _ _ (mergePass_chain_own m hne l), ?_⟩
  cases l with
  | nil => rfl
  | cons x xs => exact mergeGo_length m x xs

/-- C20, at a concrete input: the rule `(1, 1) ↦ 2` on `[1, 1, 1, 1, 3]`
makes two replacements and leaves `[2, 2, 3]`. -/
theorem mergePass_no_pair_and_length_witness :
    mergePass ⟨Tok.num 1, Tok.num 1, Tok.num 2⟩ [Tok.num 1, Tok.num 1, Tok.num 1, Tok.num 1, Tok.num 3]
      = [Tok.num 2, Tok.num 2, Tok.num 3] ∧
    mergePassCount ⟨Tok.num 1, Tok.num 1, Tok.num 2⟩
      [Tok.num 1, Tok.num 1, Tok.num 1, Tok.num 1, Tok.num 3] = 2 ∧
    ¬ [Tok.num 1, Tok.num 1] <:+: mergePass ⟨Tok.num 1, Tok.num 1, Tok.num 2⟩
      [Tok.num 1, Tok.num 1, Tok.num 1, Tok.num 1, Tok.num 3] ∧
    (mergePass ⟨Tok.num 1, Tok.num 1, Tok.num 2⟩
      [Tok.num 1, Tok.num 1, Tok.num 1, Tok.num 1, Tok.num 3]).length +
      mergePassCount ⟨Tok.num 1, Tok.num 1, Tok.num 2⟩
        [Tok.num 1, Tok.num 1, Tok.num 1, Tok.num 1, Tok.num 3] = 5 :=
  ⟨by decide, by decide,
    mergePass_no_pair_and_length ⟨Tok.num 1, Tok.num 1, Tok.num 2⟩
      [Tok.num 1, Tok.num 1, Tok.num 1, Tok.num 1, Tok.num 3] (by decide)⟩

/-- C13 (counterexample): `cfgOrder` loads with the table `orderTable`, whose
first rule is `(1, 4) ↦ 5`; for the word `abc` the engine returns `[1, 4]`,
two adjacent tokens equal to the left and right ID of that rule. -/
theorem merge_engine_leaves_applicable_rule :
    load cfgOrder = some ⟨cfgOrder, orderTable⟩ ∧
    wordTokens ⟨cfgOrder, orderTable⟩ "abc".toList = some [Tok.num 1, Tok.num 4] ∧
    mergeEngine orderTable [Tok.num 1, Tok.num 2, Tok.num 3] = [Tok.num 1, Tok.num 4] ∧
    [Tok.num 1, Tok.num 4] <:+: mergeEngine orderTable [Tok.num 1, Tok.num 2, Tok.num 3] ∧
    (⟨Tok.num 1, Tok.num 4, Tok.num 5⟩ : MergeObj) ∈ orderTable := by
  have hpm : processedMerges cfgOrder = some orderTable := by decide!
  refine ⟨?_, by decide!, by decide, ⟨[], [], by decide⟩, by decide⟩
  unfold load
  rw [hpm]
  rfl

/-- C13 (amended): the output of the merge engine has no two adjacent tokens
equal to `(tokenA, tokenB)` of a rule of the table whose `tokenMerged` differs
from its `tokenB`, provided no later rule of the table produces `tokenA` or
`tokenB` of that rule. -/
theorem merge_engine_no_pair_of_settled_rule (ms₁ ms₂ : List MergeObj) (m : MergeObj)
    (l : List Tok) (hne : m.tokenMerged ≠ m.tokenB)
    (hlater : ∀ r ∈ ms₂, r.tokenMerged ≠ m.tokenA ∧ r.tokenMerged ≠ m.tokenB) :
    ¬ [m.tokenA, m.tokenB] <:+: mergeEngine (ms₁ ++ m :: ms₂) l := by
  rw [mergeEngine_append]
  exact no_pair_of_chain _ _ _
    (mergeEngine_chain_other _ _ ms₂ hlater _ (mergePass_chain_own m hne _))

/-- C13 (amended), at a concrete input: with the rule `(2, 3) ↦ 4` listed
before the rule `(1, 4) ↦ 5`, which produces neither 2 nor 3, the output
`[5]` for `[1, 2, 3]` has no pair `(2, 3)`. -/
theorem merge_engine_no_pair_of_settled_rule_witness :
    mergeEngine ([] ++ ⟨Tok.num 2, Tok.num 3, Tok.num 4⟩ :: [⟨Tok.num 1, Tok.num 4, Tok.num 5⟩])
      [Tok.num 1, Tok.num 2, Tok.num 3] = [Tok.num 5] ∧
    ¬ [Tok.num 2, Tok.num 3] <:+:
      mergeEngine ([] ++ ⟨Tok.num 2, Tok.num 3, Tok.num 4⟩ :: [⟨Tok.num 1, Tok.num 4, Tok.num 5⟩])
        [Tok.num 1, Tok.num 2, Tok.num 3] :=
  ⟨by decide, merge_engine_no_pair_of_settled_rule [] [⟨Tok.num 1, Tok.num 4, Tok.num 5⟩]
    ⟨Tok.num 2, Tok.num 3, Tok.num 4⟩ [Tok.num 1, Tok.num 2, Tok.num 3] (by decide)
    (by decide)⟩

/-- C14: the rule-major engine and the standard strategy differ: with the
table `orderTable` and the sequence `[1, 2, 3]` the engine returns `[1, 4]`,
while the standard strategy merges `(2, 3)`, then `(1, 4)`, and stops at `[5]`,
to which no rule applies. -/
theorem merge_engine_differs_from_best_pair :
    mergeEngine orderTable [Tok.num 1, Tok.num 2, Tok.num 3] = [Tok.num 1, Tok.num 4] ∧
    standardBestPairMerge orderTable 3 [Tok.num 1, Tok.num 2, Tok.num 3] = [Tok.num 5] ∧
    bestPairStep orderTable [Tok.num 5] = none ∧
    ∃ ms l, mergeEngine ms l ≠ standardBestPairMerge ms l.length l := by
  refine ⟨by decide, by decide, by decide, orderTable, [Tok.num 1, Tok.num 2, Tok.num 3], ?_⟩
  decide

/-! ## The U+0120 loop on a pair -/

theorem u0120Go_skip (cfg : Config) (cur : Tok) (h : cur.looseEq 209 = false) (l : List Tok) :
    u0120Go cfg cur l = cur :: u0120Pass cfg l := by
  cases l with
  | nil => rfl
  | cons y rest =>
    unfold u0120Go
    rw [if_neg (by simp [h])]
    rfl

theorem u0120Go_merge (cfg : Config) (cur y : Tok) (rest : List Tok)
    (h1 : cur.looseEq 209 = true) (h2 : (u0120Lookup cfg y).truthy = true) :
    u0120Go cfg cur (y :: rest) = u0120Go cfg (u0120Lookup cfg y) rest := by
  have h : u0120Go cfg cur (y :: rest) =
      if cur.looseEq 209 ∧ (u0120Lookup cfg y).truthy then u0120Go cfg (u0120Lookup cfg y) rest
      else cur :: u0120Go cfg y rest := rfl
  rw [h, if_pos ⟨h1, h2⟩]

theorem u0120Pass_keeps_head (cfg : Config) (p : List Tok) (hp : ∀ x ∈ p, x.looseEq 209 = false)
    (l : List Tok) : u0120Pass cfg (p ++ l) = p ++ u0120Pass cfg l := by
  induction p with
  | nil => rfl
  | cons x p ih =>
    have hx := hp x (List.mem_cons_self _ _)
    have ih' := ih fun y hy => hp y (List.mem_cons_of_mem _ hy)
    rw [List.cons_append, List.cons_append, ← ih']
    exact u0120Go_skip cfg x hx _

theorem u0120_value_truthy (cfg : Config) {n : Nat} {c : Tok}
    (hc : objGet (u0120Merges cfg) n = some c) (h0 : c ≠ Tok.num 0) : c.truthy = true := by
  obtain ⟨k, hk⟩ := u0120Merges_get cfg hc
  obtain ⟨m, hm⟩ := vocab_prop cfg hk
  cases c with
  | num j =>
    have : j ≠ 0 := fun hj => h0 (by rw [hj])
    simp [Tok.truthy, this]
  | key j => rfl
  | undef => simp [Tok.prop] at hm

/-- C15 (counterexample): in `cfgZero` the token 64 has the entry 0 and the
pair `(209, 64)` is left as it is; in `cfgChain` the token 64 has the entry
209, and the pass on `[209, 64, 65]` goes on to merge that 209 with 65, so
that the result `[300]` does not begin with `[209]`. -/
theorem u0120_pair_not_collapsed :
    (objGet (u0120Merges cfgZero) 64 = some (Tok.num 0) ∧
      u0120Pass cfgZero [Tok.num 209, Tok.num 64] = [Tok.num 209, Tok.num 64]) ∧
    (objGet (u0120Merges cfgChain) 64 = some (Tok.num 209) ∧
      u0120Pass cfgChain [Tok.num 209, Tok.num 64, Tok.num 65] = [Tok.num 300]) := by
  refine ⟨⟨by decide!, by decide!⟩, by decide!, by decide!⟩

/-- C15 (amended): for every token `t` with a correction-table entry `c` other
than the number 0, every prefix `p` without an element equal to 209 and every
suffix `s`, the pass on `p ++ [209, t] ++ s` replaces the pair by `c` and goes
on from `c`: the result is `p` followed by the loop's result from `c` on `s`;
when `c` is not equal to 209 this is `p ++ [c]` followed by the pass on `s`. -/
theorem u0120_pair_collapsed (cfg : Config) (p s : List Tok) (t c : Tok) (n : Nat)
    (hp : ∀ x ∈ p, x.looseEq 209 = false) (ht : t.prop = some n)
    (hc : objGet (u0120Merges cfg) n = some c) (h0 : c ≠ Tok.num 0) :
    u0120Pass cfg (p ++ Tok.num 209 :: t :: s) = p ++ u0120Go cfg c s ∧
    (c.looseEq 209 = false →
      u0120Pass cfg (p ++ Tok.num 209 :: t :: s) = p ++ c :: u0120Pass cfg s) := by
  have hl : u0120Lookup cfg t = c := by
    unfold u0120Lookup
    rw [ht]
    simp [hc]
  have htr := u0120_value_truthy cfg hc h0
  have h1 : u0120Pass cfg (p ++ Tok.num 209 :: t :: s) = p ++ u0120Go cfg c s := by
    rw [u0120Pass_keeps_head cfg p hp]
    show p ++ u0120Go cfg (Tok.num 209) (t :: s) = _
    rw [u0120Go_merge cfg (Tok.num 209) t s (by decide) (by rw [hl]; exact htr), hl]
  refine ⟨h1, fun h209 => ?_⟩
  rw [h1, u0120Go_skip cfg c h209]

/-- C15 (amended), at a concrete input: in `cfgAbsorb` the token 300 has the
entry 301, and the pass turns `[64, 209, 300, 65]` into `[64, 301, 65]`. -/
theorem u0120_pair_collapsed_witness :
    objGet (u0120Merges cfgAbsorb) 300 = some (Tok.num 301) ∧
    u0120Pass cfgAbsorb ([Tok.num 64] ++ Tok.num 209 :: Tok.num 300 :: [Tok.num 65])
      = [Tok.num 64] ++ Tok.num 301 :: u0120Pass cfgAbsorb [Tok.num 65] :=
  ⟨by decide!,
    (u0120_pair_collapsed cfgAbsorb [Tok.num 64] [Tok.num 65] (Tok.num 300) (Tok.num 301) 300
      (by decide) rfl (by decide!) (by decide)).2 (by decide)⟩

/-! ## `replaceSubsequence` and the greedy replacement -/

theorem matchFound_eq_isPrefixOf (a : List Tok) (hu : Tok.undef ∉ a) (l : List Tok) :
    matchFound l a = a.isPrefixOf l := by
  induction a generalizing l with
  | nil => cases l <;> rfl
  | cons y a ih =>
    have hy : Tok.undef ≠ y := fun h => hu (h ▸ List.mem_cons_self _ _)
    have ha : Tok.undef ∉ a := fun h => hu (List.mem_cons_of_mem _ h)
    cases l with
    | nil => simp [matchFound, hy, List.isPrefixOf]
    | cons x l =>
      simp only [matchFound, List.isPrefixOf, ih ha l]
      by_cases hxy : x = y
      · simp [hxy]
      · have : ¬ y = x := fun h => hxy h.symm
        simp [hxy, this]

theorem greedyReplaceGo_fuel (a : List Tok) (x : Tok) (f₁ f₂ : Nat) (l : List Tok)
    (h₁ : l.length ≤ f₁) (h₂ : l.length ≤ f₂) :
    greedyReplaceGo a x f₁ l = greedyReplaceGo a x f₂ l := by
  induction f₁ generalizing f₂ l with
  | zero =>
    cases l with
    | nil => cases f₂ <;> rfl
    | cons y l => simp at h₁
  | succ f₁ ih =>
    cases l with
    | nil => cases f₂ <;> rfl
    | cons y l =>
      cases f₂ with
      | zero => simp at h₂
      | succ f₂ =>
        simp only [List.length_cons, Nat.add_le_add_iff_right] at h₁ h₂
        simp only [greedyReplaceGo]
        have hd : (l.drop (a.length - 1)).length ≤ l.length := by
          rw [List.length_drop]; omega
        rw [ih f₂ l h₁ h₂, ih f₂ (l.drop (a.length - 1)) (by omega) (by omega)]

theorem replaceSubsequenceGo_eq_greedy (a : List Tok) (x : Tok) (ha : a ≠ [])
    (hu : Tok.undef ∉ a) (fuel : Nat) (l : List Tok) (h : l.length ≤ fuel) :
    replaceSubsequenceGo a [x] fuel l = some (greedyReplaceGo a x fuel l) := by
  induction fuel generalizing l with
  | zero =>
    cases l with
    | nil => rfl
    | cons y l => simp at h
  | succ fuel ih =>
    cases l with
    | nil => rfl
    | cons y l =>
      simp only [List.length_cons, Nat.add_le_add_iff_right] at h
      obtain ⟨a0, a', rfl⟩ := List.exists_cons_of_ne_nil ha
      simp only [replaceSubsequenceGo, greedyReplaceGo, matchFound_eq_isPrefixOf _ hu,
        List.headD_cons]
      by_cases hy : y = a0
      · subst hy
        simp only [ne_eq, not_true_eq_false, if_false]
        by_cases hm : (y :: a').isPrefixOf (y :: l) = true
        · simp only [hm, if_true, List.singleton_append, List.length_cons, List.drop_succ_cons,
            Nat.add_sub_cancel]
          rw [ih _ (by rw [List.length_drop]; omega)]
          rfl
        · simp only [hm, Bool.false_eq_true, if_false]
          rw [ih l h]
          rfl
      · have hm : (a0 :: a').isPrefixOf (y :: l) = false := by
          have hy' : ¬ a0 = y := fun h => hy h.symm
          simp [List.isPrefixOf, hy']
        simp only [ne_eq, hy, not_false_eq_true, if_true, hm, Bool.false_eq_true, if_false]
        rw [ih l h]
        rfl

theorem greedy_prefix_transfer (a : List Tok) (x : Tok) (fuel : Nat) (l : List Tok)
    (h : l.length ≤ fuel) (b : List Tok) (hx : x ∉ b)
    (hb : b <+: greedyReplaceGo a x fuel l) : b <+: l := by
  induction b generalizing fuel l with
  | nil => exact List.nil_prefix
  | cons z b ih =>
    have hz : x ≠ z := fun h => hx (h ▸ List.mem_cons_self _ _)
    have hxb : x ∉ b := fun h => hx (List.mem_cons_of_mem _ h)
    cases l with
    | nil =>
      cases fuel <;> simp [greedyReplaceGo] at hb
    | cons y l =>
      cases fuel with
      | zero => simp at h
      | succ fuel =>
        simp only [List.length_cons, Nat.add_le_add_iff_right] at h
        simp only [greedyReplaceGo] at hb
        split at hb
        · rw [List.cons_prefix_cons] at hb
          exact absurd hb.1.symm hz
        · rw [List.cons_prefix_cons] at hb ⊢
          exact ⟨hb.1, ih fuel l h hxb hb.2⟩

theorem greedy_no_occurrence (a : List Tok) (x : Tok) (ha : a ≠ []) (hx : x ∉ a) (fuel : Nat)
    (l : List Tok) (h : l.length ≤ fuel) : ¬ a <:+: greedyReplaceGo a x fuel l := by
  obtain ⟨a0, a', rfl⟩ := List.exists_cons_of_ne_nil ha
  have hx0 : x ≠ a0 := fun h => hx (h ▸ List.mem_cons_self _ _)
  have hxa : x ∉ a' := fun h => hx (List.mem_cons_of_mem _ h)
  induction fuel generalizing l with
  | zero =>
    cases l with
    | nil => simp [greedyReplaceGo]
    | cons y l => simp at h
  | succ fuel ih =>
    cases l with
    | nil => simp [greedyReplaceGo]
    | cons y l =>
      simp only [List.length_cons, Nat.add_le_add_iff_right] at h
      simp only [greedyReplaceGo]
      split
      · intro hin
        rw [List.infix_cons_iff] at hin
        rcases hin with hp | hin
        · rw [List.cons_prefix_cons] at hp
          exact hx0 hp.1.symm
        · exact ih _ (by rw [List.length_drop]; omega) hin
      · rename_i hno
        intro hin
        rw [List.infix_cons_iff] at hin
        rcases hin with hp | hin
        · rw [List.cons_prefix_cons] at hp
          have h2 := greedy_prefix_transfer (a0 :: a') x fuel l h a' hxa hp.2
          apply hno
          rw [List.isPrefixOf_iff_prefix, List.cons_prefix_cons]
          exact ⟨hp.1, h2⟩
        · exact ih l h hin

/-- C16 (counterexample): the pattern `[5, undefined]` does not occur in the
list `[5]`, which greedy replacement leaves as it is, but the call matches the
read past the end of the list and leaves `[9]`.  The encoder makes such a
call: in `cfgGap` the byte `?` has no vocabulary entry, the added token `a?`
has the pattern `[64, undefined]`, and the word `a` becomes the ID of that
added token. -/
theorem replaceSubsequence_matches_past_end :
    replaceSubsequence 2 [Tok.num 5] [Tok.num 5, Tok.undef] [Tok.num 9] = some [Tok.num 9] ∧
    greedyReplace [Tok.num 5, Tok.undef] (Tok.num 9) [Tok.num 5] = [Tok.num 5] ∧
    ¬ [Tok.num 5, Tok.undef] <:+: [Tok.num 5] ∧
    addedTokensTokensMap cfgGap = [(300, [Tok.num 64, Tok.undef])] ∧
    wordTokens ⟨cfgGap, []⟩ "a".toList = some [Tok.key 300] := by
  refine ⟨by decide, by decide, ?_, by decide!, by decide!⟩
  intro h
  have := h.length_le
  simp at this

/-- C16 (amended): for every list `lst`, every non-empty pattern `a` that
holds no `undefined` and every replacement `[x]`, the call
`replaceSubsequence(lst, a, [x])` ends and leaves the greedy left-to-right
replacement of the non-overlapping occurrences of `a` in `lst` by `x`; when
`x` does not occur in `a`, the list it leaves has no contiguous occurrence of
`a`. -/
theorem replaceSubsequence_greedy (lst a : List Tok) (x : Tok) (fuel : Nat) (ha : a ≠ [])
    (hu : Tok.undef ∉ a) (hf : lst.length ≤ fuel) :
    replaceSubsequence fuel lst a [x] = some (greedyReplace a x lst) ∧
    (x ∉ a → ¬ a <:+: greedyReplace a x lst) := by
  constructor
  · unfold replaceSubsequence greedyReplace
    rw [replaceSubsequenceGo_eq_greedy a x ha hu fuel lst hf,
      greedyReplaceGo_fuel a x fuel lst.length lst hf (Nat.le_refl _)]
  · intro hx
    exact greedy_no_occurrence a x ha hx lst.length lst (Nat.le_refl _)

/-- C16 (amended), at a concrete input: the pattern `[1, 1]` in `[1, 1, 1, 2]`
is replaced once, at the left, and the call leaves `[9, 1, 2]`. -/
theorem replaceSubsequence_greedy_witness :
    greedyReplace [Tok.num 1, Tok.num 1] (Tok.num 9)
      [Tok.num 1, Tok.num 1, Tok.num 1, Tok.num 2] = [Tok.num 9, Tok.num 1, Tok.num 2] ∧
    replaceSubsequence 4 [Tok.num 1, Tok.num 1, Tok.num 1, Tok.num 2] [Tok.num 1, Tok.num 1]
      [Tok.num 9]
      = some (greedyReplace [Tok.num 1, Tok.num 1] (Tok.num 9)
        [Tok.num 1, Tok.num 1, Tok.num 1, Tok.num 2]) ∧
    (Tok.num 9 ∉ [Tok.num 1, Tok.num 1] →
      ¬ [Tok.num 1, Tok.num 1] <:+: greedyReplace [Tok.num 1, Tok.num 1] (Tok.num 9)
        [Tok.num 1, Tok.num 1, Tok.num 1, Tok.num 2]) :=
  ⟨by decide,
    replaceSubsequence_greedy [Tok.num 1, Tok.num 1, Tok.num 1, Tok.num 2]
      [Tok.num 1, Tok.num 1] (Tok.num 9) 4 (by decide) (by decide) (by decide)⟩

/-! ## One round of the splitter -/

theorem loop_round (toks : List (Nat × Text)) (hnd : (toks.map Prod.fst).Nodup) (fuel : Nat)
    (c : Char) (cs : Text) (parts : List Part)
    (h : encodeAddedTokensLoop toks (fuel + 1) (c :: cs) = some parts) :
    ((nearest toks (c :: cs)).1 = (c :: cs).length ∧ parts = [Part.text (c :: cs)]) ∨
    ∃ e ∈ toks, ∃ rest, (nearest toks (c :: cs)).1 < (c :: cs).length ∧
      e.2 <+: (c :: cs).drop (nearest toks (c :: cs)).1 ∧
      objGet toks e.1 = some e.2 ∧
      encodeAddedTokensLoop toks fuel ((c :: cs).drop ((nearest toks (c :: cs)).1 + e.2.length))
        = some rest ∧
      parts = (if (nearest toks (c :: cs)).1 ≠ 0
          then [Part.text ((c :: cs).take (nearest toks (c :: cs)).1)] else [])
        ++ Part.id e.1 :: rest := by
  simp only [encodeAddedTokensLoop] at h
  split at h
  · next hend =>
    left
    exact ⟨hend, (Option.some.inj h).symm⟩
  · next hend =>
    right
    obtain ⟨h1, _, _, h4⟩ := nearest_spec toks (c :: cs)
    have hlt := lt_of_le_of_ne h1 hend
    obtain ⟨pre, e, post, htoks, i1, i2, _⟩ := h4 hlt
    have hmem : e ∈ toks := by rw [htoks]; simp
    have hget : objGet toks e.1 = some e.2 := objGet_of_mem_nodup hnd hmem
    simp only [i1, hget] at h
    cases hrec : encodeAddedTokensLoop toks fuel
        (List.drop ((nearest toks (c :: cs)).1 + e.2.length) (c :: cs)) with
    | none => simp [hrec] at h
    | some rest =>
      simp only [hrec, Option.map_some', Option.some.injEq] at h
      exact ⟨e, hmem, rest, hlt, indexOf_some_occ e.2 (c :: cs) _ i2, hget, hrec, h.symm⟩

theorem split_at_occurrence (r lit : Text) (p : Nat) (h : lit <+: r.drop p) :
    r.take p ++ lit ++ r.drop (p + lit.length) = r := by
  obtain ⟨t, ht⟩ := h
  have h2 : r.drop (p + lit.length) = t := by
    rw [← List.drop_drop, ← ht, List.drop_left]
  rw [h2, List.append_assoc, ht, List.take_append_drop]

theorem loop_render (toks : List (Nat × Text)) (hnd : (toks.map Prod.fst).Nodup) (fuel : Nat)
    (r : Text) (parts : List Part) (h : encodeAddedTokensLoop toks fuel r = some parts) :
    parts.flatMap (renderPart toks) = r := by
  induction fuel generalizing r parts with
  | zero =>
    cases r with
    | nil => simp [encodeAddedTokensLoop] at h; subst h; rfl
    | cons c cs => simp [encodeAddedTokensLoop] at h
  | succ fuel ih =>
    cases r with
    | nil => simp [encodeAddedTokensLoop] at h; subst h; rfl
    | cons c cs =>
      rcases loop_round toks hnd fuel c cs parts h with ⟨_, hp⟩ | ⟨e, _, rest, _, hocc, hget, hrec, hp⟩
      · subst hp
        simp [renderPart]
      · subst hp
        have ihr := ih _ _ hrec
        have hsplit := split_at_occurrence (c :: cs) e.2 _ hocc
        rw [List.flatMap_append, List.flatMap_cons, ihr]
        have hid : renderPart toks (Part.id e.1) = e.2 := by simp [renderPart, hget]
        rw [hid]
        by_cases hz : (nearest toks (c :: cs)).1 = 0
        · rw [hz] at hsplit ⊢
          simpa using hsplit
        · rw [if_pos hz]
          simp only [List.flatMap_cons, List.flatMap_nil, List.append_nil, renderPart]
          rw [← List.append_assoc]
          exact hsplit

theorem prefix_drop_of_infix_take (l r : Text) (q p : Nat) (h : l <+: r.drop q)
    (hle : q + l.length ≤ p) : l <:+: r.take p := by
  rw [infix_iff_occ]
  refine ⟨q, ?_⟩
  rw [List.drop_take]
  obtain ⟨t, ht⟩ := h
  rw [← ht, List.take_append_eq_append_take]
  have : l.take (p - q) = l := List.take_of_length_le (by omega)
  rw [this]
  exact List.prefix_append _ _

theorem loop_overlap (toks : List (Nat × Text)) (hnd : (toks.map Prod.fst).Nodup) (fuel : Nat)
    (r : Text) (parts : List Part) (h : encodeAddedTokensLoop toks fuel r = some parts)
    (e : Nat × Text) (he : e ∈ toks) (hne : e.2 ≠ []) (q : Nat) (hq : e.2 <+: r.drop q) :
    ∃ before n lit after, parts = before ++ Part.id n :: after ∧ objGet toks n = some lit ∧
      (before.flatMap (renderPart toks)).length < q + e.2.length ∧
      q < (before.flatMap (renderPart toks)).length + lit.length := by
  have hpos : 0 < e.2.length := List.length_pos.mpr hne
  induction fuel generalizing r parts q with
  | zero =>
    cases r with
    | nil =>
      have := hq.length_le
      rw [List.drop_nil, List.length_nil] at this
      omega
    | cons c cs => simp [encodeAddedTokensLoop] at h
  | succ fuel ih =>
    cases r with
    | nil =>
      have := hq.length_le
      rw [List.drop_nil, List.length_nil] at this
      omega
    | cons c cs =>
      rcases loop_round toks hnd fuel c cs parts h with
        ⟨hend, _⟩ | ⟨e0, _, rest, _, hocc, hget, hrec, hp⟩
      · exact absurd ((infix_iff_occ _ _).mpr ⟨q, hq⟩)
          (no_occ_of_nearest_end toks (c :: cs) hend e he hne)
      · have hpre : ((if (nearest toks (c :: cs)).1 ≠ 0
            then [Part.text ((c :: cs).take (nearest toks (c :: cs)).1)] else []).flatMap
              (renderPart toks)).length = (nearest toks (c :: cs)).1 := by
          have hle := (nearest_spec toks (c :: cs)).1
          by_cases hz : (nearest toks (c :: cs)).1 = 0
          · rw [hz]; rfl
          · rw [if_pos hz]
            simp only [List.flatMap_cons, List.flatMap_nil, List.append_nil, renderPart,
              List.length_take]
            omega
        by_cases h1 : q + e.2.length ≤ (nearest toks (c :: cs)).1
        · exact absurd (prefix_drop_of_infix_take _ _ _ _ hq h1)
            (no_occ_before_nearest toks (c :: cs) e he hne)
        · by_cases h2 : q < (nearest toks (c :: cs)).1 + e0.2.length
          · refine ⟨_, e0.1, e0.2, rest, hp, hget, ?_, ?_⟩
            · rw [hpre]; omega
            · rw [hpre]; exact h2
          · have hq' : e.2 <+: ((c :: cs).drop ((nearest toks (c :: cs)).1 + e0.2.length)).drop
                (q - ((nearest toks (c :: cs)).1 + e0.2.length)) := by
              rw [List.drop_drop]
              have : (nearest toks (c :: cs)).1 + e0.2.length
                  + (q - ((nearest toks (c :: cs)).1 + e0.2.length)) = q := by omega
              rw [this]
              exact hq
            obtain ⟨before, n, lit, after, hparts, hlit, hb1, hb2⟩ := ih _ _ hrec _ hq'
            refine ⟨(if (nearest toks (c :: cs)).1 ≠ 0
                then [Part.text ((c :: cs).take (nearest toks (c :: cs)).1)] else [])
                ++ Part.id e0.1 :: before, n, lit, after, ?_, hlit, ?_, ?_⟩
            · rw [hp, hparts]
              simp
            · rw [List.flatMap_append, List.length_append, hpre, List.flatMap_cons,
                List.length_append]
              have : (renderPart toks (Part.id e0.1)).length = e0.2.length := by
                simp [renderPart, hget]
              omega
            · rw [List.flatMap_append, List.length_append, hpre, List.flatMap_cons,
                List.length_append]
              have : (renderPart toks (Part.id e0.1)).length = e0.2.length := by
                simp [renderPart, hget]
              omega

theorem addedTokens_ne_nil (cfg : Config) (hne : ∀ t ∈ cfg.added_tokens, t.content ≠ []) :
    ∀ e ∈ addedTokens cfg, e.2 ≠ [] := by
  intro e he
  obtain ⟨t, ht, _, h2⟩ := addedTokens_mem cfg he
  exact h2 ▸ hne t ht

theorem encodeAddedTokens_isSome (cfg : Config) (hne : ∀ t ∈ cfg.added_tokens, t.content ≠ [])
    (s : Text) : ∃ parts, encodeAddedTokens cfg s = some parts :=
  Option.isSome_iff_exists.mp
    (loop_isSome (addedTokens cfg) (addedTokens_nodup cfg) (addedTokens_ne_nil cfg hne) _ s
      (Nat.le_refl _))

/-! ## The claims on the splitter -/

/-- C17: when every added-token literal is non-empty, `encodeAddedTokens(s)`
returns, and replacing each ID of its result by the literal of that added
token and concatenating the elements in order gives `s` back. -/
theorem splitter_concat_is_input (cfg : Config)
    (hne : ∀ t ∈ cfg.added_tokens, t.content ≠ []) (s : Text) :
    ∃ parts, encodeAddedTokens cfg s = some parts ∧
      parts.flatMap (renderPart (addedTokens cfg)) = s := by
  obtain ⟨parts, hp⟩ := encodeAddedTokens_isSome cfg hne s
  exact ⟨parts, hp, loop_render _ (addedTokens_nodup cfg) _ _ _ hp⟩

/-- C17, at a concrete input: with the literals `ab` and `a` of `cfgTie`, the
text `bab` is split into `b`, the ID 3 and `b`. -/
theorem splitter_concat_is_input_witness :
    (∀ t ∈ cfgTie.added_tokens, t.content ≠ []) ∧
    encodeAddedTokens cfgTie "bab".toList
      = some [Part.text "b".toList, Part.id 3, Part.text "b".toList] ∧
    ∃ parts, encodeAddedTokens cfgTie "bab".toList = some parts ∧
      parts.flatMap (renderPart (addedTokens cfgTie)) = "bab".toList :=
  ⟨by decide, by decide!, splitter_concat_is_input cfgTie (by decide) "bab".toList⟩

/-- C18: when every added-token literal is non-empty, no string of the result
of `encodeAddedTokens(s)` is empty or contains an added-token literal, and
every occurrence of an added-token literal in `s` (at an offset `q`) overlaps
the stretch of `s` that some ID of the result stands for: that stretch starts
before the occurrence ends and ends after the occurrence starts. -/
theorem splitter_text_parts_clean (cfg : Config)
    (hne : ∀ t ∈ cfg.added_tokens, t.content ≠ []) (s : Text) :
    ∃ parts, encodeAddedTokens cfg s = some parts ∧
      (∀ t, Part.text t ∈ parts → t ≠ [] ∧ ∀ e ∈ addedTokens cfg, ¬ e.2 <:+: t) ∧
      ∀ e ∈ addedTokens cfg, ∀ q, e.2 <+: s.drop q →
        ∃ before n lit after, parts = before ++ Part.id n :: after ∧
          objGet (addedTokens cfg) n = some lit ∧
          (before.flatMap (renderPart (addedTokens cfg))).length < q + e.2.length ∧
          q < (before.flatMap (renderPart (addedTokens cfg))).length + lit.length := by
  obtain ⟨parts, hp⟩ := encodeAddedTokens_isSome cfg hne s
  have hlit := addedTokens_ne_nil cfg hne
  refine ⟨parts, hp, ?_, ?_⟩
  · intro t ht
    have hok := loop_parts_ok _ _ _ _ hp _ ht
    exact ⟨hok.1, fun e he => hok.2 e he (hlit e he)⟩
  · intro e he q hq
    exact loop_overlap _ (addedTokens_nodup cfg) _ _ _ hp e he (hlit e he) q hq

/-- C18, at a concrete input: the text `abb` with the literals `ab` and `a`
of `cfgTie`. -/
theorem splitter_text_parts_clean_witness :
    (∀ t ∈ cfgTie.added_tokens, t.content ≠ []) ∧
    encodeAddedTokens cfgTie "abb".toList = some [Part.id 3, Part.text "bb".toList] ∧
    ∃ parts, encodeAddedTokens cfgTie "abb".toList = some parts ∧
      (∀ t, Part.text t ∈ parts → t ≠ [] ∧ ∀ e ∈ addedTokens cfgTie, ¬ e.2 <:+: t) ∧
      ∀ e ∈ addedTokens cfgTie, ∀ q, e.2 <+: "abb".toList.drop q →
        ∃ before n lit after, parts = before ++ Part.id n :: after ∧
          objGet (addedTokens cfgTie) n = some lit ∧
          (before.flatMap (renderPart (addedTokens cfgTie))).length < q + e.2.length ∧
          q < (before.flatMap (renderPart (addedTokens cfgTie))).length + lit.length :=
  ⟨by decide, by decide!, splitter_text_parts_clean cfgTie (by decide) "abb".toList⟩

/-! ## No step of `encode` lengthens the token sequence -/

theorem replaceSubsequenceGo_length (a : List Tok) (x : Tok) (ha : a ≠ []) (fuel : Nat)
    (l out : List Tok) (h : replaceSubsequenceGo a [x] fuel l = some out) :
    out.length ≤ l.length := by
  have hpos : 0 < a.length := List.length_pos.mpr ha
  induction fuel generalizing l out with
  | zero =>
    cases l with
    | nil => simp [replaceSubsequenceGo] at h; subst h; simp
    | cons y rest => simp [replaceSubsequenceGo] at h
  | succ fuel ih =>
    cases l with
    | nil => simp [replaceSubsequenceGo] at h; subst h; simp
    | cons y rest =>
      have keep : ∀ o, (replaceSubsequenceGo a [x] fuel rest).map (y :: ·) = some o →
          o.length ≤ (y :: rest).length := by
        intro o ho
        cases hrec : replaceSubsequenceGo a [x] fuel rest with
        | none => simp [hrec] at ho
        | some r =>
          simp only [hrec, Option.map_some', Option.some.injEq] at ho
          subst ho
          have := ih rest r hrec
          simp only [List.length_cons]
          omega
      simp only [replaceSubsequenceGo] at h
      split at h
      · exact keep out h
      · split at h
        · simp only [List.singleton_append] at h
          cases hrec : replaceSubsequenceGo a [x] fuel ((y :: rest).drop a.length) with
          | none => simp [hrec] at h
          | some r =>
            simp only [hrec, Option.map_some', Option.some.injEq] at h
            subst h
            have := ih _ r hrec
            simp only [List.length_drop, List.length_cons] at this ⊢
            omega
        · exact keep out h

theorem replaceAll_length (l : List (Nat × List Tok)) (hl : ∀ e ∈ l, e.2 ≠ []) (n : Nat)
    (init : Option (List Tok)) (out : List Tok) (hinit : ∀ x, init = some x → x.length ≤ n)
    (h : l.foldl (fun acc e => acc.bind fun t =>
      replaceSubsequence (t.length + 1) t e.2 [Tok.key e.1]) init = some out) :
    out.length ≤ n := by
  induction l generalizing init with
  | nil => exact hinit out h
  | cons e l ih =>
    simp only [List.mem_cons, forall_eq_or_imp] at hl
    refine ih hl.2 _ ?_ h
    intro x hx
    cases init with
    | none => simp at hx
    | some t0 =>
      simp only [Option.some_bind, replaceSubsequence] at hx
      exact Nat.le_trans (replaceSubsequenceGo_length e.2 _ hl.1 _ t0 x hx) (hinit t0 rfl)

theorem mergePass_length_count (m : MergeObj) (l : List Tok) :
    (mergePass m l).length + mergePassCount m l = l.length := by
  cases l with
  | nil => rfl
  | cons x xs => exact mergeGo_length m x xs

theorem mergeEngine_length_le (ms : List MergeObj) (l : List Tok) :
    (mergeEngine ms l).length ≤ l.length := by
  induction ms generalizing l with
  | nil => exact Nat.le_refl _
  | cons m ms ih =>
    have h1 := ih (mergePass m l)
    have h2 := mergePass_length_count m l
    have h3 : mergeEngine (m :: ms) l = mergeEngine ms (mergePass m l) := rfl
    rw [h3]
    omega

theorem u0120Go_length_le (cfg : Config) (cur : Tok) (l : List Tok) :
    (u0120Go cfg cur l).length ≤ l.length + 1 := by
  induction l generalizing cur with
  | nil => exact Nat.le_refl _
  | cons y rest ih =>
    unfold u0120Go
    split
    · have := ih (u0120Lookup cfg y)
      simp only [List.length_cons]
      omega
    · have := ih y
      simp only [List.length_cons]
      omega

theorem u0120Pass_length_le (cfg : Config) (l : List Tok) :
    (u0120Pass cfg l).length ≤ l.length := by
  cases l with
  | nil => exact Nat.le_refl _
  | cons x xs => exact u0120Go_length_le cfg x xs

theorem collect_length_le {α β : Type} (f : α → Option (List β)) (g : α → Nat) (xs : List α)
    (hf : ∀ a ∈ xs, ∀ x, f a = some x → x.length ≤ g a) (out : List β)
    (h : collect (xs.map f) = some out) : out.length ≤ (xs.map g).sum := by
  induction xs generalizing out with
  | nil =>
    simp only [List.map_nil, collect, Option.some.injEq] at h
    subst h
    simp
  | cons a xs ih =>
    simp only [List.mem_cons, forall_eq_or_imp] at hf
    rw [List.map_cons] at h
    cases hfa : f a with
    | none => simp [hfa, collect] at h
    | some x =>
      cases hrec : collect (xs.map f) with
      | none => simp [hfa, hrec, collect] at h
      | some r =>
        simp only [hfa, hrec, collect, Option.map_some', Option.some.injEq] at h
        subst h
        have h1 := hf.1 x hfa
        have h2 := ih hf.2 r hrec
        simp only [List.length_append, List.map_cons, List.sum_cons]
        omega

theorem utf8Encode_flatten_length (ws : List Text) :
    (utf8Encode ws.flatten).length = (ws.map fun w => (utf8Encode w).length).sum := by
  induction ws with
  | nil => rfl
  | cons w ws ih =>
    have : utf8Encode (w ++ ws.flatten) = utf8Encode w ++ utf8Encode ws.flatten := by
      unfold utf8Encode
      rw [List.flatMap_append]
    rw [List.flatten_cons, this, List.length_append, ih]
    simp

theorem wordTokens_length (tk : Tokenizer) (hne : ∀ t ∈ tk.cfg.added_tokens, t.content ≠ [])
    (w : Text) (out : List Tok) (h : wordTokens tk w = some out) :
    out.length ≤ (utf8Encode w).length := by
  rw [wordTokens_engine] at h
  obtain ⟨t, ht, rfl⟩ := Option.map_eq_some'.mp h
  have h1 := replaceAll_length _ (addedTokensTokensMap_ne_nil tk.cfg hne) (utf8Encode w).length
    _ t (by intro x hx; cases hx; simp) ht
  exact Nat.le_trans (mergeEngine_length_le _ _) h1

theorem partTokens_length (tk : Tokenizer) (hne : ∀ t ∈ tk.cfg.added_tokens, t.content ≠ [])
    (part : Part) (out : List Tok) (h : partTokens tk part = some out) :
    out.length ≤ partBound part := by
  cases part with
  | id n =>
    simp only [partTokens, Option.some.injEq] at h
    subst h
    exact Nat.le_refl _
  | text t =>
    simp only [partTokens] at h
    have := collect_length_le (wordTokens tk) (fun w => (utf8Encode w).length)
      (splitWords tk.cfg.unicode t) (fun w _ x hx => wordTokens_length tk hne w x hx) out h
    rw [← utf8Encode_flatten_length, splitWords_flatten] at this
    exact this

theorem splitter_round_shortens (toks : List (Nat × Text)) (hne : ∀ e ∈ toks, e.2 ≠ [])
    (r : Text) (n : Nat) (lit : Text) (hn : (nearest toks r).2 = some n)
    (hlit : objGet toks n = some lit) :
    (r.drop ((nearest toks r).1 + lit.length)).length < r.length := by
  obtain ⟨h1, _, h3, _⟩ := nearest_spec toks r
  have hlt : (nearest toks r).1 < r.length := by
    rcases Nat.lt_or_ge (nearest toks r).1 r.length with h | h
    · exact h
    · have := h3 (Nat.le_antisymm h1 h)
      rw [hn] at this
      cases this
  have hpos : 0 < lit.length := List.length_pos.mpr (hne _ (objGet_mem hlit))
  rw [List.length_drop]
  omega

/-- C12: when every added-token literal is non-empty, `encode` returns on
every text, and the length of its result is at most the number of UTF-8 bytes
of the strings of the splitter's result plus the number of its IDs.  Every
round of the splitter that finds a literal goes on with a strictly shorter
remainder, a rule's pass shortens the sequence by the number of replacements
it makes, and the U+0120 loop does not lengthen it. -/
theorem encode_terminates_within_bound (tk : Tokenizer)
    (hne : ∀ t ∈ tk.cfg.added_tokens, t.content ≠ []) (s : Text) :
    (∃ parts out, encodeAddedTokens tk.cfg (tk.cfg.unicode.normalize s) = some parts ∧
      encode tk s = some out ∧ out.length ≤ (parts.map partBound).sum) ∧
    (∀ r n lit, (nearest (addedTokens tk.cfg) r).2 = some n →
      objGet (addedTokens tk.cfg) n = some lit →
      (r.drop ((nearest (addedTokens tk.cfg) r).1 + lit.length)).length < r.length) ∧
    (∀ m l, (mergePass m l).length + mergePassCount m l = l.length) ∧
    (∀ l, (u0120Pass tk.cfg l).length ≤ l.length) := by
  refine ⟨?_, fun r n lit => splitter_round_shortens _ (addedTokens_ne_nil tk.cfg hne) r n lit,
    mergePass_length_count, u0120Pass_length_le tk.cfg⟩
  obtain ⟨parts, hp⟩ := encodeAddedTokens_isSome tk.cfg hne (tk.cfg.unicode.normalize s)
  obtain ⟨out, ho⟩ := Option.isSome_iff_exists.mp (encode_isSome tk hne s)
  refine ⟨parts, out, hp, ho, ?_⟩
  unfold encode at ho
  rw [hp, Option.some_bind] at ho
  obtain ⟨pre, hpre, rfl⟩ := Option.map_eq_some'.mp ho
  have h1 := collect_length_le (partTokens tk) partBound parts
    (fun part _ x hx => partTokens_length tk hne part x hx) pre hpre
  exact Nat.le_trans (u0120Pass_length_le tk.cfg pre) h1

/-- C12, at a concrete input: in `cfgTie` the text `ab` is split into the ID 3
and the string `b`, and `encode` returns two tokens. -/
theorem encode_terminates_within_bound_witness :
    (∀ t ∈ cfgTie.added_tokens, t.content ≠ []) ∧
    encode ⟨cfgTie, []⟩ "ab".toList = some [Tok.num 3, Tok.num 65] ∧
    (∃ parts out,
      encodeAddedTokens cfgTie (cfgTie.unicode.normalize "ab".toList) = some parts ∧
      encode ⟨cfgTie, []⟩ "ab".toList = some out ∧ out.length ≤ (parts.map partBound).sum) :=
  ⟨by decide, by decide!,
    (encode_terminates_within_bound ⟨cfgTie, []⟩ (by decide) "ab".toList).1⟩

/-! ## The registration of the added tokens -/

theorem foldl_objSet_hit {α K V : Type} [DecidableEq K] (idx : K → Option Nat) (f : α → K)
    (g : α → V) (l : List α) (o : List (K × V)) (k : K) (h : ∃ t ∈ l, f t = k) :
    ∃ t ∈ l, f t = k ∧ objGet (l.foldl (fun o t => objSet idx o (f t) (g t)) o) k = some (g t) := by
  induction l generalizing o with
  | nil =>
    obtain ⟨t, ht, _⟩ := h
    simp at ht
  | cons t0 l ih =>
    by_cases hl : ∃ t ∈ l, f t = k
    · obtain ⟨t, ht, h1, h2⟩ := ih (objSet idx o (f t0) (g t0)) hl
      exact ⟨t, List.mem_cons_of_mem _ ht, h1, h2⟩
    · have hk : ∀ t ∈ l, f t ≠ k := fun t ht hft => hl ⟨t, ht, hft⟩
      obtain ⟨t, ht, hft⟩ := h
      rcases List.mem_cons.mp ht with rfl | ht'
      · refine ⟨t, List.mem_cons_self _ _, hft, ?_⟩
        rw [List.foldl_cons, foldl_objSet_keep idx f g l _ k hk, objGet_objSet, if_pos hft]
      · exact absurd hft (hk t ht')

theorem load_isSome_iff_spaces (cfg : Config) :
    (load cfg).isSome ↔ ∀ m ∈ cfg.merges, ' ' ∈ m := by
  have h := processedMergesOf_eq (vocab cfg) cfg.merges
  unfold load processedMerges
  rw [h]
  by_cases hall : ∀ m ∈ cfg.merges, ' ' ∈ m
  · simp [hall]
  · rw [if_neg hall]
    simp only [Option.map_none', Option.isSome_none, Bool.false_eq_true, false_iff]
    exact hall

theorem encodedAddedToken_ascii (cfg : Config) (c : Char) (hc : c.toNat < 128) :
    encodedAddedToken cfg [c] = [cfg.codec.byteToUnicode c.toNat] := by
  have h : utf8Encode [c] = [c.toNat] := by
    simp [utf8Encode, utf8Char, hc]
  unfold encodedAddedToken
  rw [h]
  rfl

/-- C11 (counterexample): in `cfgCollide` the added token has the ID 5 of the
entry `a` and the literal `b`, a key of the vocabulary with ID 7; the module
loads, and the key `b` then holds the added token's ID. -/
theorem registration_overwrites_on_collision :
    objGet (vocabRaw cfgCollide) "a".toList = some (Tok.num 5) ∧
    objGet (vocabRaw cfgCollide) "b".toList = some (Tok.num 7) ∧
    addedTokens cfgCollide = [(5, "b".toList)] ∧
    encodedAddedToken cfgCollide "b".toList = "b".toList ∧
    (load cfgCollide).isSome ∧
    objGet (vocab cfgCollide) "b".toList = some (Tok.key 5) := by
  refine ⟨by decide!, by decide!, by decide!, by decide!, ?_, by decide!⟩
  exact (load_isSome_iff_spaces cfgCollide).mpr (by intro m hm; cases hm)

/-- C11 (amended): vocabulary building assigns to the key computed from each
added token's literal the ID of an added token, whether or not the key is
present: after the build every such key holds the ID of an added token with
that key, and every other key holds what it held before.  The build never
fails on account of an added token: the module loads exactly when every merge
rule has a space.  For a literal of one ASCII character the key is the
surface character of its byte. -/
theorem registration_assigns_unconditionally (cfg : Config) :
    (∀ e ∈ addedTokens cfg, ∃ e' ∈ addedTokens cfg,
      encodedAddedToken cfg e'.2 = encodedAddedToken cfg e.2 ∧
      objGet (vocab cfg) (encodedAddedToken cfg e.2) = some (Tok.key e'.1)) ∧
    (∀ k, (∀ e ∈ addedTokens cfg, encodedAddedToken cfg e.2 ≠ k) →
      objGet (vocab cfg) k = objGet (vocabRaw cfg) k) ∧
    ((load cfg).isSome ↔ ∀ m ∈ cfg.merges, ' ' ∈ m) ∧
    ∀ c : Char, c.toNat < 128 → encodedAddedToken cfg [c] = [cfg.codec.byteToUnicode c.toNat] := by
  refine ⟨?_, fun k hk => vocab_keep cfg hk, load_isSome_iff_spaces cfg,
    encodedAddedToken_ascii cfg⟩
  intro e he
  exact foldl_objSet_hit textIdx (fun e : Nat × Text => encodedAddedToken cfg e.2)
    (fun e => Tok.key e.1) (addedTokens cfg) (vocabRaw cfg) _ ⟨e, he, rfl⟩

/-! ## The U+0120 loop and `decode` -/

theorem fst_eq_of_nodup_vals {K V : Type} {l : List (K × V)} (hnd : (l.map Prod.snd).Nodup)
    {k k' : K} {v : V} (h : (k, v) ∈ l) (h' : (k', v) ∈ l) : k = k' := by
  induction l with
  | nil => cases h
  | cons p l ih =>
    rw [List.map_cons, List.nodup_cons] at hnd
    have hmem : ∀ {x : K}, (x, v) ∈ l → v ∈ l.map Prod.snd :=
      fun hx => List.mem_map.mpr ⟨_, hx, rfl⟩
    rcases List.mem_cons.mp h with h1 | h1 <;> rcases List.mem_cons.mp h' with h2 | h2
    · exact (Prod.mk.inj (h1.trans h2.symm)).1
    · exact absurd (hmem h2) (by rw [← h1] at hnd; exact hnd.1)
    · exact absurd (hmem h1) (by rw [← h2] at hnd; exact hnd.1)
    · exact ih hnd.2 h1 h2

theorem charCodeAt0_eq_0x120 (c : Char) (h : charCodeAt0 c = 0x120) : c = Char.ofNat 0x120 := by
  apply char_eq_of_toNat_eq
  unfold charCodeAt0 at h
  split at h
  · rw [h]; rfl
  · omega

theorem not_added_of_get_none (cfg : Config) {n : Nat} (h : objGet (addedTokens cfg) n = none) :
    ∀ e ∈ addedTokens cfg, e.1 ≠ n := by
  intro e he hn
  have := objGet_of_mem_nodup (addedTokens_nodup cfg) (show (e.1, e.2) ∈ addedTokens cfg from he)
  rw [hn, h] at this
  cases this

theorem vocab_raw_of_not_added (cfg : Config) {k : Text} {v : Tok} {m : Nat}
    (h : (k, v) ∈ vocab cfg) (hv : v.prop = some m) (hm : objGet (addedTokens cfg) m = none) :
    (k, m) ∈ cfg.vocab := by
  rcases vocab_mem cfg h with ⟨n, hn, rfl⟩ | ⟨e, he, _, rfl⟩
  · simp only [Tok.prop, Option.some.injEq] at hv
    exact hv ▸ hn
  · simp only [Tok.prop, Option.some.injEq] at hv
    exact absurd hv (not_added_of_get_none cfg hm e he)

theorem vocabReversed_of_raw_unique (cfg : Config) (hinj : (cfg.vocab.map Prod.snd).Nodup)
    {k : Text} {v : Tok} {m : Nat} (h : (k, v) ∈ vocab cfg) (hv : v.prop = some m)
    (hm : objGet (addedTokens cfg) m = none) : objGet (vocabReversed cfg) m = some k := by
  apply vocabReversed_get_unique cfg h hv
  intro k' v' h' hv'
  exact fst_eq_of_nodup_vals hinj (vocab_raw_of_not_added cfg h' hv' hm)
    (vocab_raw_of_not_added cfg h hv hm)

theorem decodeToken_vocab (cfg : Config) (t : Tok) (n : Nat) (str : Text) (hp : t.prop = some n)
    (h1 : objGet (addedTokens cfg) n = none) (h2 : objGet (vocabReversed cfg) n = some str) :
    decodeToken cfg t = some (str.map fun c => toByte (cfg.codec.unicodeToBytes c)) := by
  unfold decodeToken
  simp only [hp, h1, h2]

theorem looseEq_prop {t : Tok} {n : Nat} (h : t.looseEq n = true) : t.prop = some n := by
  cases t with
  | num m => simp only [Tok.looseEq, beq_iff_eq] at h; simp [Tok.prop, h]
  | key m => simp only [Tok.looseEq, beq_iff_eq] at h; simp [Tok.prop, h]
  | undef => simp [Tok.looseEq] at h

theorem decodeToken_sentinel (cfg : Config) (hinj : (cfg.vocab.map Prod.snd).Nodup)
    (h209 : ([Char.ofNat 0x120], 209) ∈ cfg.vocab) (hadd : objGet (addedTokens cfg) 209 = none)
    (cur : Tok) (hc : cur.looseEq 209 = true) (hres : Resolvable cfg cur) :
    decodeToken cfg cur = some [toByte (cfg.codec.unicodeToBytes (Char.ofNat 0x120))] := by
  have hp := looseEq_prop hc
  obtain ⟨n, hn, hor⟩ := hres
  rw [hp] at hn
  cases hn
  rcases hor with h | h
  · rw [hadd] at h; cases h
  · obtain ⟨content, hcont⟩ := Option.isSome_iff_exists.mp h
    rcases reverse_foldl_some (vocab cfg) [] 209 content hcont with h1 | ⟨v, hv, hvp⟩
    · simp [objGet] at h1
    · have hraw := vocab_raw_of_not_added cfg hv hvp hadd
      have : content = [Char.ofNat 0x120] := fst_eq_of_nodup_vals hinj hraw h209
      rw [decodeToken_vocab cfg cur 209 content hp hadd hcont, this]
      rfl

theorem u0120_step_decode (cfg : Config) (hinj : (cfg.vocab.map Prod.snd).Nodup)
    (hkey : ∀ e ∈ addedTokens cfg, objGet (u0120Merges cfg) e.1 = none)
    (hval : ∀ e ∈ addedTokens cfg, ∀ p ∈ u0120Merges cfg, p.2.prop ≠ some e.1)
    (y : Tok) (ht : (u0120Lookup cfg y).truthy = true) :
    ∃ b, decodeToken cfg y = some b ∧
      decodeToken cfg (u0120Lookup cfg y)
        = some (toByte (cfg.codec.unicodeToBytes (Char.ofNat 0x120)) :: b) := by
  unfold u0120Lookup at ht ⊢
  cases hp : y.prop with
  | none => simp [hp, Tok.truthy] at ht
  | some n =>
    simp only [hp] at ht ⊢
    cases hg : objGet (u0120Merges cfg) n with
    | none => simp [hg, Tok.truthy] at ht
    | some c =>
      simp only [Option.getD_some]
      rcases u0120_foldl_entry (vocab cfg) (vocab cfg) [] n c hg with h0 | ⟨e, he, hent, hec⟩
      · simp [objGet] at h0
      · obtain ⟨ch, rest, r, he1, hch, _, hrest, hr⟩ := hent
        have hn_none : objGet (addedTokens cfg) n = none := by
          cases hx : objGet (addedTokens cfg) n with
          | none => rfl
          | some lit =>
            have := hkey _ (objGet_mem hx)
            rw [hg] at this
            cases this
        obtain ⟨m, hm⟩ : ∃ m, c.prop = some m := by
          rcases vocab_mem cfg (show (e.1, e.2) ∈ vocab cfg from he) with ⟨j, _, hj⟩ | ⟨a, _, _, hj⟩
          · exact ⟨j, by rw [← hec, hj]; rfl⟩
          · exact ⟨a.1, by rw [← hec, ← hj]; rfl⟩
        have hm_none : objGet (addedTokens cfg) m = none := by
          cases hx : objGet (addedTokens cfg) m with
          | none => rfl
          | some lit => exact absurd hm (hval _ (objGet_mem hx) _ (objGet_mem hg))
        have hrev_n := vocabReversed_of_raw_unique cfg hinj (objGet_mem hrest) hr hn_none
        have hrev_m := vocabReversed_of_raw_unique cfg hinj
          (show (e.1, c) ∈ vocab cfg from hec ▸ he) hm hm_none
        refine ⟨_, decodeToken_vocab cfg y n rest hp hn_none hrev_n, ?_⟩
        rw [decodeToken_vocab cfg c m e.1 hm hm_none hrev_m, he1, charCodeAt0_eq_0x120 ch hch]
        rfl

theorem u0120Go_decode (cfg : Config) (hinj : (cfg.vocab.map Prod.snd).Nodup)
    (h209 : ([Char.ofNat 0x120], 209) ∈ cfg.vocab) (hadd : objGet (addedTokens cfg) 209 = none)
    (hkey : ∀ e ∈ addedTokens cfg, objGet (u0120Merges cfg) e.1 = none)
    (hval : ∀ e ∈ addedTokens cfg, ∀ p ∈ u0120Merges cfg, p.2.prop ≠ some e.1)
    (cur : Tok) (l : List Tok) (hcur : Resolvable cfg cur) (hl : ∀ t ∈ l, Resolvable cfg t) :
    collect ((u0120Go cfg cur l).map (decodeToken cfg))
      = collect ((cur :: l).map (decodeToken cfg)) := by
  induction l generalizing cur with
  | nil => rfl
  | cons y rest ih =>
    simp only [List.mem_cons, forall_eq_or_imp] at hl
    by_cases hstep : cur.looseEq 209 = true ∧ (u0120Lookup cfg y).truthy = true
    · rw [u0120Go_merge cfg cur y rest hstep.1 hstep.2,
        ih _ (u0120_value_resolvable cfg y hstep.2) hl.2]
      obtain ⟨b, hb, hc⟩ := u0120_step_decode cfg hinj hkey hval y hstep.2
      have ha := decodeToken_sentinel cfg hinj h209 hadd cur hstep.1 hcur
      simp only [List.map_cons, hb, hc, ha, collect]
      cases collect (rest.map (decodeToken cfg)) <;> simp
    · have h : u0120Go cfg cur (y :: rest) = cur :: u0120Go cfg y rest := by
        have h0 : u0120Go cfg cur (y :: rest) =
            if cur.looseEq 209 ∧ (u0120Lookup cfg y).truthy
            then u0120Go cfg (u0120Lookup cfg y) rest else cur :: u0120Go cfg y rest := rfl
        rw [h0, if_neg hstep]
      have ih' := ih y hl.1 hl.2
      rw [h, List.map_cons, List.map_cons]
      cases decodeToken cfg cur with
      | none => rfl
      | some a =>
        simp only [collect]
        rw [ih']

/-- C19 (counterexample): `cfgSentinel` has a vocabulary with distinct IDs, also
after the added tokens are registered, 209 is the ID of U+0120, and the added
tokens' IDs 209 and 500 are neither keys nor values of the U+0120 table, whose
only entry is `64 ↦ 300`; the tokens 209 and 64 are resolvable and decode to
`xa`, but the pass turns them into `[300]`, which decodes to a space and `a`. -/
theorem u0120_pass_changes_decoded_text :
    (cfgSentinel.vocab.map Prod.snd).Nodup ∧
    (∀ e₁ ∈ vocab cfgSentinel, ∀ e₂ ∈ vocab cfgSentinel, e₁.2.prop = e₂.2.prop → e₁.1 = e₂.1) ∧
    objGet (vocab cfgSentinel) [Char.ofNat 0x120] = some (Tok.num 209) ∧
    u0120Merges cfgSentinel = [(64, Tok.num 300)] ∧
    (addedTokens cfgSentinel).map Prod.fst = [209, 500] ∧
    Resolvable cfgSentinel (Tok.num 209) ∧ Resolvable cfgSentinel (Tok.num 64) ∧
    u0120Pass cfgSentinel [Tok.num 209, Tok.num 64] = [Tok.num 300] ∧
    decode ⟨cfgSentinel, []⟩ [Tok.num 209, Tok.num 64] = some "xa".toList ∧
    decode ⟨cfgSentinel, []⟩ (u0120Pass cfgSentinel [Tok.num 209, Tok.num 64])
      = some " a".toList := by
  refine ⟨by decide, by decide!, by decide!, by decide!, by decide!,
    ⟨209, rfl, Or.inl (by decide!)⟩, ⟨64, rfl, Or.inr (by decide!)⟩, by decide!, by decide!,
    by decide!⟩

/-- C19 (amended): in a configuration whose vocabulary has distinct IDs, in
which 209 is the ID of the one-character string U+0120 and is not the ID of
an added token, and in which no added-token ID is a key or a value of the
U+0120 table, the pass keeps the decoded text of every sequence `q` of
resolvable tokens: `decode` returns on `q` and on the result of the pass, with
the same text. -/
theorem u0120_pass_preserves_decoded_text (tk : Tokenizer)
    (hinj : (tk.cfg.vocab.map Prod.snd).Nodup)
    (h209 : ([Char.ofNat 0x120], 209) ∈ tk.cfg.vocab)
    (hadd : objGet (addedTokens tk.cfg) 209 = none)
    (hkey : ∀ e ∈ addedTokens tk.cfg, objGet (u0120Merges tk.cfg) e.1 = none)
    (hval : ∀ e ∈ addedTokens tk.cfg, ∀ p ∈ u0120Merges tk.cfg, p.2.prop ≠ some e.1)
    (q : List Tok) (hq : ∀ t ∈ q, Resolvable tk.cfg t) :
    decode tk (u0120Pass tk.cfg q) = decode tk q ∧ (decode tk q).isSome := by
  refine ⟨?_, decode_isSome_of_resolvable tk q hq⟩
  cases q with
  | nil => rfl
  | cons x xs =>
    simp only [List.mem_cons, forall_eq_or_imp] at hq
    unfold decode
    rw [show u0120Pass tk.cfg (x :: xs) = u0120Go tk.cfg x xs from rfl,
      u0120Go_decode tk.cfg hinj h209 hadd hkey hval x xs hq.1 hq.2]

/-- C19 (amended), at a concrete input: in `cfgSpace` the pass turns the
tokens 209 and 64 into `[400]`, and both decode to a space and `a`. -/
theorem u0120_pass_preserves_decoded_text_witness :
    u0120Pass cfgSpace [Tok.num 209, Tok.num 64] = [Tok.num 400] ∧
    decode ⟨cfgSpace, []⟩ [Tok.num 209, Tok.num 64] = some " a".toList ∧
    (decode ⟨cfgSpace, []⟩ (u0120Pass cfgSpace [Tok.num 209, Tok.num 64])
      = decode ⟨cfgSpace, []⟩ [Tok.num 209, Tok.num 64] ∧
      (decode ⟨cfgSpace, []⟩ [Tok.num 209, Tok.num 64]).isSome) :=
  ⟨by decide!, by decide!,
    u0120_pass_preserves_decoded_text ⟨cfgSpace, []⟩ (by decide) (by decide) (by decide!)
      (by decide!) (by decide!) [Tok.num 209, Tok.num 64]
      (by
        intro t ht
        rcases List.mem_cons.mp ht with rfl | ht
        · exact ⟨209, rfl, Or.inr (by decide!)⟩
        · rcases List.mem_cons.mp ht with rfl | ht
          · exact ⟨64, rfl, Or.inr (by decide!)⟩
          · cases ht)⟩

end RWKV
